import Mathlib

/-!
Cortex: batch streams, chunk partitioning and the block-storage ingester.

A shallow embedding of `pkg/querier/batch/stream.go`, `pkg/querier/batch/merge.go`
and `pkg/ingester/ingester_v2.go`, followed by the properties established for them.

Conventions of the embedding:
* a Go slice is a `List`; `int64` timestamps are `Int` (they are only compared and copied);
* `float64` sample values are only ever copied by the code below, never inspected, and
  are represented by `Int`;
* a Go run-time panic (index out of range, slice bounds out of range) is the result
  `Except.error Fault.indexOutOfRange`; loops are unrolled by a fuel counter and
  `Fault.outOfFuel` is the result of a loop that did not finish within its fuel.
-/

namespace Cortex

/-! ## Batches (`promchunk.Batch`) -/

/-- Modelled from the spec: the constant `promchunk.BatchSize`, declared in
`pkg/prom1/storage/local/chunk`; the source uses 12. -/
def BatchSize : Nat := 12

/-- Modelled from the spec: the record `promchunk.Batch`, declared in
`pkg/prom1/storage/local/chunk`: `{ timestamps[B], values[B], index, length }`.
The two arrays of `BatchSize` slots are functions on slot numbers; every access in the
code below is bounds-checked against `BatchSize` explicitly. -/
structure Batch where
  Timestamps : Nat → Int
  Values : Nat → Int
  Index : Nat
  Length : Nat

/-- Ways in which an embedded function can fail to return. -/
inductive Fault where
  | indexOutOfRange
  | outOfFuel
  deriving DecidableEq, Repr

deriving instance DecidableEq for Except

/-- The zero value `promchunk.Batch{}`. -/
def Batch.zero : Batch :=
  { Timestamps := fun _ => 0, Values := fun _ => 0, Index := 0, Length := 0 }

/-- A batch holding the given samples in its first slots, read cursor at 0. -/
def Batch.ofSamples (xs : List (Int × Int)) : Batch :=
  { Timestamps := fun i => (xs.map Prod.fst).getD i 0
    Values := fun i => (xs.map Prod.snd).getD i 0
    Index := 0
    Length := xs.length }

/-- The populated entries of a batch: slots `0 .. Length-1`. -/
def Batch.samples (b : Batch) : List (Int × Int) :=
  (List.range b.Length).map (fun i => (b.Timestamps i, b.Values i))

/-- The entries of a batch at or after its read cursor: slots `Index .. Length-1`. -/
def Batch.pending (b : Batch) : List (Int × Int) :=
  ((List.range b.Length).drop b.Index).map (fun i => (b.Timestamps i, b.Values i))

/-- Array read `b.Timestamps[i]`. -/
def Batch.timestampAt (b : Batch) (i : Nat) : Except Fault Int :=
  if i < BatchSize then .ok (b.Timestamps i) else .error .indexOutOfRange

/-- Array read `b.Values[i]`. -/
def Batch.valueAt (b : Batch) (i : Nat) : Except Fault Int :=
  if i < BatchSize then .ok (b.Values i) else .error .indexOutOfRange

/-- The four statements `b.Timestamps[b.Index] = t; b.Values[b.Index] = v; b.Index++;
b.Length++` of `append`, for a cursor already known to be inside the arrays. -/
def Batch.put (b : Batch) (t v : Int) : Batch :=
  { Timestamps := Function.update b.Timestamps b.Index t
    Values := Function.update b.Values b.Index v
    Index := b.Index + 1
    Length := b.Length + 1 }

/-! ## Batch streams (`stream.go`) -/

/-- The type `batchStream []promchunk.Batch`. -/
abbrev batchStream := List Batch

namespace batchStream

/-- The populated samples of a stream, batch after batch. -/
def samples (bs : batchStream) : List (Int × Int) :=
  bs.flatMap Batch.samples

/-- The samples of a stream at or after the read cursors of its batches. -/
def pending (bs : batchStream) : List (Int × Int) :=
  bs.flatMap Batch.pending

/-- The timestamps of the populated samples of a stream. -/
def timestamps (bs : batchStream) : List Int :=
  (samples bs).map Prod.fst

/-- Embedding of `func (bs batchStream) append(t int64, v float64) batchStream`. -/
def append (bs : batchStream) (t : Int) (v : Int) : Except Fault batchStream :=
  let grow : Bool :=
    match bs.getLast? with
    | none => true
    | some last => last.Index == BatchSize
  let bs1 : batchStream := if grow then bs ++ [Batch.zero] else bs
  match bs1.getLast? with
  | none => .error .indexOutOfRange
  | some b =>
    if b.Index < BatchSize then
      .ok (bs1.dropLast ++ [b.put t v])
    else .error .indexOutOfRange

/-- Embedding of `func (bs *batchStream) reset()`. -/
def reset (bs : batchStream) : batchStream :=
  bs.map (fun b => { b with Index := 0 })

/-- Embedding of `func (bs *batchStream) hasNext() bool`. -/
def hasNext (bs : batchStream) : Bool :=
  decide (bs.length > 0)

/-- Embedding of `func (bs *batchStream) next()`. -/
def next : batchStream → Except Fault batchStream
  | [] => .error .indexOutOfRange
  | b :: rest =>
    let b1 : Batch := { b with Index := b.Index + 1 }
    if b1.Index ≥ b1.Length then .ok rest else .ok (b1 :: rest)

/-- Embedding of `func (bs *batchStream) atTime() int64`. -/
def atTime : batchStream → Except Fault Int
  | [] => .error .indexOutOfRange
  | b :: _ => b.timestampAt b.Index

/-- Embedding of `func (bs *batchStream) at() (int64, float64)`. -/
def atSample : batchStream → Except Fault (Int × Int)
  | [] => .error .indexOutOfRange
  | b :: _ => do
    let t ← b.timestampAt b.Index
    let v ← b.valueAt b.Index
    pure (t, v)

/-- Number of `next` calls after which a stream is certainly exhausted. -/
def weight (bs : batchStream) : Nat :=
  (bs.map (fun b => max 1 (b.Length - b.Index))).sum

end batchStream

/-- The loop `for ; src.hasNext(); src.next() { result = result.append(src.at()) }`
of `mergeStreams`. -/
def drainStream : Nat → batchStream → batchStream → Except Fault batchStream
  | 0, _, _ => .error .outOfFuel
  | fuel + 1, src, result =>
    if batchStream.hasNext src then do
      let s ← batchStream.atSample src
      let result ← batchStream.append result s.1 s.2
      let src ← batchStream.next src
      drainStream fuel src result
    else .ok result

/-- The body of `mergeStreams` after the initial `result.reset(); result = result[:0]`:
the comparison loop, then the two draining loops. -/
def mergeLoop : Nat → batchStream → batchStream → batchStream → Except Fault batchStream
  | 0, _, _, _ => .error .outOfFuel
  | fuel + 1, left, right, result =>
    if batchStream.hasNext left && batchStream.hasNext right then do
      let t1 ← batchStream.atTime left
      let t2 ← batchStream.atTime right
      if t1 < t2 then do
        let s ← batchStream.atSample left
        let result ← batchStream.append result s.1 s.2
        let left ← batchStream.next left
        mergeLoop fuel left right result
      else if t1 > t2 then do
        let s ← batchStream.atSample right
        let result ← batchStream.append result s.1 s.2
        let right ← batchStream.next right
        mergeLoop fuel left right result
      else do
        let s ← batchStream.atSample left
        let result ← batchStream.append result s.1 s.2
        let left ← batchStream.next left
        let right ← batchStream.next right
        mergeLoop fuel left right result
    else do
      let result ← drainStream (batchStream.weight left + 1) left result
      let result ← drainStream (batchStream.weight right + 1) right result
      pure result

/-- Embedding of `func mergeStreams(left, right batchStream, result batchStream) batchStream`. -/
def mergeStreams (left right result : batchStream) : Except Fault batchStream := do
  let result := batchStream.reset result
  let result := result.take 0
  let result ← mergeLoop (batchStream.weight left + batchStream.weight right + 1) left right result
  pure (batchStream.reset result)

end Cortex


namespace Cortex

/-! ## Chunk partitioning (`merge.go`) -/

/-- Modelled from the spec: the type `chunk.Chunk`, declared in `pkg/chunk`: an opaque
container with the exposed inclusive millisecond bounds `From` and `Through`; `Data`
stands for the remaining fields, which `partitionChunks` never reads. -/
structure Chunk where
  From : Int
  Through : Int
  Data : Nat
  deriving DecidableEq, Repr

/-- The call `sort.Sort(byFrom(cs))`, with `Less(i, j) = cs[i].From < cs[j].From`. The
library sort is represented by insertion sort; the properties below rely only on its result
being a permutation of the input in non-decreasing order of `From`. -/
def sortByFrom (cs : List Chunk) : List Chunk :=
  cs.insertionSort (fun a b => a.From ≤ b.From)

/-- The inner loop of `partitionChunks`: append `c` to the first list whose last chunk
ends strictly before `c.From`; `none` when no list accepts it. -/
def firstFit (c : Chunk) : List (List Chunk) → Except Fault (Option (List (List Chunk)))
  | [] => .ok none
  | cs :: rest =>
    match cs.getLast? with
    | none => .error .indexOutOfRange
    | some last =>
      if last.Through < c.From then .ok (some ((cs ++ [c]) :: rest))
      else
        match firstFit c rest with
        | .error e => .error e
        | .ok none => .ok none
        | .ok (some rest1) => .ok (some (cs :: rest1))

/-- The outer loop of `partitionChunks` over the sorted chunks. -/
def partitionLoop : List Chunk → List (List Chunk) → Except Fault (List (List Chunk))
  | [], css => .ok css
  | c :: cs, css =>
    match firstFit c css with
    | .error e => .error e
    | .ok (some css1) => partitionLoop cs css1
    | .ok none => partitionLoop cs (css ++ [[c]])

/-- Embedding of `func partitionChunks(cs []chunk.Chunk) [][]chunk.Chunk`. -/
def partitionChunks (cs : List Chunk) : Except Fault (List (List Chunk)) :=
  partitionLoop (sortByFrom cs) []

/-- Number of chunks of `cs` whose closed interval `[From, Through]` contains `p`. -/
def depthAt (cs : List Chunk) (p : Int) : Nat :=
  cs.countP (fun c => decide (c.From ≤ p ∧ p ≤ c.Through))

/-- Maximum overlap depth of `cs`: the largest number of chunks sharing a point. The
maximum over all points is attained at the start of some chunk, so it is computed
over the `From` values. -/
def maxOverlapDepth (cs : List Chunk) : Nat :=
  (cs.map (fun c => depthAt cs c.From)).foldr max 0

end Cortex


namespace Cortex

/-! ## The block-storage ingester (`ingester_v2.go`)

The ingester is embedded sequentially: one call at a time, with the registry lock held
as in the source, so that lock operations leave no trace. Calls into the storage library
are answered by a `World` and recorded, in order, as `Call` events. -/

/-- A label set: pairs of name and value. -/
abbrev Labels := List (String × String)

/-- Modelled from the spec: the wire sample `client.Sample` of `pkg/ingester/client`,
`{ts_ms, value}`. -/
structure Sample where
  Value : Int
  TimestampMs : Int
  deriving DecidableEq, Repr

/-- Modelled from the spec: the wire series `client.TimeSeries` of `pkg/ingester/client`,
a label set plus an ordered sequence of samples. -/
structure TimeSeries where
  Labels : Labels
  Samples : List Sample
  deriving DecidableEq, Repr

/-- Modelled from the spec: the wire request `client.WriteRequest` of
`pkg/ingester/client`, a sequence of series. -/
structure WriteRequest where
  Timeseries : List TimeSeries
  deriving DecidableEq, Repr

/-- Observable calls made by the ingester, with the error each call returned if any. -/
inductive Call where
  | openTSDB (udir : String) (err : Option String)
  | startShipper (userID : String)
  | inflightAdd
  | inflightDone
  | appender (db : Nat)
  | add (lset : Labels) (t : Int) (v : Int) (err : Option String)
  | rollback (err : Option String)
  | commit (err : Option String)
  | logWarn
  | reuseSlice
  deriving DecidableEq, Repr

/-- The storage library and file system as seen by one ingester call: each answer may
depend on the calls made so far. A database handle `*tsdb.DB` is a number. -/
structure World where
  joinPath : String → String → String
  openTSDB : String → Except String Nat
  addErr : List Call → Labels → Int → Int → Option String
  rollbackErr : List Call → Option String
  commitErr : List Call → Option String

/-- Modelled from the spec: the struct `Ingester`, declared in `pkg/ingester` outside the
given sources, with the `TSDBState` it embeds. Only the fields read by the functions below
are kept: the configured directory `cfg.TSDBConfig.Dir`, the map `dbs` (only handles
returned by a successful `tsdb.Open` are ever stored, so stored handles are never nil) and
the `stopped` flag. -/
structure Ingester where
  dir : String
  dbs : String → Option Nat
  stopped : Bool

/-- What a call leaves behind: the ingester afterwards, the calls made, the result. -/
structure Run (α : Type) where
  ingester : Ingester
  calls : List Call
  result : Except String α

/-- Embedding of `func (i *Ingester) userDir(userID string) string`. -/
def Ingester.userDir (w : World) (i : Ingester) (userID : String) : String :=
  w.joinPath i.dir userID

/-- Embedding of `func (i *Ingester) getTSDB(userID string) *tsdb.DB`; `none` is nil. -/
def Ingester.getTSDB (i : Ingester) (userID : String) : Option Nat :=
  i.dbs userID

/-- Embedding of `func (i *Ingester) getOrCreateTSDB(userID string) (*tsdb.DB, error)`. -/
def Ingester.getOrCreateTSDB (w : World) (i : Ingester) (userID : String) : Run Nat :=
  match i.getTSDB userID with
  | some db => { ingester := i, calls := [], result := .ok db }
  | none =>
    match i.dbs userID with
    | some db => { ingester := i, calls := [], result := .ok db }
    | none =>
      let udir := i.userDir w userID
      match w.openTSDB udir with
      | .error err =>
        { ingester := i, calls := [.openTSDB udir (some err)], result := .error err }
      | .ok db =>
        { ingester := { i with dbs := Function.update i.dbs userID (some db) }
          calls := [.openTSDB udir none, .startShipper userID]
          result := .ok db }

/-- The function `user.ExtractOrgID`: the request context either carries a tenant
identifier or does not. -/
def ExtractOrgID (ctx : Option String) : Except String String :=
  match ctx with
  | some userID => .ok userID
  | none => .error "no org id"

/-- Modelled from the spec: the conversion `cortex_tsdb.FromLabelAdaptersToLabels` of
`pkg/storage/tsdb`, which converts the labels of a series into the label representation
of the store; names and values are kept. -/
def FromLabelAdaptersToLabels (ls : Labels) : Labels := ls

/-- The inner loop of `v2Push` over the samples of one series. The second component is
the error with which `v2Push` returns from inside the loop, if it does. -/
def addSamples (w : World) (lset : Labels) :
    List Sample → List Call → List Call × Option String
  | [], calls => (calls, none)
  | s :: rest, calls =>
    match w.addErr calls lset s.TimestampMs s.Value with
    | some err =>
      let calls1 := calls ++ [.add lset s.TimestampMs s.Value (some err)]
      match w.rollbackErr calls1 with
      | some rerr => (calls1 ++ [.rollback (some rerr), .logWarn], some err)
      | none => (calls1 ++ [.rollback none], some err)
    | none => addSamples w lset rest (calls ++ [.add lset s.TimestampMs s.Value none])

/-- The outer loop of `v2Push` over the series of the request. -/
def addSeries (w : World) : List TimeSeries → List Call → List Call × Option String
  | [], calls => (calls, none)
  | ts :: rest, calls =>
    let lset := FromLabelAdaptersToLabels ts.Labels
    match addSamples w lset ts.Samples calls with
    | (calls1, some err) => (calls1, some err)
    | (calls1, none) => addSeries w rest calls1

/-- Embedding of `func (i *Ingester) v2Push(ctx, req) (*client.WriteResponse, error)`.
The deferred `inflightWriteReqs.Done()` is the last call of every path that reached
`inflightWriteReqs.Add(1)`. -/
def Ingester.v2Push (w : World) (i : Ingester) (ctx : Option String) (req : WriteRequest) :
    Run Unit :=
  match ExtractOrgID ctx with
  | .error _ => { ingester := i, calls := [], result := .error "no user id" }
  | .ok userID =>
    let r := i.getOrCreateTSDB w userID
    match r.result with
    | .error err => { ingester := r.ingester, calls := r.calls, result := .error err }
    | .ok db =>
      if r.ingester.stopped then
        { ingester := r.ingester, calls := r.calls, result := .error "ingester stopping" }
      else
        match addSeries w req.Timeseries (r.calls ++ [.inflightAdd, .appender db]) with
        | (calls1, some err) =>
          { ingester := r.ingester, calls := calls1 ++ [.inflightDone], result := .error err }
        | (calls1, none) =>
          match w.commitErr calls1 with
          | some err =>
            { ingester := r.ingester, calls := calls1 ++ [.commit (some err), .inflightDone]
              result := .error err }
          | none =>
            { ingester := r.ingester
              calls := calls1 ++ [.commit none, .reuseSlice, .inflightDone]
              result := .ok () }

end Cortex


namespace Cortex

/-- The call is an `app.Add`. -/
def Call.isAdd : Call → Bool
  | .add _ _ _ _ => true
  | _ => false

/-- The call is an `app.Add` that returned no error. -/
def Call.isOkAdd : Call → Bool
  | .add _ _ _ none => true
  | _ => false

/-- The call is an `app.Rollback`. -/
def Call.isRollback : Call → Bool
  | .rollback _ => true
  | _ => false

/-- The call is an `app.Commit`. -/
def Call.isCommit : Call → Bool
  | .commit _ => true
  | _ => false

/-- The call obtains or uses an appender, or touches the in-flight counter. -/
def Call.isWritePath : Call → Bool
  | .inflightAdd => true
  | .inflightDone => true
  | .appender _ => true
  | .add _ _ _ _ => true
  | .rollback _ => true
  | .commit _ => true
  | _ => false

end Cortex

namespace Cortex

/-- The call is a `tsdb.Open`. -/
def Call.isOpen : Call → Bool
  | .openTSDB _ _ => true
  | _ => false

/-- The call starts a shipper task. -/
def Call.isStartShipper : Call → Bool
  | .startShipper _ => true
  | _ => false

end Cortex


namespace Cortex

/-! ## Matcher translation in `v2Query` (`ingester_v2.go`) -/

/-- The match types of `pkg/labels`; `other` stands for any further value of the
underlying integer type, which the `switch` of `v2Query` skips. -/
inductive MatchType where
  | MatchEqual
  | MatchNotEqual
  | MatchRegexp
  | MatchNotRegexp
  | other (code : Nat)
  deriving DecidableEq, Repr

/-- The fields of `labels.Matcher` read by `v2Query` (`Typ` is the field `Type`). -/
structure Matcher where
  Typ : MatchType
  Name : String
  Value : String
  deriving DecidableEq, Repr

/-- The regular-expression library used by `lbls.NewRegexpMatcher`: compiled expressions,
`regexp.Compile` and `(*Regexp).MatchString`. -/
structure RegexpLib where
  Regexp : Type
  Compile : String → Except String Regexp
  MatchString : Regexp → String → Bool

/-- The matchers of `tsdb/labels` built by `v2Query`: `NewEqualMatcher`, the result of
`NewRegexpMatcher`, and `Not`. -/
inductive TSDBMatcher (R : Type) where
  | equal (name : String) (value : String)
  | regexp (name : String) (re : R)
  | not (m : TSDBMatcher R)
  deriving DecidableEq, Repr

/-- The method `Matches` of the three matcher kinds. -/
def TSDBMatcher.Matches (lib : RegexpLib) : TSDBMatcher lib.Regexp → String → Bool
  | .equal _ value, v => v == value
  | .regexp _ re, v => lib.MatchString re v
  | .not m, v => !(TSDBMatcher.Matches lib m v)

/-- The constructor `lbls.NewEqualMatcher`. -/
def NewEqualMatcher (R : Type) (name value : String) : TSDBMatcher R := .equal name value

/-- The constructor `lbls.NewRegexpMatcher`: compile the pattern, fail when it does not
compile. -/
def NewRegexpMatcher (lib : RegexpLib) (name pattern : String) :
    Except String (TSDBMatcher lib.Regexp) :=
  match lib.Compile pattern with
  | .error err => .error err
  | .ok re => .ok (.regexp name re)

/-- The string handed to `NewRegexpMatcher` for a matcher value. -/
def anchored (value : String) : String := "^(?:" ++ value ++ ")$"

/-- The matcher conversion loop of `v2Query`: `converted` is the slice built so far; an
error is the error with which `v2Query` returns from inside the loop. -/
def convertMatchers (lib : RegexpLib) :
    List Matcher → List (TSDBMatcher lib.Regexp) → Except String (List (TSDBMatcher lib.Regexp))
  | [], converted => .ok converted
  | m :: rest, converted =>
    match m.Typ with
    | .MatchEqual =>
      convertMatchers lib rest (converted ++ [NewEqualMatcher lib.Regexp m.Name m.Value])
    | .MatchNotEqual =>
      convertMatchers lib rest (converted ++ [.not (NewEqualMatcher lib.Regexp m.Name m.Value)])
    | .MatchRegexp =>
      match NewRegexpMatcher lib m.Name ("^(?:" ++ m.Value ++ ")$") with
      | .error err => .error err
      | .ok rm => convertMatchers lib rest (converted ++ [rm])
    | .MatchNotRegexp =>
      match NewRegexpMatcher lib m.Name ("^(?:" ++ m.Value ++ ")$") with
      | .error err => .error err
      | .ok rm => convertMatchers lib rest (converted ++ [.not rm])
    | .other _ => convertMatchers lib rest converted

/-! ### A model of Go regular expressions on a fragment of the syntax

The fragment: literal characters, `.`, the postfix operators `*`, `+`, `?` with their
non-greedy forms, alternation, groups `(...)` and `(?:...)`, and the anchors `^` and `$`.
On a pattern of the fragment `Re.compile` answers as `regexp.Compile` does, error texts
included; a pattern that uses anything else (classes, escapes, counted repetition, flags)
is reported as outside the fragment, which `Re.inFragment` tells apart. The model is
used only to evaluate the translation on concrete patterns of the fragment; the general
statements hold for every `RegexpLib`. -/

/-- Syntax trees of the fragment. -/
inductive Re where
  | empty
  | lit (c : Char)
  | any
  | beginText
  | endText
  | cat (a : Re) (b : Re)
  | alt (a : Re) (b : Re)
  | star (a : Re)
  | plus (a : Re)
  | opt (a : Re)
  deriving DecidableEq, Repr

/-- Outcomes of parsing other than a syntax tree: the four syntax errors of
`regexp/syntax` that a pattern of the fragment can have, a pattern outside the fragment,
and exhausted fuel. -/
inductive Re.Err where
  | missingParen
  | unexpectedParen
  | missingRepeatArgument (ops : String)
  | invalidRepeatOp (ops : String)
  | unmodelled
  | tooDeep
  deriving DecidableEq, Repr

/-- The text of `(*syntax.Error).Error()` for the pattern `whole`. -/
def Re.Err.text (whole : String) : Re.Err → String
  | .missingParen => "error parsing regexp: missing closing ): `" ++ whole ++ "`"
  | .unexpectedParen => "error parsing regexp: unexpected ): `" ++ whole ++ "`"
  | .missingRepeatArgument ops =>
    "error parsing regexp: missing argument to repetition operator: `" ++ ops ++ "`"
  | .invalidRepeatOp ops =>
    "error parsing regexp: invalid nested repetition operator: `" ++ ops ++ "`"
  | .unmodelled => "outside the modelled fragment"
  | .tooDeep => "pattern too deep for the model"

/-- Characters with a meaning of their own in the pattern syntax. -/
def Re.isMeta (c : Char) : Bool :=
  c ∈ ['(', ')', '*', '+', '?', '|', '.', '^', '$', '[', ']',
    Char.ofNat 123, Char.ofNat 125, Char.ofNat 92]

/-- The repetition operators. -/
def Re.isRepeat (c : Char) : Bool :=
  c ∈ ['*', '+', '?']

/-- The repetition operator at the head of the input together with the question mark
that makes it non-greedy, if there is one. -/
def Re.repeatText : List Char → List Char
  | c :: '?' :: _ => [c, '?']
  | c :: _ => [c]
  | [] => []

/-- The input after the repetition operator at its head and the question mark that
makes it non-greedy. -/
def Re.afterRepeat : List Char → List Char
  | _ :: '?' :: rest => rest
  | _ :: rest => rest
  | [] => []

/-- The expression built by a repetition operator; greedy and non-greedy forms match the
same strings. -/
def Re.applyRepeat (c : Char) (a : Re) : Re :=
  if c = '*' then .star a else if c = '+' then .plus a else .opt a

mutual

/-- Alternation: one or more sequences separated by a bar. -/
def Re.parseAlt : Nat → List Char → Except Re.Err (Re × List Char)
  | 0, _ => .error .tooDeep
  | fuel + 1, cs =>
    match Re.parseCat fuel cs with
    | .error err => .error err
    | .ok (a, '|' :: rest) =>
      match Re.parseAlt fuel rest with
      | .error err => .error err
      | .ok (b, rest1) => .ok (.alt a b, rest1)
    | .ok (a, rest) => .ok (a, rest)

/-- Sequence: items up to the end of the pattern, a bar or a closing parenthesis. -/
def Re.parseCat : Nat → List Char → Except Re.Err (Re × List Char)
  | 0, _ => .error .tooDeep
  | _ + 1, [] => .ok (.empty, [])
  | _ + 1, '|' :: rest => .ok (.empty, '|' :: rest)
  | _ + 1, ')' :: rest => .ok (.empty, ')' :: rest)
  | fuel + 1, cs =>
    match Re.parseItem fuel cs with
    | .error err => .error err
    | .ok (a, rest) =>
      match Re.parseCat fuel rest with
      | .error err => .error err
      | .ok (.empty, rest1) => .ok (a, rest1)
      | .ok (b, rest1) => .ok (.cat a b, rest1)

/-- Item: an atom followed by at most one repetition operator; a second repetition
operator right after the first is the error of nested repetition. -/
def Re.parseItem : Nat → List Char → Except Re.Err (Re × List Char)
  | 0, _ => .error .tooDeep
  | fuel + 1, cs =>
    match Re.parseAtom fuel cs with
    | .error err => .error err
    | .ok (a, []) => .ok (a, [])
    | .ok (a, c :: rest) =>
      if Re.isRepeat c then
        match Re.afterRepeat (c :: rest) with
        | [] => .ok (Re.applyRepeat c a, [])
        | d :: rest1 =>
          if Re.isRepeat d then
            .error (.invalidRepeatOp
              (String.mk (Re.repeatText (c :: rest) ++ Re.repeatText (d :: rest1))))
          else .ok (Re.applyRepeat c a, d :: rest1)
      else .ok (a, c :: rest)

/-- Atom: a group, a dot, an anchor or a literal character. -/
def Re.parseAtom : Nat → List Char → Except Re.Err (Re × List Char)
  | 0, _ => .error .tooDeep
  | _ + 1, [] => .error .unmodelled
  | fuel + 1, '(' :: '?' :: ':' :: rest =>
    match Re.parseAlt fuel rest with
    | .error err => .error err
    | .ok (a, ')' :: rest1) => .ok (a, rest1)
    | .ok _ => .error .missingParen
  | _ + 1, '(' :: '?' :: _ => .error .unmodelled
  | fuel + 1, '(' :: rest =>
    match Re.parseAlt fuel rest with
    | .error err => .error err
    | .ok (a, ')' :: rest1) => .ok (a, rest1)
    | .ok _ => .error .missingParen
  | _ + 1, '.' :: rest => .ok (.any, rest)
  | _ + 1, '^' :: rest => .ok (.beginText, rest)
  | _ + 1, '$' :: rest => .ok (.endText, rest)
  | _ + 1, c :: rest =>
    if Re.isRepeat c then
      .error (.missingRepeatArgument (String.mk (Re.repeatText (c :: rest))))
    else if Re.isMeta c then .error .unmodelled
    else .ok (.lit c, rest)

end

/-- The parse of a whole pattern: a syntax tree, or why there is none. -/
def Re.parse (pattern : String) : Except Re.Err Re :=
  match Re.parseAlt (4 * pattern.length + 4) pattern.toList with
  | .error err => .error err
  | .ok (a, []) => .ok a
  | .ok (_, ')' :: _) => .error .unexpectedParen
  | .ok _ => .error .unmodelled

/-- The pattern lies in the modelled fragment: its parse is a syntax tree or one of the
syntax errors of `regexp/syntax`. -/
def Re.inFragment (pattern : String) : Bool :=
  match Re.parse pattern with
  | .error .unmodelled => false
  | .error .tooDeep => false
  | _ => true

/-- The model of `regexp.Compile` on the fragment. -/
def Re.compile (pattern : String) : Except String Re :=
  match Re.parse pattern with
  | .error err => .error (err.text pattern)
  | .ok a => .ok a

/-- Positions reachable from the positions `acc` by repeating `step`. -/
def Re.closure (step : Nat → List Nat) : Nat → List Nat → List Nat
  | 0, acc => acc
  | fuel + 1, acc =>
    let fresh := ((acc.flatMap step).filter (fun p => !acc.contains p)).eraseDups
    if fresh.isEmpty then acc else Re.closure step fuel (acc ++ fresh)

/-- The positions at which a match of the expression starting at position `i` of `s`
can end. -/
def Re.ends (s : List Char) : Re → Nat → List Nat
  | .empty, i => [i]
  | .lit c, i => if s[i]? = some c then [i + 1] else []
  | .any, i =>
    match s[i]? with
    | some c => if c = Char.ofNat 10 then [] else [i + 1]
    | none => []
  | .beginText, i => if i = 0 then [i] else []
  | .endText, i => if i = s.length then [i] else []
  | .cat a b, i => (Re.ends s a i).flatMap (fun j => Re.ends s b j)
  | .alt a b, i => Re.ends s a i ++ Re.ends s b i
  | .star a, i => Re.closure (fun j => Re.ends s a j) (s.length + 1) [i]
  | .plus a, i =>
    (Re.ends s a i).flatMap (fun k => Re.closure (fun j => Re.ends s a j) (s.length + 1) [k])
  | .opt a, i => i :: Re.ends s a i

/-- The model of `MatchString`: some substring of `s` matches the expression. -/
def Re.matchString (re : Re) (s : String) : Bool :=
  (List.range (s.length + 1)).any (fun i => !(Re.ends s.toList re i).isEmpty)

/-- The model of Go regular expressions on the fragment, as a library. -/
def goRegexp : RegexpLib :=
  { Regexp := Re, Compile := Re.compile, MatchString := Re.matchString }

end Cortex

namespace Cortex

instance : DecidableEq goRegexp.Regexp := inferInstanceAs (DecidableEq Re)

/-- What the claim about matcher translation requires of the matcher `x` produced for
the wire matcher `m`. -/
def Translates (lib : RegexpLib) (m : Matcher) (x : TSDBMatcher lib.Regexp) : Prop :=
  match m.Typ with
  | .MatchEqual => x = .equal m.Name m.Value
  | .MatchNotEqual => x = .not (.equal m.Name m.Value)
  | .MatchRegexp =>
    ∃ re, lib.Compile ("^(?:" ++ m.Value ++ ")$") = .ok re ∧ x = .regexp m.Name re
  | .MatchNotRegexp =>
    ∃ re, lib.Compile ("^(?:" ++ m.Value ++ ")$") = .ok re ∧ x = .not (.regexp m.Name re)
  | .other _ => False

/-- The matcher is of one of the two regular-expression types. -/
def Matcher.isRegexp (m : Matcher) : Prop :=
  m.Typ = .MatchRegexp ∨ m.Typ = .MatchNotRegexp

end Cortex


namespace Cortex

/-! ## The merge iterator (`merge.go`) -/

/-- The last populated timestamp of a batch, `batch.Timestamps[batch.Length-1]`. -/
def Batch.endTime (b : Batch) : Int := b.Timestamps (b.Length - 1)

/-- Modelled from the spec: the type `nonOverlappingIterator` and the `iterator`
interface it implements, declared in `pkg/querier/batch` outside the given sources.
Following section 4.2, the iterator emits a sequence of batches in order: `cur` is the
batch it stands on (none before the first `Next` and after exhaustion), `rest` the
batches still to come. For the iterator `size` is a hint (section 4.2): the batches may
hold any number of samples, whatever `size` is passed; the statements below restrict
that number themselves. No call returns an error. -/
structure nonOverlappingIterator where
  cur : Option Batch
  rest : List Batch

namespace nonOverlappingIterator

/-- Modelled from the spec: `Next(size) → bool`: advance one batch. -/
def Next (it : nonOverlappingIterator) (_size : Nat) : nonOverlappingIterator × Bool :=
  match it.rest with
  | [] => ({ cur := none, rest := [] }, false)
  | b :: r => ({ cur := some b, rest := r }, true)

/-- Modelled from the spec: `Seek(t, size) → bool`: skip until a batch ending at or
after `t` is available. -/
def Seek (it : nonOverlappingIterator) (t : Int) (_size : Nat) :
    nonOverlappingIterator × Bool :=
  match (it.cur.toList ++ it.rest).dropWhile (fun b => decide (b.endTime < t)) with
  | [] => ({ cur := none, rest := [] }, false)
  | b :: r => ({ cur := some b, rest := r }, true)

/-- Modelled from the spec: `AtTime() → i64`, the first timestamp of the current batch. -/
def AtTime (it : nonOverlappingIterator) : Except Fault Int :=
  match it.cur with
  | none => .error .indexOutOfRange
  | some b => b.timestampAt 0

/-- Modelled from the spec: `Batch() → Batch`, the current batch. -/
def Batch (it : nonOverlappingIterator) : Except Fault Batch :=
  match it.cur with
  | none => .error .indexOutOfRange
  | some b => .ok b

/-- All samples the iterator has still to offer, the current batch included. -/
def content (it : nonOverlappingIterator) : List (Int × Int) :=
  batchStream.samples (it.cur.toList ++ it.rest)

/-- Number of batches the iterator has still to offer, the current batch included. -/
def remaining (it : nonOverlappingIterator) : Nat :=
  (it.cur.toList ++ it.rest).length

end nonOverlappingIterator

/-- Modelled from the spec: the `append` used by the four-argument `mergeStreams` that
`buildNextBatch` calls; `stream.go` has only the form without `size`. Following sections
4.2 and 4.3, `size` is the batch fill level: the last batch has room while its fill level
differs from `size`; everything else is the `append` of `stream.go`, the bounds of the
arrays of `BatchSize` slots included. -/
def batchStream.appendSized (bs : batchStream) (t : Int) (v : Int) (size : Nat) :
    Except Fault batchStream :=
  let grow : Bool :=
    match bs.getLast? with
    | none => true
    | some last => last.Index == size
  let bs1 : batchStream := if grow then bs ++ [Batch.zero] else bs
  match bs1.getLast? with
  | none => .error .indexOutOfRange
  | some b =>
    if b.Index < BatchSize then
      .ok (bs1.dropLast ++ [b.put t v])
    else .error .indexOutOfRange

/-- Modelled from the spec: the draining loops of the four-argument `mergeStreams`, the
loops of `stream.go` with `size` handed on to `append`. -/
def drainStreamSized (size : Nat) : Nat → batchStream → batchStream → Except Fault batchStream
  | 0, _, _ => .error .outOfFuel
  | fuel + 1, src, result =>
    if batchStream.hasNext src then do
      let s ← batchStream.atSample src
      let result ← batchStream.appendSized result s.1 s.2 size
      let src ← batchStream.next src
      drainStreamSized size fuel src result
    else .ok result

/-- Modelled from the spec: the comparison loop of the four-argument `mergeStreams`, the
loop of `stream.go` with `size` handed on to `append`. -/
def mergeLoopSized (size : Nat) :
    Nat → batchStream → batchStream → batchStream → Except Fault batchStream
  | 0, _, _, _ => .error .outOfFuel
  | fuel + 1, left, right, result =>
    if batchStream.hasNext left && batchStream.hasNext right then do
      let t1 ← batchStream.atTime left
      let t2 ← batchStream.atTime right
      if t1 < t2 then do
        let s ← batchStream.atSample left
        let result ← batchStream.appendSized result s.1 s.2 size
        let left ← batchStream.next left
        mergeLoopSized size fuel left right result
      else if t1 > t2 then do
        let s ← batchStream.atSample right
        let result ← batchStream.appendSized result s.1 s.2 size
        let right ← batchStream.next right
        mergeLoopSized size fuel left right result
      else do
        let s ← batchStream.atSample left
        let result ← batchStream.appendSized result s.1 s.2 size
        let left ← batchStream.next left
        let right ← batchStream.next right
        mergeLoopSized size fuel left right result
    else do
      let result ← drainStreamSized size (batchStream.weight left + 1) left result
      let result ← drainStreamSized size (batchStream.weight right + 1) right result
      pure result

/-- Modelled from the spec: the call `mergeStreams(c.batches, c.nextBatches,
c.nextBatchesBuf, size)` of `buildNextBatch` has four arguments, while `stream.go` defines
`mergeStreams` with three. It is the merge of section 4.1 into the buffer `result`, with
the batches of the result filled up to `size` samples (sections 4.2 and 4.3: `size` is
the fill level that flows from the consumer); `merge.go` hands `size` on as it receives
it, without a cap. -/
def mergeStreamsSized (left right result : batchStream) (size : Nat) :
    Except Fault batchStream := do
  let result := batchStream.reset result
  let result := result.take 0
  let result ←
    mergeLoopSized size (batchStream.weight left + batchStream.weight right + 1) left right
      result
  pure (batchStream.reset result)

/-- The fields of `mergeIterator`. The heap `h` holds references to the iterators of
`its`, represented by their positions in `its`; `capacity` is the capacity `len(its)*2`
of the array behind `batches`; `currErr` is never set, because the modelled iterators
return no error. -/
structure mergeIterator where
  its : List nonOverlappingIterator
  h : List Nat
  batches : batchStream
  nextBatches : batchStream
  nextBatchesBuf : batchStream
  batchesBuf : batchStream
  capacity : Nat

/-- The key of `iteratorHeap.Less`: `AtTime()` of the iterator at position `i`. -/
def heapKey (its : List nonOverlappingIterator) (i : Nat) : Int :=
  match its[i]? with
  | some it =>
    match it.cur with
    | some b => b.Timestamps 0
    | none => 0
  | none => 0

/-- The call `heap.Init(&c.h)` of `container/heap`, represented by its contract: the
elements are rearranged so that `h[0]` has the least key. The arrangement chosen is the
sorted one; `merge.go` only ever reads `h[0]` and `len(h)`. -/
def heapInit (its : List nonOverlappingIterator) (h : List Nat) : List Nat :=
  h.insertionSort (fun i j => heapKey its i ≤ heapKey its j)

/-- The call `heap.Fix(&c.h, 0)`: restore the order after the key of `h[0]` changed. -/
def heapFix0 (its : List nonOverlappingIterator) : List Nat → List Nat
  | [] => []
  | i :: rest => rest.orderedInsert (fun i j => heapKey its i ≤ heapKey its j) i

/-- The call `heap.Pop(&c.h)`: remove the element of least key, `h[0]`. -/
def heapPop (h : List Nat) : List Nat := h.tail

/-- The loops `for _, iter := range c.its { if iter.X(...) { c.h = append(c.h, iter) } }`
of `newMergeIterator` and `Seek`: every iterator is advanced by `f`, and those for which
`f` returned true are collected, in order; `i` is the position of the first iterator. -/
def advanceAll (f : nonOverlappingIterator → nonOverlappingIterator × Bool) :
    List nonOverlappingIterator → Nat → List nonOverlappingIterator × List Nat
  | [], _ => ([], [])
  | it :: rest, i =>
    (((f it).1 :: (advanceAll f rest (i + 1)).1),
      (if (f it).2 then i :: (advanceAll f rest (i + 1)).2 else (advanceAll f rest (i + 1)).2))

/-- Embedding of `func newMergeIterator(cs []chunk.Chunk) *mergeIterator`, from the point
where the non-overlapping iterators `its` have been built from the partitioned chunks. -/
def newMergeIterator (its : List nonOverlappingIterator) : mergeIterator :=
  let adv := advanceAll (fun it => it.Next 1) its 0
  { its := adv.1
    h := heapInit adv.1 adv.2
    batches := []
    nextBatches := []
    nextBatchesBuf := []
    batchesBuf := []
    capacity := its.length * 2 }

namespace mergeIterator

/-- Embedding of `func (c *mergeIterator) nextBatchEndTime() int64`. -/
def nextBatchEndTime (c : mergeIterator) : Except Fault Int :=
  match c.batches with
  | [] => .error .indexOutOfRange
  | batch :: _ =>
    if 1 ≤ batch.Length then batch.timestampAt (batch.Length - 1)
    else .error .indexOutOfRange

/-- The loop condition of `buildNextBatch` once the heap is known to be non-empty, with
`top` the iterator `c.h[0]`. -/
def needsMore (c : mergeIterator) (top : nonOverlappingIterator) : Except Fault Bool :=
  if c.batches.length == 0 then .ok true
  else do
    let e ← c.nextBatchEndTime
    let a ← top.AtTime
    pure (decide (e ≥ a))

/-- The loop of `buildNextBatch`. -/
def buildLoop (size : Nat) : Nat → mergeIterator → Except Fault mergeIterator
  | 0, _ => .error .outOfFuel
  | fuel + 1, c =>
    match c.h with
    | [] => .ok c
    | i :: hrest =>
      match c.its[i]? with
      | none => .error .indexOutOfRange
      | some top =>
        match c.needsMore top with
        | .error e => .error e
        | .ok false => .ok c
        | .ok true =>
          match top.Batch with
          | .error e => .error e
          | .ok b =>
            match mergeStreamsSized c.batches [b] c.nextBatchesBuf size with
            | .error e => .error e
            | .ok buf =>
              if buf.length > c.capacity then .error .indexOutOfRange
              else
                let its1 := c.its.set i (top.Next size).1
                buildLoop size fuel
                  { c with
                    its := its1
                    h := if (top.Next size).2 then heapFix0 its1 (i :: hrest)
                         else heapPop (i :: hrest)
                    batches := buf
                    nextBatches := [b]
                    nextBatchesBuf := buf }

/-- Number of batches all iterators together have still to offer. -/
def remaining (c : mergeIterator) : Nat :=
  (c.its.map nonOverlappingIterator.remaining).sum

/-- Embedding of `func (c *mergeIterator) buildNextBatch(size int) bool`. -/
def buildNextBatch (c : mergeIterator) (size : Nat) : Except Fault (mergeIterator × Bool) :=
  match buildLoop size (c.remaining + 1) c with
  | .error e => .error e
  | .ok c1 => .ok (c1, decide (c1.batches.length > 0))

/-- Embedding of `func (c *mergeIterator) Seek(t int64, size int) bool`. -/
def Seek (c : mergeIterator) (t : Int) (size : Nat) : Except Fault (mergeIterator × Bool) :=
  let adv := advanceAll (fun it => it.Seek t size) c.its 0
  buildNextBatch { c with its := adv.1, h := heapInit adv.1 adv.2, batches := [] } size

/-- Embedding of `func (c *mergeIterator) Next(size int) bool`. -/
def Next (c : mergeIterator) (size : Nat) : Except Fault (mergeIterator × Bool) :=
  buildNextBatch
    (if c.batches.length > 0 then { c with batches := c.batches.tail } else c) size

/-- Embedding of `func (c *mergeIterator) Batch() promchunk.Batch`. -/
def Batch (c : mergeIterator) : Except Fault Batch :=
  match c.batches with
  | [] => .error .indexOutOfRange
  | b :: _ => .ok b

end mergeIterator

/-- A call made by the consumer of a merge iterator. -/
inductive IterOp where
  | seek (t : Int) (size : Nat)
  | next (size : Nat)
  deriving DecidableEq, Repr

/-- The `size` argument of a call. -/
def IterOp.size : IterOp → Nat
  | .seek _ size => size
  | .next size => size

/-- The batches exposed by `Batch()` after each successful call of a sequence of `Seek`
and `Next` calls, in emission order. -/
def mergeIterator.emit : List IterOp → mergeIterator → Except Fault (List Cortex.Batch)
  | [], _ => .ok []
  | op :: ops, c =>
    match (match op with
      | .seek t size => c.Seek t size
      | .next size => c.Next size) with
    | .error e => .error e
    | .ok (c1, false) => mergeIterator.emit ops c1
    | .ok (c1, true) =>
      match c1.Batch with
      | .error e => .error e
      | .ok b =>
        match mergeIterator.emit ops c1 with
        | .error e => .error e
        | .ok bs => .ok (b :: bs)

end Cortex

namespace Cortex

/-- The merge iterator after a sequence of `Seek` and `Next` calls. -/
def mergeIterator.run : List IterOp → mergeIterator → Except Fault mergeIterator
  | [], c => .ok c
  | op :: ops, c =>
    match (match op with
      | .seek t size => c.Seek t size
      | .next size => c.Next size) with
    | .error e => .error e
    | .ok (c1, _) => mergeIterator.run ops c1

end Cortex


namespace Cortex

/-! ## Multi-way merge (`stream.go`) -/

/-- The body of `mergeBatches`, unrolled by a fuel counter. A slice is represented by its
visible elements and its capacity is taken to be its length: `result[n:]`, `result[:1]`
and `result[:len(batches)]` fault when they reach past the slots of `result`, so a merge
that would write past the slots handed to a call is a fault here, where the Go slice
would reach into the slots of the neighbouring call. -/
def mergeBatchesRec : Nat → batchStream → batchStream → Except Fault batchStream
  | 0, _, _ => .error .outOfFuel
  | fuel + 1, batches, result =>
    if batches.length = 0 then .ok []
    else if batches.length = 1 then
      if 1 ≤ result.length then .ok (batches.take 1) else .error .indexOutOfRange
    else if batches.length = 2 then
      mergeStreams (batches.take 1) ((batches.drop 1).take 1) result
    else
      let n := batches.length / 2
      if result.length < n then .error .indexOutOfRange
      else
        match mergeBatchesRec fuel (batches.drop n) (result.drop n) with
        | .error e => .error e
        | .ok left =>
          match mergeBatchesRec fuel (batches.take n) (result.take n) with
          | .error e => .error e
          | .ok right =>
            match mergeStreams left right batches with
            | .error e => .error e
            | .ok merged =>
              if merged.length > result.length then .error .indexOutOfRange
              else .ok merged

/-- Embedding of `func mergeBatches(batches batchStream, result batchStream) batchStream`. -/
def mergeBatches (batches result : batchStream) : Except Fault batchStream :=
  mergeBatchesRec (batches.length + 1) batches result

/-- The value stored for timestamp `t` in a list of samples: that of the first sample
with this timestamp. -/
def valueAt : List (Int × Int) → Int → Option Int
  | [], _ => none
  | s :: rest, t => if s.1 = t then some s.2 else valueAt rest t

/-- The value that the claim on duplicate timestamps assigns to `t` in the merge of
`batches`, following its wording: for at most two batches the value of the first batch
that contains `t`; for three or more batches, with `n = N/2`, the value assigned among the
upper half `batches[n:]` when some batch of the upper half contains `t`, and otherwise
the value assigned among the lower half `batches[:n]`. -/
def keptValue (batches : List Batch) (t : Int) : Option Int :=
  if h : batches.length ≤ 2 then
    batches.findSome? (fun b => valueAt b.samples t)
  else
    if (batches.drop (batches.length / 2)).any (fun b => (valueAt b.samples t).isSome) then
      keptValue (batches.drop (batches.length / 2)) t
    else keptValue (batches.take (batches.length / 2)) t
termination_by batches.length
decreasing_by
  all_goals simp_wf
  all_goals omega

end Cortex


namespace Cortex

/-! ## Parallelizable queries (`astmapper/parallel.go`) -/

/-- The item types of `promql` that are aggregation operators; `other` stands for every
further item type. -/
inductive ItemType where
  | SUM
  | MIN
  | MAX
  | TOPK
  | BOTTOMK
  | COUNT
  | AVG
  | STDDEV
  | STDVAR
  | COUNT_VALUES
  | QUANTILE
  | other (code : Nat)
  deriving DecidableEq, Repr

/-- The node types of the `promql` syntax tree that `CanParallel` distinguishes, with the
fields it reads and the further expression fields of the library types. `nil` is the nil
node of an optional field that is not set, `Func = none` a call without function, and
`unhandled` any node type outside the `switch`. -/
inductive Node where
  | nil
  | Expressions (es : List Node)
  | AggregateExpr (Op : ItemType) (Expr : Node) (Param : Node)
  | BinaryExpr (LHS : Node) (RHS : Node)
  | Call (Func : Option String) (Args : List Node)
  | SubqueryExpr (Expr : Node)
  | ParenExpr (Expr : Node)
  | UnaryExpr (Expr : Node)
  | EvalStmt (Expr : Node)
  | MatrixSelector
  | NumberLiteral
  | StringLiteral
  | VectorSelector
  | unhandled

/-- The map `summableAggregates`, as its membership test. -/
def summableAggregates (op : ItemType) : Bool :=
  match op with
  | .SUM => true
  | .MIN => true
  | .MAX => true
  | .TOPK => true
  | .BOTTOMK => true
  | .COUNT => true
  | _ => false

/-- The slice `nonParallelFuncs`. -/
def nonParallelFuncs : List String :=
  ["histogram_quantile", "quantile_over_time", "absent"]

/-- Embedding of `func ParallelFunc(f promql.Function) bool`, on the name of `f`. -/
def ParallelFunc (name : String) : Bool :=
  !(nonParallelFuncs.any (fun v => v == name))

mutual

/-- Embedding of `func CanParallel(node promql.Node) bool`; the panic of the `default`
branch is the fault `indexOutOfRange`. -/
def CanParallel : Node → Except Fault Bool
  | .nil => .ok true
  | .Expressions es => CanParallelAll es
  | .AggregateExpr op expr _ =>
    if summableAggregates op then CanParallel expr else .ok false
  | .BinaryExpr _ _ => .ok false
  | .Call func args =>
    match func with
    | none => .ok false
    | some name => if !ParallelFunc name then .ok false else CanParallelAll args
  | .SubqueryExpr expr => CanParallel expr
  | .ParenExpr expr => CanParallel expr
  | .UnaryExpr _ => .ok true
  | .EvalStmt expr => CanParallel expr
  | .MatrixSelector => .ok true
  | .NumberLiteral => .ok true
  | .StringLiteral => .ok true
  | .VectorSelector => .ok true
  | .unhandled => .error .indexOutOfRange

/-- The loops `for _, e := range n { if !CanParallel(e) { return false } }; return true`
of `CanParallel`. -/
def CanParallelAll : List Node → Except Fault Bool
  | [] => .ok true
  | e :: rest =>
    match CanParallel e with
    | .error err => .error err
    | .ok false => .ok false
    | .ok true => CanParallelAll rest

end

end Cortex

namespace Cortex

/-- The child expressions of a node. -/
def Node.children : Node → List Node
  | .Expressions es => es
  | .AggregateExpr _ expr param => [expr, param]
  | .BinaryExpr lhs rhs => [lhs, rhs]
  | .Call _ args => args
  | .SubqueryExpr expr => [expr]
  | .ParenExpr expr => [expr]
  | .UnaryExpr expr => [expr]
  | .EvalStmt expr => [expr]
  | _ => []

/-- The child expressions on which `CanParallel` calls itself: the elements of an
expression list, the `Expr` of an aggregation, the arguments of a call, the `Expr` of a
subquery, a parenthesis or a statement. -/
def Node.examined : Node → List Node
  | .Expressions es => es
  | .AggregateExpr _ expr _ => [expr]
  | .Call _ args => args
  | .SubqueryExpr expr => [expr]
  | .ParenExpr expr => [expr]
  | .EvalStmt expr => [expr]
  | _ => []

/-- The node `sub` is `node` or lies anywhere inside it. -/
inductive Node.Inside : Node → Node → Prop where
  | self (n : Node) : Node.Inside n n
  | child {sub c n : Node} : c ∈ n.children → Node.Inside sub c → Node.Inside sub n

/-- The node `sub` is `node` or is reached from it through examined child expressions. -/
inductive Node.Examined : Node → Node → Prop where
  | self (n : Node) : Node.Examined n n
  | child {sub c n : Node} : c ∈ n.examined → Node.Examined sub c → Node.Examined sub n

/-- The node is none of the three kinds that the claim on parallel queries excludes: a
binary expression, an aggregation whose operator is not summable, a call of one of the
non-parallel functions. -/
def Node.Allowed : Node → Prop
  | .BinaryExpr _ _ => False
  | .AggregateExpr op _ _ => summableAggregates op = true
  | .Call (some name) _ => name ∉ nonParallelFuncs
  | _ => True

end Cortex


namespace Cortex

/-! ## The query path (`ingester_v2.go`) -/

/-- Modelled from the spec: the constant `cortex_tsdb.TenantIDExternalLabel` of
`pkg/storage/tsdb` (`tenant_id_label` in the spec), the name of the external label under
which `getOrCreateTSDB` hands the tenant identifier to the shipper. Neither the source
files nor the spec give the string; `v2Query` never looks at it. -/
def TenantIDExternalLabel : String := "__org_id__"

/-- Modelled from the spec: the wire request `client.QueryRequest` of
`pkg/ingester/client`, `{ start_ms, end_ms, matchers }`. -/
structure QueryRequest where
  StartTimestampMs : Int
  EndTimestampMs : Int
  Matchers : List Matcher
  deriving DecidableEq, Repr

/-- Modelled from the spec: the wire response `client.QueryResponse` of
`pkg/ingester/client`, a sequence of series. -/
structure QueryResponse where
  Timeseries : List TimeSeries
  deriving DecidableEq, Repr

/-- A series of the series cursor returned by `q.Select`: what `series.Labels()` returns
and the samples `(t, v)` that `series.Iterator()` yields. -/
structure StoredSeries where
  Labels : Labels
  Samples : List (Int × Int)
  deriving DecidableEq, Repr

/-- The storage library and the request decoder as seen by one call of `v2Query`:
`client.FromQueryRequest`, the error of `db.Querier(from, through)`, and `q.Select`, which
answers with an error or with the series that the cursor yields together with the final
`ss.Err()`. -/
structure QueryWorld (lib : RegexpLib) where
  fromQueryRequest : QueryRequest → Except String (Int × Int × List Matcher)
  querierErr : Nat → Int → Int → Option String
  select : Nat → Int → Int → List (TSDBMatcher lib.Regexp) →
    Except String (List StoredSeries × Option String)

/-- What a call of `v2Query` leaves behind: the ingester afterwards, the calls made by
`getOrCreateTSDB`, and the two results `(*client.QueryResponse, error)`. -/
structure QueryRun where
  ingester : Ingester
  calls : List Call
  response : Option QueryResponse
  err : Option String

/-- The conversion `client.LabelAdapter(l)`: a change of type that keeps name and value. -/
def LabelAdapter (l : String × String) : String × String := l

/-- The body of the loop `for ss.Next()` of `v2Query` for one series: its labels are
converted one by one and its samples are copied. -/
def seriesToTimeSeries (series : StoredSeries) : TimeSeries :=
  { Labels := series.Labels.map LabelAdapter
    Samples := series.Samples.map (fun s => { Value := s.2, TimestampMs := s.1 }) }

/-- Embedding of `func (i *Ingester) v2Query(ctx, req) (*client.QueryResponse, error)`. -/
def Ingester.v2Query (w : World) (lib : RegexpLib) (qw : QueryWorld lib) (i : Ingester)
    (ctx : Option String) (req : QueryRequest) : QueryRun :=
  match ExtractOrgID ctx with
  | .error err => { ingester := i, calls := [], response := none, err := some err }
  | .ok userID =>
    match qw.fromQueryRequest req with
    | .error err => { ingester := i, calls := [], response := none, err := some err }
    | .ok (start, through, matchers) =>
      let r := i.getOrCreateTSDB w userID
      match r.result with
      | .error err =>
        { ingester := r.ingester, calls := r.calls, response := none
          err := some ("failed to find/create user db: " ++ err) }
      | .ok db =>
        match qw.querierErr db start through with
        | some err => { ingester := r.ingester, calls := r.calls, response := none, err := some err }
        | none =>
          match convertMatchers lib matchers [] with
          | .error err =>
            { ingester := r.ingester, calls := r.calls, response := none, err := some err }
          | .ok converted =>
            match qw.select db start through converted with
            | .error err =>
              { ingester := r.ingester, calls := r.calls, response := none, err := some err }
            | .ok (series, cursorErr) =>
              { ingester := r.ingester, calls := r.calls
                response := some { Timeseries := series.map seriesToTimeSeries }
                err := cursorErr }

/-- A world in which the storage library reports no error. -/
def quietWorld : World :=
  { joinPath := fun a b => a ++ "/" ++ b
    openTSDB := fun _ => .ok 7
    addErr := fun _ _ _ _ => none
    rollbackErr := fun _ => none
    commitErr := fun _ => none }

/-- A running ingester that already holds the database of one tenant. -/
def tenantIngester : Ingester :=
  { dir := "/data", dbs := fun u => if u = "tenant" then some 7 else none, stopped := false }

/-! ### A model of the tenant database

The storage library is outside the repository. The statements about `v2Query` hold for
every `QueryWorld`; the model below answers `q.Select` as the library does on the inputs
evaluated here: a series is selected when each matcher accepts the value of its label
(the empty string for a label the series lacks), no series is selected for an empty
matcher list, and only samples inside the queried range are returned. -/

/-- The label name a matcher of `tsdb/labels` tests, `Matcher.Name()`. -/
def TSDBMatcher.Name {R : Type} : TSDBMatcher R → String
  | .equal name _ => name
  | .regexp name _ => name
  | .not m => m.Name

/-- The value of the label `name` in a label set, the empty string when it is absent. -/
def labelValue (ls : Labels) (name : String) : String :=
  ((ls.find? (fun l => l.1 == name)).map Prod.snd).getD ""

/-- The database after one more sample was added and committed for the label set. -/
def storeSample (lset : Labels) (t v : Int) : List StoredSeries → List StoredSeries
  | [] => [{ Labels := lset, Samples := [(t, v)] }]
  | s :: rest =>
    if s.Labels = lset then { s with Samples := s.Samples ++ [(t, v)] } :: rest
    else s :: storeSample lset t v rest

/-- The series a database holds after the calls of a write request: the samples of the
`app.Add` calls that returned no error, under the label sets they were added with, once
`app.Commit` has returned no error. -/
def committedSeries (calls : List Call) : List StoredSeries :=
  if calls.any (fun c => decide (c = .commit none)) then
    calls.foldl (fun acc c =>
      match c with
      | .add lset t v none => storeSample lset t v acc
      | _ => acc) []
  else []

/-- The series cursor of `q.Select(matchers...)` on a querier for the range from mint to
maxt over the stored series. -/
def selectSeries (lib : RegexpLib) (stored : List StoredSeries) (mint maxt : Int)
    (ms : List (TSDBMatcher lib.Regexp)) : List StoredSeries :=
  if ms.isEmpty then []
  else
    (stored.filter (fun s =>
      ms.all (fun m => TSDBMatcher.Matches lib m (labelValue s.Labels m.Name)))).filterMap
      (fun s =>
        if (s.Samples.filter (fun x => decide (mint ≤ x.1 ∧ x.1 ≤ maxt))).isEmpty then none
        else some { s with
          Samples := s.Samples.filter (fun x => decide (mint ≤ x.1 ∧ x.1 ≤ maxt)) })

/-- The request decoder and the storage library over a database holding the given
series; no call returns an error. -/
def storeOf (stored : List StoredSeries) : QueryWorld goRegexp :=
  { fromQueryRequest := fun req => .ok (req.StartTimestampMs, req.EndTimestampMs, req.Matchers)
    querierErr := fun _ _ _ => none
    select := fun _ mint maxt ms => .ok (selectSeries goRegexp stored mint maxt ms, none) }

/-- A write request of one series that carries a label with the name of the tenant
external label next to the label job. -/
def labelledWrite : WriteRequest :=
  { Timeseries := [{ Labels := [(TenantIDExternalLabel, "tenant"), ("job", "api")]
                     Samples := [{ Value := 10, TimestampMs := 1 }] }] }

/-- A query for the series with job = api in the range 0 to 100. -/
def jobQuery : QueryRequest :=
  { StartTimestampMs := 0, EndTimestampMs := 100
    Matchers := [{ Typ := .MatchEqual, Name := "job", Value := "api" }] }

end Cortex

namespace Cortex

/-! ## Auxiliary definitions used by the statements and proofs -/

/-- Reference merge of two sample lists: smaller timestamp first, on a tie the left
sample is kept and both are consumed. -/
def mergeSamples : List (Int × Int) → List (Int × Int) → List (Int × Int)
  | [], r => r
  | a :: l, [] => a :: l
  | a :: l, b :: r =>
    if a.1 < b.1 then a :: mergeSamples l (b :: r)
    else if a.1 > b.1 then b :: mergeSamples (a :: l) r
    else a :: mergeSamples l r
termination_by l r => l.length + r.length

/-- The read cursor of a batch stands on a populated slot. -/
def Batch.Ready (b : Batch) : Prop := b.Index < b.Length ∧ b.Length ≤ BatchSize

/-- A batch as the claims take it: cursor at 0, between 1 and `BatchSize` samples. -/
def Batch.Rewound (b : Batch) : Prop := b.Index = 0 ∧ 1 ≤ b.Length ∧ b.Length ≤ BatchSize

/-- A batch under construction by `append`: the cursor is the fill level. -/
def Batch.Built (b : Batch) : Prop := b.Index = b.Length ∧ 1 ≤ b.Length ∧ b.Length ≤ BatchSize

/-- Every batch of the stream has its cursor on a populated slot. -/
def batchStream.Ready (bs : batchStream) : Prop := ∀ b ∈ bs, b.Ready

/-- Every batch of the stream is under construction. -/
def batchStream.Built (bs : batchStream) : Prop := ∀ b ∈ bs, b.Built

/-- Samples in strictly increasing timestamp order. -/
def StrictTs (l : List (Int × Int)) : Prop := l.Pairwise (fun x y => x.1 < y.1)

/-- A list of the partition under construction: non-empty, each chunk ending strictly
before the start of every later one, every chunk a proper interval. -/
def GoodList (l : List Chunk) : Prop :=
  l ≠ [] ∧ l.Pairwise (fun a b => a.Through < b.From) ∧ ∀ c ∈ l, c.From ≤ c.Through

/-- A world in which the appender rejects timestamp 3 and Rollback itself fails. -/
def rejectingWorld : World :=
  { joinPath := fun a b => a ++ "/" ++ b
    openTSDB := fun _ => .ok 7
    addErr := fun _ _ t _ => if t = 3 then some "out of order" else none
    rollbackErr := fun _ => some "rollback failed"
    commitErr := fun _ => none }

/-- An ingester with no tenant database yet. -/
def freshIngester : Ingester := { dir := "/data", dbs := fun _ => none, stopped := false }

/-- A request of two series; the second sample of the second series has timestamp 3. -/
def twoSeriesRequest : WriteRequest :=
  { Timeseries := [{ Labels := [("job", "a")], Samples := [⟨10, 1⟩, ⟨20, 2⟩] },
                   { Labels := [("job", "b")], Samples := [⟨10, 1⟩, ⟨30, 3⟩, ⟨50, 5⟩] }] }

/-- An ingester that is shutting down and already holds the database of one tenant. -/
def stoppedIngester : Ingester :=
  { dir := "/data", dbs := fun u => if u = "tenant" then some 7 else none, stopped := true }

/-- A world whose storage library cannot open any database. -/
def brokenDiskWorld : World :=
  { joinPath := fun a b => a ++ "/" ++ b
    openTSDB := fun _ => .error "disk full"
    addErr := fun _ _ _ _ => none
    rollbackErr := fun _ => none
    commitErr := fun _ => none }

/-- The query of the counterexample: a regular-expression matcher on job whose value is
an opening parenthesis. -/
def unbalancedQuery : QueryRequest :=
  { StartTimestampMs := 0, EndTimestampMs := 100
    Matchers := [{ Typ := .MatchRegexp, Name := "job", Value := "(" }] }

/-- The four matchers of the witness: one of each type, on the label job. -/
def fourMatchers : List Matcher :=
  [{ Typ := .MatchEqual, Name := "job", Value := "api" },
   { Typ := .MatchNotEqual, Name := "job", Value := "api" },
   { Typ := .MatchRegexp, Name := "job", Value := "foo.*" },
   { Typ := .MatchNotRegexp, Name := "job", Value := "foo.*" }]

/-- The expression compiled from the anchored pattern of the value foo.* -/
def fooAnchored : Re :=
  .cat .beginText (.cat (.cat (.lit 'f') (.cat (.lit 'o') (.cat (.lit 'o') (.star .any))))
    .endText)

/-- The batches the iterator has still to offer are rewound and their samples are in
strictly increasing timestamp order, within and across batches. -/
def nonOverlappingIterator.WF (it : nonOverlappingIterator) : Prop :=
  (∀ b ∈ it.cur.toList ++ it.rest, b.Rewound) ∧ StrictTs it.content

/-- What the merge iterator relies on when it advances an underlying iterator: the
iterator stays well formed, offers nothing new, stands on a batch when the call returned
true and is exhausted when it returned false. -/
def Advances (f : nonOverlappingIterator → nonOverlappingIterator × Bool) : Prop :=
  ∀ it : nonOverlappingIterator, it.WF →
    (f it).1.WF ∧ (∀ s ∈ (f it).1.content, s ∈ it.content) ∧
    ((f it).2 = true → ∃ b, (f it).1.cur = some b) ∧
    ((f it).2 = false → (f it).1.content = [])

/-- Invariant of the merge iterator relative to the samples `em` emitted so far. The
first `skip` batches of `batches` are those already handed to the consumer. -/
structure MergeInv (c : mergeIterator) (em : List (Int × Int)) (skip : Nat) : Prop where
  its_wf : ∀ it ∈ c.its, it.WF
  batches_rewound : ∀ b ∈ c.batches, b.Rewound
  batches_strict : StrictTs (batchStream.samples c.batches)
  heap_cur : ∀ i ∈ c.h, ∃ it b, c.its[i]? = some it ∧ it.cur = some b
  heap_sorted : c.h.Pairwise (fun i j => heapKey c.its i ≤ heapKey c.its j)
  heap_nodup : c.h.Nodup
  idle_empty : ∀ i it, c.its[i]? = some it → i ∉ c.h → it.content = []
  em_strict : StrictTs em
  em_batches : ∀ e ∈ em, ∀ s ∈ batchStream.samples (c.batches.drop skip), e.1 < s.1
  em_its : ∀ e ∈ em, ∀ it ∈ c.its, ∀ s ∈ it.content, e.1 < s.1

/-- The loop of buildNextBatch has stopped for a reason other than a fault: the heap is
empty, or the first buffered batch ends before every underlying iterator continues. -/
def BuildDone (c : mergeIterator) : Prop :=
  c.h = [] ∨ ∃ i hrest E tl, c.h = i :: hrest ∧ c.batches = E :: tl ∧
    E.endTime < heapKey c.its i

/-- An underlying iterator over two batches. -/
def iterOdd : nonOverlappingIterator :=
  { cur := none
    rest := [Batch.ofSamples [(1, 10), (3, 30), (5, 50)], Batch.ofSamples [(7, 70), (9, 90)]] }

/-- A second underlying iterator, sharing the timestamps 3 and 9 with the first. -/
def iterMixed : nonOverlappingIterator :=
  { cur := none
    rest := [Batch.ofSamples [(2, 20), (3, 33), (4, 40)],
             Batch.ofSamples [(6, 60), (9, 99), (11, 110)]] }

/-- Every batch of the stream except the last is full. -/
def batchStream.Packed (bs : batchStream) : Prop := ∀ b ∈ bs.dropLast, b.Length = BatchSize

/-- Three overlapping batches: the timestamp 3 occurs in all of them. -/
def threeBatches : batchStream :=
  [Batch.ofSamples [(1, 10), (3, 30), (5, 50)],
   Batch.ofSamples [(2, 20), (3, 33), (4, 40)],
   Batch.ofSamples [(3, 333), (6, 60)]]

/-- The tree of the query sum(rate(m[5m])). -/
def sumOfRate : Node :=
  .AggregateExpr .SUM (.Call (some "rate") [.MatrixSelector]) .nil

/-- Bookkeeping for the size of the buffered stream `S`: every underlying iterator only
offers timestamps from `m` on; a buffered timestamp from `m` on belongs to the batch
`rc i` last taken from some iterator `i`; fewer than BatchSize buffered timestamps lie
before `m`; and the batch last taken from an iterator lies before everything that the
iterator still offers. -/
structure Recent (its : List nonOverlappingIterator) (S : List (Int × Int)) (m : Int)
    (rc : Nat → List Int) : Prop where
  floor_le : ∀ it ∈ its, ∀ s ∈ it.content, m ≤ s.1
  covered : ∀ s ∈ S, m ≤ s.1 → ∃ i, i < its.length ∧ s.1 ∈ rc i
  early : S.countP (fun s => decide (s.1 < m)) ≤ BatchSize - 1
  before : ∀ (i : Nat) (it : nonOverlappingIterator), its[i]? = some it →
    ∀ t ∈ rc i, ∀ s ∈ it.content, t < s.1
  short : ∀ i, (rc i).length ≤ BatchSize

/-- Invariant of the merge iterator for the capacity of its buffers. -/
structure CapInv (c : mergeIterator) : Prop where
  capacity_eq : c.capacity = c.its.length * 2
  packed : batchStream.Packed c.batches
  batches_fit : c.batches.length ≤ c.capacity
  buf_fit : c.nextBatchesBuf.length ≤ c.capacity
  recent : c.batches = [] ∨ ∃ m rc, Recent c.its (batchStream.samples c.batches) m rc

/-- A batch of twelve samples with the timestamps `first`, `first + 1`, and so on. -/
def twelveFrom (first : Int) : Batch :=
  Batch.ofSamples ((List.range 12).map (fun i => (first + (i : Int), 0)))

/-- An underlying iterator over one batch of twelve samples. -/
def iterTwelve : nonOverlappingIterator :=
  { cur := none, rest := [twelveFrom 1] }

/-- An underlying iterator whose first batch holds one sample and whose next two batches
hold twelve samples each: what an iterator that fills its batches up to the requested
size emits when it is asked for the sizes 1, 12 and 12. -/
def iterGrowing : nonOverlappingIterator :=
  { cur := none, rest := [Batch.ofSamples [(1, 0)], twelveFrom 2, twelveFrom 14] }

end Cortex

namespace Cortex

/-! ## Theorems -/

theorem Batch.Rewound.ready {b : Batch} (h : b.Rewound) : b.Ready :=
  ⟨by have := h.1; have := h.2.1; omega, h.2.2⟩

theorem Batch.pending_of_index_zero {b : Batch} (h : b.Index = 0) : b.pending = b.samples := by
  simp [Batch.pending, Batch.samples, h]

theorem batchStream.pending_eq_samples {bs : batchStream} (h : ∀ b ∈ bs, b.Index = 0) :
    batchStream.pending bs = batchStream.samples bs := by
  induction bs with
  | nil => rfl
  | cons b rest ih =>
    simp only [batchStream.pending, batchStream.samples, List.flatMap_cons] at *
    rw [Batch.pending_of_index_zero (h b (List.mem_cons_self _ _)),
      ih (fun c hc => h c (List.mem_cons_of_mem _ hc))]

theorem Batch.pending_ready {b : Batch} (h : b.Ready) :
    b.pending = (b.Timestamps b.Index, b.Values b.Index) ::
      Batch.pending { b with Index := b.Index + 1 } := by
  unfold Batch.pending
  have hlt : b.Index < (List.range b.Length).length := by simpa using h.1
  rw [List.drop_eq_getElem_cons hlt]
  simp

theorem Batch.pending_exhausted {b : Batch} (h : b.Length ≤ b.Index) : b.pending = [] := by
  unfold Batch.pending
  simp [List.drop_eq_nil_of_le, h]

theorem batchStream.atTime_ready {b : Batch} {rest : batchStream} (h : b.Ready) :
    batchStream.atTime (b :: rest) = .ok (b.Timestamps b.Index) := by
  have : b.Index < BatchSize := lt_of_lt_of_le h.1 h.2
  simp [batchStream.atTime, Batch.timestampAt, this]

theorem batchStream.atSample_ready {b : Batch} {rest : batchStream} (h : b.Ready) :
    batchStream.atSample (b :: rest) = .ok (b.Timestamps b.Index, b.Values b.Index) := by
  have : b.Index < BatchSize := lt_of_lt_of_le h.1 h.2
  simp [batchStream.atSample, Batch.timestampAt, Batch.valueAt, this]
  rfl

theorem batchStream.next_ready {b : Batch} {rest : batchStream} (h : b.Ready)
    (hr : batchStream.Ready rest) :
    ∃ s, batchStream.next (b :: rest) = .ok s ∧ batchStream.Ready s ∧
      batchStream.pending (b :: rest) =
        (b.Timestamps b.Index, b.Values b.Index) :: batchStream.pending s := by
  by_cases hc : b.Index + 1 ≥ b.Length
  · refine ⟨rest, by simp [batchStream.next, hc], hr, ?_⟩
    simp only [batchStream.pending, List.flatMap_cons]
    rw [Batch.pending_ready h, Batch.pending_exhausted (b := { b with Index := b.Index + 1 }) hc]
    rfl
  · refine ⟨{ b with Index := b.Index + 1 } :: rest, by simp [batchStream.next, hc], ?_, ?_⟩
    · intro c hcm
      rcases List.mem_cons.1 hcm with rfl | hcm
      · exact ⟨by simpa using hc, h.2⟩
      · exact hr c hcm
    · simp only [batchStream.pending, List.flatMap_cons]
      rw [Batch.pending_ready h]
      rfl

theorem batchStream.pending_length_le_weight (bs : batchStream) :
    (batchStream.pending bs).length ≤ batchStream.weight bs := by
  induction bs with
  | nil => simp [batchStream.pending, batchStream.weight]
  | cons b rest ih =>
    simp only [batchStream.pending, batchStream.weight, List.flatMap_cons, List.length_append,
      List.map_cons, List.sum_cons] at *
    have : b.pending.length = b.Length - b.Index := by simp [Batch.pending]
    omega

theorem Batch.samples_put {b : Batch} (h : b.Index = b.Length) (t v : Int) :
    (b.put t v).samples = b.samples ++ [(t, v)] := by
  simp only [Batch.samples, Batch.put, h, List.range_succ, List.map_append, List.map_cons,
    List.map_nil, Function.update_same]
  congr 1
  apply List.map_congr_left
  intro i hi
  have : i ≠ b.Length := Nat.ne_of_lt (List.mem_range.1 hi)
  simp [Function.update_noteq this]

theorem Batch.put_built {b : Batch} (h : b.Index = b.Length) (hlt : b.Index < BatchSize)
    (t v : Int) : (b.put t v).Built := by
  refine ⟨by simp [Batch.put, h], by simp [Batch.put], ?_⟩
  show b.Length + 1 ≤ BatchSize
  omega

theorem batchStream.samples_append (xs ys : batchStream) :
    batchStream.samples (xs ++ ys) = batchStream.samples xs ++ batchStream.samples ys := by
  simp [batchStream.samples]

theorem batchStream.samples_singleton (b : Batch) : batchStream.samples [b] = b.samples := by
  simp [batchStream.samples]

/-- On a stream under construction the function append never faults, keeps the stream under
construction and adds exactly the new sample after the stored ones. -/
theorem batchStream.append_built {bs : batchStream} (h : batchStream.Built bs) (t v : Int) :
    ∃ out, batchStream.append bs t v = .ok out ∧ batchStream.Built out ∧
      batchStream.samples out = batchStream.samples bs ++ [(t, v)] := by
  have hz : (Batch.zero.put t v).Built :=
    Batch.put_built rfl (by simp [Batch.zero, BatchSize]) t v
  have hzs : (Batch.zero.put t v).samples = [(t, v)] := by
    rw [Batch.samples_put rfl]; rfl
  rcases List.eq_nil_or_concat bs with rfl | ⟨init, last, rfl⟩
  · refine ⟨[Batch.zero.put t v], ?_, ?_, ?_⟩
    · simp [batchStream.append, Batch.zero, BatchSize]
    · intro c hc
      rw [List.mem_singleton] at hc
      subst hc
      exact hz
    · rw [batchStream.samples_singleton, hzs]; rfl
  · rw [List.concat_eq_append] at h ⊢
    have hl : last.Built := h last (by simp)
    have hi : batchStream.Built init := fun c hc => h c (by simp [hc])
    by_cases hfull : last.Index = BatchSize
    · refine ⟨(init ++ [last]) ++ [Batch.zero.put t v], ?_, ?_, ?_⟩
      · simp [batchStream.append, hfull, Batch.zero, BatchSize]
      · intro c hc
        rcases List.mem_append.1 hc with hc | hc
        · exact h c hc
        · rw [List.mem_singleton] at hc
          subst hc
          exact hz
      · rw [batchStream.samples_append, batchStream.samples_singleton, hzs]
    · have hlt : last.Index < BatchSize := by
        have := hl.1; have := hl.2.2; omega
      refine ⟨init ++ [last.put t v], ?_, ?_, ?_⟩
      · simp [batchStream.append, hfull, hlt]
      · intro c hc
        rcases List.mem_append.1 hc with hc | hc
        · exact hi c hc
        · rw [List.mem_singleton] at hc
          subst hc
          exact Batch.put_built hl.1 hlt t v
      · rw [batchStream.samples_append, batchStream.samples_append,
          batchStream.samples_singleton, batchStream.samples_singleton,
          Batch.samples_put hl.1]
        simp

theorem mergeSamples_nil_right (l : List (Int × Int)) : mergeSamples l [] = l := by
  cases l <;> simp [mergeSamples]

theorem drainStream_ready (fuel : Nat) : ∀ (src result : batchStream),
    batchStream.Ready src → batchStream.Built result →
    (batchStream.pending src).length < fuel →
    ∃ out, drainStream fuel src result = .ok out ∧ batchStream.Built out ∧
      batchStream.samples out = batchStream.samples result ++ batchStream.pending src := by
  induction fuel with
  | zero => intro src result _ _ hf; omega
  | succ n ih =>
    intro src result hs hr hf
    cases src with
    | nil => exact ⟨result, by simp [drainStream, batchStream.hasNext], hr,
        by simp [batchStream.pending]⟩
    | cons b rest =>
      have hb : b.Ready := hs b (List.mem_cons_self _ _)
      have hrest : batchStream.Ready rest := fun c hc => hs c (List.mem_cons_of_mem _ hc)
      obtain ⟨s, hnext, hsr, hpend⟩ := batchStream.next_ready hb hrest
      obtain ⟨r1, happ, hr1, hsam⟩ :=
        batchStream.append_built hr (b.Timestamps b.Index) (b.Values b.Index)
      have hlen : (batchStream.pending s).length < n := by
        rw [hpend] at hf; simp at hf; omega
      obtain ⟨out, ho, hob, hos⟩ := ih s r1 hsr hr1 hlen
      refine ⟨out, ?_, hob, ?_⟩
      · simp [drainStream, batchStream.hasNext, batchStream.atSample_ready hb, happ, hnext, ho,
          bind, Except.bind]
      · rw [hos, hsam, hpend]; simp

theorem mergeLoop_ready (fuel : Nat) : ∀ (left right result : batchStream),
    batchStream.Ready left → batchStream.Ready right → batchStream.Built result →
    (batchStream.pending left).length + (batchStream.pending right).length < fuel →
    ∃ out, mergeLoop fuel left right result = .ok out ∧ batchStream.Built out ∧
      batchStream.samples out = batchStream.samples result ++
        mergeSamples (batchStream.pending left) (batchStream.pending right) := by
  induction fuel with
  | zero => intro _ _ _ _ _ _ hf; omega
  | succ n ih =>
    intro left right result hl hr hres hf
    cases left with
    | nil =>
      obtain ⟨out, ho, hob, hos⟩ := drainStream_ready (batchStream.weight right + 1) right result
        hr hres (Nat.lt_succ_of_le (batchStream.pending_length_le_weight right))
      refine ⟨out, ?_, hob, ?_⟩
      · have h0 : drainStream (batchStream.weight [] + 1) [] result = .ok result := rfl
        have hc : (batchStream.hasNext [] && batchStream.hasNext right) = false := rfl
        rw [mergeLoop, if_neg (by rw [hc]; exact Bool.false_ne_true)]
        simp only [bind, Except.bind, h0, ho, pure, Except.pure]
      · rw [hos]; simp [batchStream.pending, mergeSamples]
    | cons a ltl =>
      have ha : a.Ready := hl a (List.mem_cons_self _ _)
      have hltl : batchStream.Ready ltl := fun c hc => hl c (List.mem_cons_of_mem _ hc)
      obtain ⟨l1, hnl, hl1, hpl⟩ := batchStream.next_ready ha hltl
      cases right with
      | nil =>
        obtain ⟨out, ho, hob, hos⟩ := drainStream_ready (batchStream.weight (a :: ltl) + 1)
          (a :: ltl) result hl hres
          (Nat.lt_succ_of_le (batchStream.pending_length_le_weight (a :: ltl)))
        refine ⟨out, ?_, hob, ?_⟩
        · have h0 : ∀ r, drainStream (batchStream.weight [] + 1) [] r = .ok r := fun _ => rfl
          have hc : (batchStream.hasNext (a :: ltl) && batchStream.hasNext []) = false := by
            simp [batchStream.hasNext]
          rw [mergeLoop, if_neg (by rw [hc]; exact Bool.false_ne_true)]
          simp only [bind, Except.bind, h0, ho, pure, Except.pure]
        · rw [hos]
          have : batchStream.pending ([] : batchStream) = [] := rfl
          rw [this, mergeSamples_nil_right]
      | cons b rtl =>
        have hb : b.Ready := hr b (List.mem_cons_self _ _)
        have hrtl : batchStream.Ready rtl := fun c hc => hr c (List.mem_cons_of_mem _ hc)
        obtain ⟨r1, hnr, hr1, hpr⟩ := batchStream.next_ready hb hrtl
        obtain ⟨resA, happA, hresA, hsamA⟩ :=
          batchStream.append_built hres (a.Timestamps a.Index) (a.Values a.Index)
        obtain ⟨resB, happB, hresB, hsamB⟩ :=
          batchStream.append_built hres (b.Timestamps b.Index) (b.Values b.Index)
        have hfl : (batchStream.pending l1).length + 1 =
            (batchStream.pending (a :: ltl)).length := by rw [hpl]; simp
        have hfr : (batchStream.pending r1).length + 1 =
            (batchStream.pending (b :: rtl)).length := by rw [hpr]; simp
        by_cases h1 : a.Timestamps a.Index < b.Timestamps b.Index
        · obtain ⟨out, ho, hob, hos⟩ := ih l1 (b :: rtl) resA hl1 hr hresA (by omega)
          refine ⟨out, ?_, hob, ?_⟩
          · simp [mergeLoop, batchStream.hasNext, batchStream.atTime_ready ha,
              batchStream.atTime_ready hb, batchStream.atSample_ready ha, h1, happA, hnl, ho,
              bind, Except.bind]
          · rw [hos, hsamA, hpl]
            conv_rhs => rw [hpr, mergeSamples]
            simp only [h1, ↓reduceIte]
            rw [← hpr]; simp
        · by_cases h2 : a.Timestamps a.Index > b.Timestamps b.Index
          · obtain ⟨out, ho, hob, hos⟩ := ih (a :: ltl) r1 resB hl hr1 hresB (by omega)
            refine ⟨out, ?_, hob, ?_⟩
            · simp [mergeLoop, batchStream.hasNext, batchStream.atTime_ready ha,
                batchStream.atTime_ready hb, batchStream.atSample_ready hb, h1, h2, happB, hnr,
                ho, bind, Except.bind]
            · rw [hos, hsamB, hpr]
              conv_rhs => rw [hpl, mergeSamples]
              simp only [h1, h2, ↓reduceIte]
              rw [← hpl]; simp
          · obtain ⟨out, ho, hob, hos⟩ := ih l1 r1 resA hl1 hr1 hresA (by omega)
            refine ⟨out, ?_, hob, ?_⟩
            · simp [mergeLoop, batchStream.hasNext, batchStream.atTime_ready ha,
                batchStream.atTime_ready hb, batchStream.atSample_ready ha, h1, h2, happA, hnl,
                hnr, ho, bind, Except.bind]
            · rw [hos, hsamA, hpl, hpr, mergeSamples]
              simp only [h1, h2, ↓reduceIte]
              simp

theorem batchStream.samples_reset (bs : batchStream) :
    batchStream.samples (batchStream.reset bs) = batchStream.samples bs := by
  induction bs with
  | nil => rfl
  | cons b rest ih =>
    simp only [batchStream.samples, batchStream.reset, List.map_cons, List.flatMap_cons] at *
    rw [ih]; rfl

theorem batchStream.reset_built {bs : batchStream} (h : batchStream.Built bs) :
    ∀ b ∈ batchStream.reset bs, b.Rewound := by
  intro b hb
  simp only [batchStream.reset, List.mem_map] at hb
  obtain ⟨c, hc, rfl⟩ := hb
  exact ⟨rfl, (h c hc).2.1, (h c hc).2.2⟩

/-- Functional summary of mergeStreams on rewound inputs: it returns, every batch of the
result is rewound and non-empty, and the result holds the reference merge of the inputs. -/
theorem mergeStreams_spec (left right result : batchStream)
    (hl : ∀ b ∈ left, b.Rewound) (hr : ∀ b ∈ right, b.Rewound) :
    ∃ out, mergeStreams left right result = .ok out ∧ (∀ b ∈ out, b.Rewound) ∧
      batchStream.samples out =
        mergeSamples (batchStream.samples left) (batchStream.samples right) := by
  have hlr : batchStream.Ready left := fun b hb => (hl b hb).ready
  have hrr : batchStream.Ready right := fun b hb => (hr b hb).ready
  obtain ⟨out, ho, hob, hos⟩ := mergeLoop_ready
    (batchStream.weight left + batchStream.weight right + 1) left right []
    hlr hrr (fun _ h => absurd h (List.not_mem_nil _))
    (by
      have := batchStream.pending_length_le_weight left
      have := batchStream.pending_length_le_weight right
      omega)
  refine ⟨batchStream.reset out, ?_, batchStream.reset_built hob, ?_⟩
  · simp [mergeStreams, ho, bind, Except.bind, pure, Except.pure]
  · rw [batchStream.samples_reset, hos,
      batchStream.pending_eq_samples (fun b hb => (hl b hb).1),
      batchStream.pending_eq_samples (fun b hb => (hr b hb).1)]
    rfl

theorem mem_mergeSamples (l r : List (Int × Int)) :
    ∀ x, x ∈ mergeSamples l r → x ∈ l ∨ x ∈ r := by
  induction l, r using mergeSamples.induct with
  | case1 r => intro x hx; right; simpa [mergeSamples] using hx
  | case2 a l => intro x hx; left; simpa [mergeSamples] using hx
  | case3 a l b r h ih =>
    intro x hx
    rw [mergeSamples, if_pos h] at hx
    rcases List.mem_cons.1 hx with rfl | hx
    · left; exact List.mem_cons_self _ _
    · rcases ih x hx with h1 | h1
      · left; exact List.mem_cons_of_mem _ h1
      · right; exact h1
  | case4 a l b r h h2 ih =>
    intro x hx
    rw [mergeSamples, if_neg h, if_pos h2] at hx
    rcases List.mem_cons.1 hx with rfl | hx
    · right; exact List.mem_cons_self _ _
    · rcases ih x hx with h1 | h1
      · left; exact h1
      · right; exact List.mem_cons_of_mem _ h1
  | case5 a l b r h h2 ih =>
    intro x hx
    rw [mergeSamples, if_neg h, if_neg h2] at hx
    rcases List.mem_cons.1 hx with rfl | hx
    · left; exact List.mem_cons_self _ _
    · rcases ih x hx with h1 | h1
      · left; exact List.mem_cons_of_mem _ h1
      · right; exact List.mem_cons_of_mem _ h1

theorem mergeSamples_timestamps (l r : List (Int × Int)) :
    ∀ t, t ∈ (mergeSamples l r).map Prod.fst ↔ t ∈ l.map Prod.fst ∨ t ∈ r.map Prod.fst := by
  induction l, r using mergeSamples.induct with
  | case1 r => intro t; simp [mergeSamples]
  | case2 a l => intro t; simp [mergeSamples]
  | case3 a l b r h ih =>
    intro t
    rw [mergeSamples, if_pos h, List.map_cons, List.mem_cons, ih t]
    simp only [List.map_cons, List.mem_cons]
    tauto
  | case4 a l b r h h2 ih =>
    intro t
    rw [mergeSamples, if_neg h, if_pos h2, List.map_cons, List.mem_cons, ih t]
    simp only [List.map_cons, List.mem_cons]
    tauto
  | case5 a l b r h h2 ih =>
    intro t
    have hab : a.1 = b.1 := le_antisymm (not_lt.1 h2) (not_lt.1 h)
    rw [mergeSamples, if_neg h, if_neg h2, List.map_cons, List.mem_cons, ih t]
    simp only [List.map_cons, List.mem_cons, hab]
    tauto

theorem StrictTs.tail {a : Int × Int} {l : List (Int × Int)} (h : StrictTs (a :: l)) :
    StrictTs l := (List.pairwise_cons.1 h).2

theorem StrictTs.head_lt {a : Int × Int} {l : List (Int × Int)} (h : StrictTs (a :: l)) :
    ∀ x ∈ l, a.1 < x.1 := (List.pairwise_cons.1 h).1

theorem mergeSamples_strict (l r : List (Int × Int)) :
    StrictTs l → StrictTs r → StrictTs (mergeSamples l r) := by
  induction l, r using mergeSamples.induct with
  | case1 r => intro _ hr; simpa [mergeSamples] using hr
  | case2 a l => intro hl _; simpa [mergeSamples] using hl
  | case3 a l b r h ih =>
    intro hl hr
    rw [mergeSamples, if_pos h]
    refine List.pairwise_cons.2 ⟨?_, ih hl.tail hr⟩
    intro x hx
    rcases mem_mergeSamples _ _ x hx with h1 | h1
    · exact hl.head_lt x h1
    · rcases List.mem_cons.1 h1 with rfl | h1
      · exact h
      · exact lt_trans h (hr.head_lt x h1)
  | case4 a l b r h h2 ih =>
    intro hl hr
    rw [mergeSamples, if_neg h, if_pos h2]
    refine List.pairwise_cons.2 ⟨?_, ih hl hr.tail⟩
    intro x hx
    rcases mem_mergeSamples _ _ x hx with h1 | h1
    · rcases List.mem_cons.1 h1 with rfl | h1
      · exact h2
      · exact lt_trans h2 (hl.head_lt x h1)
    · exact hr.head_lt x h1
  | case5 a l b r h h2 ih =>
    intro hl hr
    have hab : a.1 = b.1 := le_antisymm (not_lt.1 h2) (not_lt.1 h)
    rw [mergeSamples, if_neg h, if_neg h2]
    refine List.pairwise_cons.2 ⟨?_, ih hl.tail hr.tail⟩
    intro x hx
    rcases mem_mergeSamples _ _ x hx with h1 | h1
    · exact hl.head_lt x h1
    · rw [hab]; exact hr.head_lt x h1

theorem StrictTs.not_mem_of_le {l : List (Int × Int)} {a : Int × Int} (h : StrictTs (a :: l))
    {t : Int} (ht : t ≤ a.1) : t ∉ l.map Prod.fst := by
  intro hm
  obtain ⟨x, hx, rfl⟩ := List.mem_map.1 hm
  exact absurd (h.head_lt x hx) (not_lt.2 ht)

/-- On strictly increasing inputs every merged sample is the left sample of its timestamp
when the left list has that timestamp, and a right sample otherwise. -/
theorem mergeSamples_left_wins (l r : List (Int × Int)) :
    StrictTs l → StrictTs r → ∀ x, x ∈ mergeSamples l r →
      (x.1 ∈ l.map Prod.fst → x ∈ l) ∧ (x.1 ∉ l.map Prod.fst → x ∈ r) := by
  induction l, r using mergeSamples.induct with
  | case1 r => intro _ _ x hx; simpa [mergeSamples] using hx
  | case2 a l =>
    intro _ _ x hx
    have hx1 : x ∈ a :: l := by simpa [mergeSamples] using hx
    exact ⟨fun _ => hx1, fun hn => absurd (List.mem_map_of_mem _ hx1) hn⟩
  | case3 a l b r h ih =>
    intro hl hr x hx
    rw [mergeSamples, if_pos h] at hx
    rcases List.mem_cons.1 hx with rfl | hx
    · exact ⟨fun _ => List.mem_cons_self _ _, fun hn => absurd (by simp) hn⟩
    · have hgt : a.1 < x.1 := by
        rcases mem_mergeSamples _ _ x hx with h1 | h1
        · exact hl.head_lt x h1
        · rcases List.mem_cons.1 h1 with rfl | h1
          · exact h
          · exact lt_trans h (hr.head_lt x h1)
      obtain ⟨i1, i2⟩ := ih hl.tail hr x hx
      constructor
      · intro hm
        rw [List.map_cons, List.mem_cons] at hm
        rcases hm with hm | hm
        · exact absurd hm (ne_of_gt hgt)
        · exact List.mem_cons_of_mem _ (i1 hm)
      · intro hn
        exact i2 (fun hm => hn (by rw [List.map_cons]; exact List.mem_cons_of_mem _ hm))
  | case4 a l b r h h2 ih =>
    intro hl hr x hx
    rw [mergeSamples, if_neg h, if_pos h2] at hx
    rcases List.mem_cons.1 hx with rfl | hx
    · constructor
      · intro hm
        rw [List.map_cons, List.mem_cons] at hm
        rcases hm with hm | hm
        · exact absurd hm (ne_of_lt h2)
        · exact absurd hm (hl.not_mem_of_le (le_of_lt h2))
      · intro _; exact List.mem_cons_self _ _
    · obtain ⟨i1, i2⟩ := ih hl hr.tail x hx
      exact ⟨i1, fun hn => List.mem_cons_of_mem _ (i2 hn)⟩
  | case5 a l b r h h2 ih =>
    intro hl hr x hx
    have hab : a.1 = b.1 := le_antisymm (not_lt.1 h2) (not_lt.1 h)
    rw [mergeSamples, if_neg h, if_neg h2] at hx
    rcases List.mem_cons.1 hx with rfl | hx
    · exact ⟨fun _ => List.mem_cons_self _ _, fun hn => absurd (by simp) hn⟩
    · have hgt : a.1 < x.1 := by
        rcases mem_mergeSamples _ _ x hx with h1 | h1
        · exact hl.head_lt x h1
        · rw [hab]; exact hr.head_lt x h1
      obtain ⟨i1, i2⟩ := ih hl.tail hr.tail x hx
      constructor
      · intro hm
        rw [List.map_cons, List.mem_cons] at hm
        rcases hm with hm | hm
        · exact absurd hm (ne_of_gt hgt)
        · exact List.mem_cons_of_mem _ (i1 hm)
      · intro hn
        exact List.mem_cons_of_mem _
          (i2 (fun hm => hn (by rw [List.map_cons]; exact List.mem_cons_of_mem _ hm)))

theorem strictTs_of_sorted {l : List (Int × Int)} (h : (l.map Prod.fst).Sorted (· < ·)) :
    StrictTs l := List.pairwise_map.1 h

theorem sorted_of_strictTs {l : List (Int × Int)} (h : StrictTs l) :
    (l.map Prod.fst).Sorted (· < ·) := List.pairwise_map.2 h

/-- Claim C1. For rewound input streams (every batch with Index 0 and between 1 and
BatchSize samples) whose timestamps are strictly increasing, and any scratch buffer,
mergeStreams returns a stream whose timestamps are strictly increasing, whose timestamps
are exactly those of left or right, and in which a timestamp carries the value of left when
left has that timestamp and the value of right otherwise. -/
theorem mergeStreams_sorted_union_left_wins (left right result : batchStream)
    (hl : ∀ b ∈ left, b.Rewound) (hr : ∀ b ∈ right, b.Rewound)
    (hls : (batchStream.timestamps left).Sorted (· < ·))
    (hrs : (batchStream.timestamps right).Sorted (· < ·)) :
    ∃ out, mergeStreams left right result = .ok out ∧
      (batchStream.timestamps out).Sorted (· < ·) ∧
      (∀ t, t ∈ batchStream.timestamps out ↔
        t ∈ batchStream.timestamps left ∨ t ∈ batchStream.timestamps right) ∧
      (∀ t v, (t, v) ∈ batchStream.samples out →
        (t ∈ batchStream.timestamps left → (t, v) ∈ batchStream.samples left) ∧
        (t ∉ batchStream.timestamps left → (t, v) ∈ batchStream.samples right)) := by
  obtain ⟨out, ho, _, hos⟩ := mergeStreams_spec left right result hl hr
  refine ⟨out, ho, ?_, ?_, ?_⟩
  · unfold batchStream.timestamps
    rw [hos]
    exact sorted_of_strictTs (mergeSamples_strict _ _ (strictTs_of_sorted hls)
      (strictTs_of_sorted hrs))
  · intro t
    unfold batchStream.timestamps
    rw [hos]
    exact mergeSamples_timestamps _ _ t
  · intro t v hx
    rw [hos] at hx
    exact mergeSamples_left_wins _ _ (strictTs_of_sorted hls) (strictTs_of_sorted hrs) (t, v) hx

/-- Witness for C1 at the two-chunk overlap of the specification. -/
theorem mergeStreams_sorted_union_left_wins_witness :
    (mergeStreams [Batch.ofSamples [(1, 10), (3, 30), (5, 50)]]
        [Batch.ofSamples [(2, 20), (3, 33), (4, 40)]] []).map batchStream.samples
      = .ok [(1, 10), (2, 20), (3, 30), (4, 40), (5, 50)] ∧
    ∃ out, mergeStreams [Batch.ofSamples [(1, 10), (3, 30), (5, 50)]]
        [Batch.ofSamples [(2, 20), (3, 33), (4, 40)]] [] = .ok out ∧
      (batchStream.timestamps out).Sorted (· < ·) ∧
      (∀ t, t ∈ batchStream.timestamps out ↔
        t ∈ batchStream.timestamps [Batch.ofSamples [(1, 10), (3, 30), (5, 50)]] ∨
        t ∈ batchStream.timestamps [Batch.ofSamples [(2, 20), (3, 33), (4, 40)]]) ∧
      (∀ t v, (t, v) ∈ batchStream.samples out →
        (t ∈ batchStream.timestamps [Batch.ofSamples [(1, 10), (3, 30), (5, 50)]] →
          (t, v) ∈ batchStream.samples [Batch.ofSamples [(1, 10), (3, 30), (5, 50)]]) ∧
        (t ∉ batchStream.timestamps [Batch.ofSamples [(1, 10), (3, 30), (5, 50)]] →
          (t, v) ∈ batchStream.samples [Batch.ofSamples [(2, 20), (3, 33), (4, 40)]])) :=
  ⟨by decide,
   mergeStreams_sorted_union_left_wins _ _ []
    (by simp [Batch.Rewound, Batch.ofSamples, BatchSize])
    (by simp [Batch.Rewound, Batch.ofSamples, BatchSize])
    (by decide) (by decide)⟩

/-- Claim C5. For input streams whose batches have Index 0 and between 1 and BatchSize
samples, mergeStreams returns a stream in which every batch holds at least one and at most
BatchSize samples. -/
theorem mergeStreams_batch_sizes (left right result : batchStream)
    (hl : ∀ b ∈ left, b.Index = 0 ∧ 1 ≤ b.Length ∧ b.Length ≤ BatchSize)
    (hr : ∀ b ∈ right, b.Index = 0 ∧ 1 ≤ b.Length ∧ b.Length ≤ BatchSize) :
    ∃ out, mergeStreams left right result = .ok out ∧
      ∀ b ∈ out, 1 ≤ b.Length ∧ b.Length ≤ BatchSize := by
  obtain ⟨out, ho, hb, _⟩ := mergeStreams_spec left right result hl hr
  exact ⟨out, ho, fun b hbm => (hb b hbm).2⟩

/-- Witness for C5: a full batch merged with a batch of two later samples gives one full
batch followed by a batch of two. -/
theorem mergeStreams_batch_sizes_witness :
    (mergeStreams
        [Batch.ofSamples [(1, 1), (2, 2), (3, 3), (4, 4), (5, 5), (6, 6), (7, 7), (8, 8),
          (9, 9), (10, 10), (11, 11), (12, 12)]]
        [Batch.ofSamples [(12, 0), (13, 13), (14, 14)]] []).map (List.map Batch.Length)
      = .ok [12, 2] ∧
    ∃ out, mergeStreams
        [Batch.ofSamples [(1, 1), (2, 2), (3, 3), (4, 4), (5, 5), (6, 6), (7, 7), (8, 8),
          (9, 9), (10, 10), (11, 11), (12, 12)]]
        [Batch.ofSamples [(12, 0), (13, 13), (14, 14)]] [] = .ok out ∧
      ∀ b ∈ out, 1 ≤ b.Length ∧ b.Length ≤ BatchSize :=
  ⟨by decide,
   mergeStreams_batch_sizes _ _ []
    (by simp [Batch.ofSamples, BatchSize])
    (by simp [Batch.ofSamples, BatchSize])⟩

/-- Counterexample to C6 as stated. On a rewound batch (read cursor 0, three samples) the
new sample is written at the cursor: it replaces the first stored sample, and the batch
then counts four populated slots, the last of which was never written. On a rewound full
batch the same write leaves a batch that counts 13 samples, more than BatchSize. -/
theorem append_overwrites_at_cursor :
    (batchStream.append [Batch.ofSamples [(1, 10), (3, 30), (5, 50)]] 7 70).map
        batchStream.samples = .ok [(7, 70), (3, 30), (5, 50), (0, 0)] ∧
    batchStream.samples [Batch.ofSamples [(1, 10), (3, 30), (5, 50)]] ++ [(7, 70)] =
      [(1, 10), (3, 30), (5, 50), (7, 70)] ∧
    (¬ ∃ out, batchStream.append [Batch.ofSamples [(1, 10), (3, 30), (5, 50)]] 7 70 = .ok out ∧
      batchStream.samples out =
        batchStream.samples [Batch.ofSamples [(1, 10), (3, 30), (5, 50)]] ++ [(7, 70)]) ∧
    (batchStream.append
        [Batch.ofSamples [(1, 1), (2, 2), (3, 3), (4, 4), (5, 5), (6, 6), (7, 7), (8, 8),
          (9, 9), (10, 10), (11, 11), (12, 12)]] 13 13).map (List.map Batch.Length) =
      .ok [13] := by
  refine ⟨by decide, by decide, ?_, by decide⟩
  rintro ⟨out, ho, hs⟩
  have h1 : (batchStream.append [Batch.ofSamples [(1, 10), (3, 30), (5, 50)]] 7 70).map
      batchStream.samples = .ok [(7, 70), (3, 30), (5, 50), (0, 0)] := by decide
  rw [ho] at h1
  simp only [Except.map] at h1
  rw [Except.ok.injEq, hs] at h1
  exact absurd h1 (by decide)

/-- Claim C6, amended. When the cursor of the last batch of the stream stands at its fill
level (Index = Length, as in every stream built by append alone) and no batch holds more
than BatchSize samples, append returns a stream whose populated samples are those of the
input followed by the new sample; the sample goes into the last batch when that batch
holds fewer than BatchSize samples, otherwise (or when there is no batch) into a new batch
holding only the new sample; all other batches are unchanged and no batch of the result
holds more than BatchSize samples. -/
theorem append_at_fill_level (bs : batchStream) (t v : Int)
    (hcur : ∀ b ∈ bs.getLast?, b.Index = b.Length)
    (hcap : ∀ b ∈ bs, b.Length ≤ BatchSize) :
    ∃ out, batchStream.append bs t v = .ok out ∧
      batchStream.samples out = batchStream.samples bs ++ [(t, v)] ∧
      (∀ b ∈ out, b.Length ≤ BatchSize) ∧
      ((∃ init last nb, bs = init ++ [last] ∧ last.Length < BatchSize ∧
          out = init ++ [nb] ∧ nb.samples = last.samples ++ [(t, v)]) ∨
       ((bs = [] ∨ ∃ last ∈ bs.getLast?, last.Length = BatchSize) ∧
          ∃ nb, out = bs ++ [nb] ∧ nb.samples = [(t, v)])) := by
  have hzs : (Batch.zero.put t v).samples = [(t, v)] := by
    rw [Batch.samples_put rfl]; rfl
  have hzl : (Batch.zero.put t v).Length ≤ BatchSize := by simp [Batch.put, Batch.zero, BatchSize]
  rcases List.eq_nil_or_concat bs with rfl | ⟨init, last, rfl⟩
  · refine ⟨[Batch.zero.put t v], ?_, ?_, ?_, Or.inr ⟨Or.inl rfl, _, rfl, hzs⟩⟩
    · simp [batchStream.append, Batch.zero, BatchSize]
    · rw [batchStream.samples_singleton, hzs]; rfl
    · intro b hb
      rw [List.mem_singleton] at hb
      subst hb
      exact hzl
  · rw [List.concat_eq_append] at hcur hcap ⊢
    have hl : last.Index = last.Length := hcur last (by simp)
    have hll : last.Length ≤ BatchSize := hcap last (by simp)
    by_cases hfull : last.Index = BatchSize
    · refine ⟨(init ++ [last]) ++ [Batch.zero.put t v], ?_, ?_, ?_,
        Or.inr ⟨Or.inr ⟨last, by simp, by rw [← hl]; exact hfull⟩, _, rfl, hzs⟩⟩
      · simp [batchStream.append, hfull, Batch.zero, BatchSize]
      · rw [batchStream.samples_append, batchStream.samples_singleton, hzs]
      · intro b hb
        rcases List.mem_append.1 hb with hb | hb
        · exact hcap b hb
        · rw [List.mem_singleton] at hb
          subst hb
          exact hzl
    · have hlt : last.Index < BatchSize := by omega
      refine ⟨init ++ [last.put t v], ?_, ?_, ?_,
        Or.inl ⟨init, last, last.put t v, rfl, by omega, rfl, Batch.samples_put hl t v⟩⟩
      · simp [batchStream.append, hfull, hlt]
      · rw [batchStream.samples_append, batchStream.samples_append,
          batchStream.samples_singleton, batchStream.samples_singleton,
          Batch.samples_put hl]
        simp
      · intro b hb
        rcases List.mem_append.1 hb with hb | hb
        · exact hcap b (List.mem_append_left _ hb)
        · rw [List.mem_singleton] at hb
          subst hb
          show last.Length + 1 ≤ BatchSize
          omega

/-- Witness for the amended C6: appending to a stream whose only batch was itself built
by two appends. -/
theorem append_at_fill_level_witness :
    (∀ b ∈ List.getLast? [(Batch.zero.put 1 10).put 3 30], b.Index = b.Length) ∧
    (∀ b ∈ [(Batch.zero.put 1 10).put 3 30], b.Length ≤ BatchSize) ∧
    (batchStream.append [(Batch.zero.put 1 10).put 3 30] 5 50).map batchStream.samples =
      .ok [(1, 10), (3, 30), (5, 50)] ∧
    ∃ out, batchStream.append [(Batch.zero.put 1 10).put 3 30] 5 50 = .ok out ∧
      batchStream.samples out =
        batchStream.samples [(Batch.zero.put 1 10).put 3 30] ++ [(5, 50)] ∧
      (∀ b ∈ out, b.Length ≤ BatchSize) ∧
      ((∃ init last nb, [(Batch.zero.put 1 10).put 3 30] = init ++ [last] ∧
          last.Length < BatchSize ∧
          out = init ++ [nb] ∧ nb.samples = last.samples ++ [(5, 50)]) ∨
       (([(Batch.zero.put 1 10).put 3 30] = [] ∨
          ∃ last ∈ List.getLast? [(Batch.zero.put 1 10).put 3 30], last.Length = BatchSize) ∧
          ∃ nb, out = [(Batch.zero.put 1 10).put 3 30] ++ [nb] ∧ nb.samples = [(5, 50)])) :=
  ⟨by simp [Batch.put, Batch.zero], by simp [Batch.put, Batch.zero, BatchSize], by decide,
   append_at_fill_level _ 5 50 (by simp [Batch.put, Batch.zero])
    (by simp [Batch.put, Batch.zero, BatchSize])⟩

theorem GoodList.snoc {init : List Chunk} {last c : Chunk} (h : GoodList (init ++ [last]))
    (hc : c.From ≤ c.Through) (hlt : last.Through < c.From) :
    GoodList ((init ++ [last]) ++ [c]) := by
  obtain ⟨_, hp, hv⟩ := h
  refine ⟨by simp, ?_, ?_⟩
  · rw [List.pairwise_append]
    refine ⟨hp, List.pairwise_singleton _ _, ?_⟩
    intro a ha b hb
    rw [List.mem_singleton] at hb
    subst hb
    rcases List.mem_append.1 ha with ha | ha
    · have h1 : a.Through < last.From :=
        (List.pairwise_append.1 hp).2.2 a ha last (List.mem_singleton_self _)
      have h2 : last.From ≤ last.Through := hv last (by simp)
      omega
    · rw [List.mem_singleton] at ha
      subst ha
      exact hlt
  · intro x hx
    rcases List.mem_append.1 hx with hx | hx
    · exact hv x hx
    · rw [List.mem_singleton] at hx
      subst hx
      exact hc

theorem firstFit_spec (c : Chunk) (hc : c.From ≤ c.Through) :
    ∀ css : List (List Chunk), (∀ l ∈ css, GoodList l) →
      (firstFit c css = .ok none ∧ ∀ l ∈ css, ∃ x ∈ l, c.From ≤ x.Through) ∨
      (∃ css1, firstFit c css = .ok (some css1) ∧ (∀ l ∈ css1, GoodList l) ∧
        css1.length = css.length ∧ css1.flatten.Perm (css.flatten ++ [c])) := by
  intro css
  induction css with
  | nil => intro _; left; exact ⟨rfl, fun l hl => absurd hl (List.not_mem_nil _)⟩
  | cons l rest ih =>
    intro hg
    have hgl : GoodList l := hg l (List.mem_cons_self _ _)
    have hgr : ∀ m ∈ rest, GoodList m := fun m hm => hg m (List.mem_cons_of_mem _ hm)
    rcases List.eq_nil_or_concat l with hnil | ⟨init, last, hl⟩
    · exact absurd hnil hgl.1
    · rw [List.concat_eq_append] at hl
      subst hl
      have hlast : (init ++ [last]).getLast? = some last := by simp
      by_cases hlt : last.Through < c.From
      · right
        refine ⟨((init ++ [last]) ++ [c]) :: rest, ?_, ?_, rfl, ?_⟩
        · simp only [firstFit, hlast, if_pos hlt]
        · intro m hm
          rcases List.mem_cons.1 hm with rfl | hm
          · exact hgl.snoc hc hlt
          · exact hgr m hm
        · simp only [List.flatten_cons, List.append_assoc]
          exact List.Perm.append_left _ (List.Perm.append_left _ List.perm_append_comm)
      · rcases ih hgr with ⟨hnone, hall⟩ | ⟨css1, hsome, hg1, hlen, hperm⟩
        · left
          refine ⟨by simp only [firstFit, hlast, if_neg hlt, hnone], ?_⟩
          intro m hm
          rcases List.mem_cons.1 hm with rfl | hm
          · exact ⟨last, by simp, not_lt.1 hlt⟩
          · exact hall m hm
        · right
          refine ⟨(init ++ [last]) :: css1, ?_, ?_, by simp [hlen], ?_⟩
          · simp only [firstFit, hlast, if_neg hlt, hsome]
          · intro m hm
            rcases List.mem_cons.1 hm with rfl | hm
            · exact hgl
            · exact hg1 m hm
          · simp only [List.flatten_cons, List.append_assoc]
            exact List.Perm.append_left _ (List.Perm.append_left _ hperm)

theorem depthAt_perm {l₁ l₂ : List Chunk} (h : l₁.Perm l₂) (p : Int) :
    depthAt l₁ p = depthAt l₂ p := h.countP_eq _

theorem depthAt_append (l₁ l₂ : List Chunk) (p : Int) :
    depthAt (l₁ ++ l₂) p = depthAt l₁ p + depthAt l₂ p := by
  simp [depthAt, List.countP_append]

theorem depthAt_goodList_le_one {l : List Chunk} (h : GoodList l) (p : Int) :
    depthAt l p ≤ 1 := by
  obtain ⟨_, hp, hv⟩ := h
  clear * - hp hv
  induction l with
  | nil => simp [depthAt]
  | cons a l ih =>
    have hpa := List.pairwise_cons.1 hp
    have ihl := ih hpa.2 (fun c hc => hv c (List.mem_cons_of_mem _ hc))
    by_cases ha : a.From ≤ p ∧ p ≤ a.Through
    · have hz : depthAt l p = 0 := by
        unfold depthAt
        rw [List.countP_eq_zero]
        intro b hb
        have := hpa.1 b hb
        simp only [decide_eq_true_eq, not_and, not_le]
        intro hbp
        omega
      have : depthAt (a :: l) p = depthAt l p + 1 := by
        unfold depthAt
        rw [List.countP_cons_of_pos]
        simpa using ha
      omega
    · have : depthAt (a :: l) p = depthAt l p := by
        unfold depthAt
        rw [List.countP_cons_of_neg]
        simpa using ha
      omega

theorem depthAt_flatten_le {css : List (List Chunk)} (h : ∀ l ∈ css, GoodList l) (p : Int) :
    depthAt css.flatten p ≤ css.length := by
  induction css with
  | nil => simp [depthAt]
  | cons l rest ih =>
    rw [List.flatten_cons, depthAt_append, List.length_cons]
    have h1 := depthAt_goodList_le_one (h l (List.mem_cons_self _ _)) p
    have h2 := ih (fun m hm => h m (List.mem_cons_of_mem _ hm))
    omega

theorem depthAt_pos_of_mem {l : List Chunk} {x : Chunk} {p : Int} (hx : x ∈ l)
    (h1 : x.From ≤ p) (h2 : p ≤ x.Through) : 1 ≤ depthAt l p := by
  unfold depthAt
  exact List.countP_pos_iff.2 ⟨x, hx, by simpa using ⟨h1, h2⟩⟩

theorem depthAt_flatten_ge {css : List (List Chunk)} {p : Int}
    (h : ∀ l ∈ css, ∃ x ∈ l, x.From ≤ p ∧ p ≤ x.Through) :
    css.length ≤ depthAt css.flatten p := by
  induction css with
  | nil => simp
  | cons l rest ih =>
    rw [List.flatten_cons, depthAt_append, List.length_cons]
    obtain ⟨x, hx, h1, h2⟩ := h l (List.mem_cons_self _ _)
    have := depthAt_pos_of_mem hx h1 h2
    have := ih (fun m hm => h m (List.mem_cons_of_mem _ hm))
    omega

/-- Invariant of the outer loop of partitionChunks and what it yields at loop exit. -/
theorem partitionLoop_spec : ∀ (cs : List Chunk) (css : List (List Chunk)),
    cs.Pairwise (fun a b => a.From ≤ b.From) →
    (∀ c ∈ cs, c.From ≤ c.Through) →
    (∀ l ∈ css, GoodList l) →
    (∀ a ∈ css.flatten, ∀ b ∈ cs, a.From ≤ b.From) →
    (css = [] ∨ ∃ x ∈ css.flatten, css.length ≤ depthAt css.flatten x.From) →
    ∃ out, partitionLoop cs css = .ok out ∧ (∀ l ∈ out, GoodList l) ∧
      out.flatten.Perm (css.flatten ++ cs) ∧
      (out = [] ∨ ∃ x ∈ out.flatten, out.length ≤ depthAt out.flatten x.From) := by
  intro cs
  induction cs with
  | nil =>
    intro css _ _ hg _ hd
    exact ⟨css, rfl, hg, by simp, hd⟩
  | cons c cs ih =>
    intro css hs hv hg hle hd
    have hc : c.From ≤ c.Through := hv c (List.mem_cons_self _ _)
    have hs1 := List.pairwise_cons.1 hs
    have hv1 : ∀ d ∈ cs, d.From ≤ d.Through := fun d hd1 => hv d (List.mem_cons_of_mem _ hd1)
    rcases firstFit_spec c hc css hg with ⟨hnone, hall⟩ | ⟨css1, hsome, hg1, hlen, hperm⟩
    · -- no list accepts the chunk: a new list is opened
      have hg2 : ∀ l ∈ css ++ [[c]], GoodList l := by
        intro l hl
        rcases List.mem_append.1 hl with hl | hl
        · exact hg l hl
        · rw [List.mem_singleton] at hl
          subst hl
          exact ⟨by simp, List.pairwise_singleton _ _, by simpa using hc⟩
      have hfl : (css ++ [[c]]).flatten = css.flatten ++ [c] := by simp
      have hle2 : ∀ a ∈ (css ++ [[c]]).flatten, ∀ b ∈ cs, a.From ≤ b.From := by
        intro a ha b hb
        rw [hfl] at ha
        rcases List.mem_append.1 ha with ha | ha
        · exact hle a ha b (List.mem_cons_of_mem _ hb)
        · rw [List.mem_singleton] at ha
          subst ha
          exact hs1.1 b hb
      have hd2 : css ++ [[c]] = [] ∨
          ∃ x ∈ (css ++ [[c]]).flatten,
            (css ++ [[c]]).length ≤ depthAt (css ++ [[c]]).flatten x.From := by
        right
        refine ⟨c, by simp, ?_⟩
        apply depthAt_flatten_ge
        intro l hl
        rcases List.mem_append.1 hl with hl | hl
        · obtain ⟨x, hx, hxt⟩ := hall l hl
          exact ⟨x, hx, hle x (List.mem_flatten.2 ⟨l, hl, hx⟩) c (List.mem_cons_self _ _), hxt⟩
        · rw [List.mem_singleton] at hl
          subst hl
          exact ⟨c, by simp, le_refl _, hc⟩
      obtain ⟨out, ho, hgo, hpo, hdo⟩ := ih (css ++ [[c]]) hs1.2 hv1 hg2 hle2 hd2
      refine ⟨out, by simp only [partitionLoop, hnone, ho], hgo, ?_, hdo⟩
      rw [hfl] at hpo
      simpa using hpo
    · -- the chunk joins an existing list
      have hle2 : ∀ a ∈ css1.flatten, ∀ b ∈ cs, a.From ≤ b.From := by
        intro a ha b hb
        rcases List.mem_append.1 (hperm.subset ha) with ha | ha
        · exact hle a ha b (List.mem_cons_of_mem _ hb)
        · rw [List.mem_singleton] at ha
          subst ha
          exact hs1.1 b hb
      have hd2 : css1 = [] ∨ ∃ x ∈ css1.flatten, css1.length ≤ depthAt css1.flatten x.From := by
        rcases hd with hnil | ⟨x, hx, hdx⟩
        · left
          subst hnil
          exact List.length_eq_zero.1 hlen
        · right
          refine ⟨x, hperm.symm.subset (List.mem_append_left _ hx), ?_⟩
          rw [hlen, depthAt_perm hperm, depthAt_append]
          omega
      obtain ⟨out, ho, hgo, hpo, hdo⟩ := ih css1 hs1.2 hv1 hg1 hle2 hd2
      refine ⟨out, by simp only [partitionLoop, hsome, ho], hgo, ?_, hdo⟩
      refine hpo.trans ?_
      have := List.Perm.append_right cs hperm
      simpa using this

theorem sortByFrom_perm (cs : List Chunk) : (sortByFrom cs).Perm cs :=
  List.perm_insertionSort _ cs

theorem sortByFrom_sorted (cs : List Chunk) :
    (sortByFrom cs).Pairwise (fun a b => a.From ≤ b.From) := by
  haveI : IsTotal Chunk (fun a b => a.From ≤ b.From) := ⟨fun a b => le_total a.From b.From⟩
  haveI : IsTrans Chunk (fun a b => a.From ≤ b.From) := ⟨fun _ _ _ h1 h2 => le_trans h1 h2⟩
  exact List.sorted_insertionSort (fun a b : Chunk => a.From ≤ b.From) cs

/-- Summary of partitionChunks on proper intervals, shared by the partition claims. -/
theorem partitionChunks_spec (cs : List Chunk) (hv : ∀ c ∈ cs, c.From ≤ c.Through) :
    ∃ out, partitionChunks cs = .ok out ∧ (∀ l ∈ out, GoodList l) ∧ out.flatten.Perm cs ∧
      (out = [] ∨ ∃ x ∈ cs, out.length ≤ depthAt cs x.From) := by
  have hp := sortByFrom_perm cs
  obtain ⟨out, ho, hg, hperm, hd⟩ := partitionLoop_spec (sortByFrom cs) []
    (sortByFrom_sorted cs) (fun c hc => hv c (hp.subset hc))
    (fun l hl => absurd hl (List.not_mem_nil _))
    (fun a ha => absurd ha (by simp)) (Or.inl rfl)
  have hperm2 : out.flatten.Perm cs := by
    refine hperm.trans ?_
    simpa using hp
  refine ⟨out, ho, hg, hperm2, ?_⟩
  rcases hd with h | ⟨x, hx, hdx⟩
  · exact Or.inl h
  · exact Or.inr ⟨x, hperm2.subset hx, by rw [← depthAt_perm hperm2]; exact hdx⟩

theorem foldr_max_le {α : Type} (f : α → Nat) (l : List α) (k : Nat)
    (h : ∀ x ∈ l, f x ≤ k) : (l.map f).foldr max 0 ≤ k := by
  induction l with
  | nil => simp
  | cons a l ih =>
    simp only [List.map_cons, List.foldr_cons]
    exact max_le (h a (List.mem_cons_self _ _)) (ih (fun x hx => h x (List.mem_cons_of_mem _ hx)))

theorem le_foldr_max {α : Type} (f : α → Nat) (l : List α) {x : α} (hx : x ∈ l) :
    f x ≤ (l.map f).foldr max 0 := by
  induction l with
  | nil => exact absurd hx (List.not_mem_nil _)
  | cons a l ih =>
    simp only [List.map_cons, List.foldr_cons]
    rcases List.mem_cons.1 hx with rfl | hx
    · exact le_max_left _ _
    · exact le_trans (ih hx) (le_max_right _ _)

/-- Claim C3. For chunks that are proper intervals (From at most Through), partitionChunks
returns non-empty lists; inside each list a chunk placed before another ends strictly
before the other starts; and the concatenation of the lists is a permutation of the input. -/
theorem partitionChunks_disjoint_perm (cs : List Chunk)
    (hv : ∀ c ∈ cs, c.From ≤ c.Through) :
    ∃ css, partitionChunks cs = .ok css ∧
      (∀ l ∈ css, l ≠ []) ∧
      (∀ l ∈ css, l.Pairwise (fun a b => a.Through < b.From)) ∧
      css.flatten.Perm cs := by
  obtain ⟨out, ho, hg, hperm, _⟩ := partitionChunks_spec cs hv
  exact ⟨out, ho, fun l hl => (hg l hl).1, fun l hl => (hg l hl).2.1, hperm⟩

/-- Witness for C3 on the partition-depth scenario of the specification, given unsorted. -/
theorem partitionChunks_disjoint_perm_witness :
    (∀ c ∈ [Chunk.mk 11 20 3, Chunk.mk 2 5 1, Chunk.mk 1 10 0, Chunk.mk 6 9 2],
      c.From ≤ c.Through) ∧
    partitionChunks [Chunk.mk 11 20 3, Chunk.mk 2 5 1, Chunk.mk 1 10 0, Chunk.mk 6 9 2] =
      .ok [[Chunk.mk 1 10 0, Chunk.mk 11 20 3], [Chunk.mk 2 5 1, Chunk.mk 6 9 2]] ∧
    ∃ css, partitionChunks [Chunk.mk 11 20 3, Chunk.mk 2 5 1, Chunk.mk 1 10 0, Chunk.mk 6 9 2]
        = .ok css ∧
      (∀ l ∈ css, l ≠ []) ∧
      (∀ l ∈ css, l.Pairwise (fun a b => a.Through < b.From)) ∧
      css.flatten.Perm [Chunk.mk 11 20 3, Chunk.mk 2 5 1, Chunk.mk 1 10 0, Chunk.mk 6 9 2] :=
  ⟨by decide, by decide, partitionChunks_disjoint_perm _ (by decide)⟩

/-- Claim C4. For chunks that are proper intervals, the number of lists returned by
partitionChunks equals the maximum overlap depth of the input, the largest number of
chunks whose closed intervals share a point (0 for no chunks): no point lies in more
chunks than maxOverlapDepth, and some point lies in exactly that many. -/
theorem partitionChunks_length_eq_depth (cs : List Chunk)
    (hv : ∀ c ∈ cs, c.From ≤ c.Through) :
    ∃ css, partitionChunks cs = .ok css ∧ css.length = maxOverlapDepth cs ∧
      (∀ p, depthAt cs p ≤ maxOverlapDepth cs) ∧
      (∃ p, depthAt cs p = maxOverlapDepth cs) ∧
      (cs = [] → css.length = 0) := by
  obtain ⟨out, ho, hg, hperm, hd⟩ := partitionChunks_spec cs hv
  have hub : ∀ p, depthAt cs p ≤ out.length := fun p => by
    rw [← depthAt_perm hperm]; exact depthAt_flatten_le hg p
  have hle : maxOverlapDepth cs ≤ out.length :=
    foldr_max_le (fun c => depthAt cs c.From) cs _ (fun c _ => hub c.From)
  have hge : out.length ≤ maxOverlapDepth cs ∧ ∃ p, depthAt cs p = out.length := by
    rcases hd with h | ⟨x, hx, hdx⟩
    · subst h
      refine ⟨Nat.zero_le _, 0, ?_⟩
      have := hub 0
      simp only [List.length_nil] at this ⊢
      omega
    · exact ⟨le_trans hdx (le_foldr_max (fun c => depthAt cs c.From) cs hx),
        x.From, le_antisymm (hub _) hdx⟩
  have heq : out.length = maxOverlapDepth cs := le_antisymm hge.1 hle
  refine ⟨out, ho, heq, fun p => heq ▸ hub p, ?_, ?_⟩
  · obtain ⟨p, hp⟩ := hge.2
    exact ⟨p, by rw [hp, heq]⟩
  · intro hnil
    subst hnil
    rw [heq]
    rfl

/-- Witness for C4: the two partition scenarios of the specification give 2 lists and
1 list. -/
theorem partitionChunks_length_eq_depth_witness :
    (partitionChunks [Chunk.mk 1 10 0, Chunk.mk 2 5 1, Chunk.mk 6 9 2, Chunk.mk 11 20 3]).map
      List.length = .ok 2 ∧
    (partitionChunks [Chunk.mk 1 5 0, Chunk.mk 6 10 1, Chunk.mk 11 15 2]).map
      List.length = .ok 1 ∧
    (∀ c ∈ [Chunk.mk 1 10 0, Chunk.mk 2 5 1, Chunk.mk 6 9 2, Chunk.mk 11 20 3],
      c.From ≤ c.Through) ∧
    ∃ css, partitionChunks [Chunk.mk 1 10 0, Chunk.mk 2 5 1, Chunk.mk 6 9 2, Chunk.mk 11 20 3]
        = .ok css ∧
      css.length = maxOverlapDepth
        [Chunk.mk 1 10 0, Chunk.mk 2 5 1, Chunk.mk 6 9 2, Chunk.mk 11 20 3] ∧
      (∀ p, depthAt [Chunk.mk 1 10 0, Chunk.mk 2 5 1, Chunk.mk 6 9 2, Chunk.mk 11 20 3] p ≤
        maxOverlapDepth [Chunk.mk 1 10 0, Chunk.mk 2 5 1, Chunk.mk 6 9 2, Chunk.mk 11 20 3]) ∧
      (∃ p, depthAt [Chunk.mk 1 10 0, Chunk.mk 2 5 1, Chunk.mk 6 9 2, Chunk.mk 11 20 3] p =
        maxOverlapDepth [Chunk.mk 1 10 0, Chunk.mk 2 5 1, Chunk.mk 6 9 2, Chunk.mk 11 20 3]) ∧
      ([Chunk.mk 1 10 0, Chunk.mk 2 5 1, Chunk.mk 6 9 2, Chunk.mk 11 20 3] = [] →
        css.length = 0) :=
  ⟨by decide, by decide, by decide, partitionChunks_length_eq_depth _ (by decide)⟩

theorem getOrCreateTSDB_present (w : World) (i : Ingester) (userID : String) (db : Nat)
    (h : i.dbs userID = some db) :
    i.getOrCreateTSDB w userID = { ingester := i, calls := [], result := .ok db } := by
  simp only [Ingester.getOrCreateTSDB, Ingester.getTSDB, h]

theorem getOrCreateTSDB_open_error (w : World) (i : Ingester) (userID : String) (err : String)
    (h : i.dbs userID = none) (ho : w.openTSDB (i.userDir w userID) = .error err) :
    i.getOrCreateTSDB w userID =
      { ingester := i, calls := [Call.openTSDB (i.userDir w userID) (some err)],
        result := .error err } := by
  simp only [Ingester.getOrCreateTSDB, Ingester.getTSDB, h, ho]

theorem getOrCreateTSDB_open_ok (w : World) (i : Ingester) (userID : String) (db : Nat)
    (h : i.dbs userID = none) (ho : w.openTSDB (i.userDir w userID) = .ok db) :
    i.getOrCreateTSDB w userID =
      { ingester := { i with dbs := Function.update i.dbs userID (some db) },
        calls := [Call.openTSDB (i.userDir w userID) none, Call.startShipper userID],
        result := .ok db } := by
  simp only [Ingester.getOrCreateTSDB, Ingester.getTSDB, h, ho]

theorem getOrCreateTSDB_calls_setup (w : World) (i : Ingester) (userID : String) :
    ∀ c ∈ (i.getOrCreateTSDB w userID).calls, c.isWritePath = false := by
  intro c hc
  cases h : i.dbs userID with
  | some db => rw [getOrCreateTSDB_present w i userID db h] at hc; simp at hc
  | none =>
    cases ho : w.openTSDB (i.userDir w userID) with
    | error err =>
      rw [getOrCreateTSDB_open_error w i userID err h ho] at hc
      simp at hc; subst hc; rfl
    | ok db =>
      rw [getOrCreateTSDB_open_ok w i userID db h ho] at hc
      simp at hc
      rcases hc with rfl | rfl <;> rfl

theorem getOrCreateTSDB_stopped (w : World) (i : Ingester) (userID : String) :
    (i.getOrCreateTSDB w userID).ingester.stopped = i.stopped := by
  cases h : i.dbs userID with
  | some db => rw [getOrCreateTSDB_present w i userID db h]
  | none =>
    cases ho : w.openTSDB (i.userDir w userID) with
    | error err => rw [getOrCreateTSDB_open_error w i userID err h ho]
    | ok db => rw [getOrCreateTSDB_open_ok w i userID db h ho]

/-- Shape of the calls made by the inner sample loop of v2Push. -/
theorem addSamples_spec (w : World) (lset : Labels) : ∀ (ss : List Sample) (calls : List Call),
    ∃ adds, (addSamples w lset ss calls).1 = calls ++ adds ∧
      (((addSamples w lset ss calls).2 = none ∧ ∀ c ∈ adds, c.isOkAdd = true) ∨
       (∃ pre l t v e rb post, (addSamples w lset ss calls).2 = some e ∧
          adds = pre ++ [Call.add l t v (some e), Call.rollback rb] ++ post ∧
          (∀ c ∈ pre, c.isOkAdd = true) ∧ (∀ c ∈ post, c = Call.logWarn))) := by
  intro ss
  induction ss with
  | nil => intro calls; exact ⟨[], by simp [addSamples], Or.inl ⟨rfl, by simp⟩⟩
  | cons s rest ih =>
    intro calls
    cases hadd : w.addErr calls lset s.TimestampMs s.Value with
    | some err =>
      cases hrb : w.rollbackErr (calls ++ [Call.add lset s.TimestampMs s.Value (some err)]) with
      | some rerr =>
        refine ⟨[Call.add lset s.TimestampMs s.Value (some err), Call.rollback (some rerr),
          Call.logWarn], by simp [addSamples, hadd, hrb], Or.inr ⟨[], lset, s.TimestampMs,
            s.Value, err, some rerr, [Call.logWarn], by simp [addSamples, hadd, hrb], by simp,
            by simp, by simp⟩⟩
      | none =>
        refine ⟨[Call.add lset s.TimestampMs s.Value (some err), Call.rollback none],
          by simp [addSamples, hadd, hrb], Or.inr ⟨[], lset, s.TimestampMs,
            s.Value, err, none, [], by simp [addSamples, hadd, hrb], by simp,
            by simp, by simp⟩⟩
    | none =>
      obtain ⟨adds, h1, h2⟩ := ih (calls ++ [Call.add lset s.TimestampMs s.Value none])
      have hrw : addSamples w lset (s :: rest) calls =
          addSamples w lset rest (calls ++ [Call.add lset s.TimestampMs s.Value none]) := by
        simp [addSamples, hadd]
      rw [hrw]
      refine ⟨Call.add lset s.TimestampMs s.Value none :: adds, by simp [h1], ?_⟩
      rcases h2 with ⟨hn, hok⟩ | ⟨pre, l, t, v, e, rb, post, he, hadds, hpre, hpost⟩
      · left
        refine ⟨hn, ?_⟩
        intro c hc
        rcases List.mem_cons.1 hc with rfl | hc
        · rfl
        · exact hok c hc
      · right
        refine ⟨Call.add lset s.TimestampMs s.Value none :: pre, l, t, v, e, rb, post, he,
          by simp [hadds], ?_, hpost⟩
        intro c hc
        rcases List.mem_cons.1 hc with rfl | hc
        · rfl
        · exact hpre c hc

/-- Shape of the calls made by the series loop of v2Push. -/
theorem addSeries_spec (w : World) : ∀ (tss : List TimeSeries) (calls : List Call),
    ∃ adds, (addSeries w tss calls).1 = calls ++ adds ∧
      (((addSeries w tss calls).2 = none ∧ ∀ c ∈ adds, c.isOkAdd = true) ∨
       (∃ pre l t v e rb post, (addSeries w tss calls).2 = some e ∧
          adds = pre ++ [Call.add l t v (some e), Call.rollback rb] ++ post ∧
          (∀ c ∈ pre, c.isOkAdd = true) ∧ (∀ c ∈ post, c = Call.logWarn))) := by
  intro tss
  induction tss with
  | nil => intro calls; exact ⟨[], by simp [addSeries], Or.inl ⟨rfl, by simp⟩⟩
  | cons ts rest ih =>
    intro calls
    obtain ⟨adds1, h1, h2⟩ := addSamples_spec w (FromLabelAdaptersToLabels ts.Labels)
      ts.Samples calls
    rcases h2 with ⟨hn, hok⟩ | ⟨pre, l, t, v, e, rb, post, he, hadds, hpre, hpost⟩
    · have hpair : addSamples w (FromLabelAdaptersToLabels ts.Labels) ts.Samples calls =
          (calls ++ adds1, none) := Prod.ext h1 hn
      have hrw : addSeries w (ts :: rest) calls = addSeries w rest (calls ++ adds1) := by
        simp [addSeries, hpair]
      rw [hrw]
      obtain ⟨adds2, g1, g2⟩ := ih (calls ++ adds1)
      refine ⟨adds1 ++ adds2, by simp [g1], ?_⟩
      rcases g2 with ⟨gn, gok⟩ | ⟨pre, l, t, v, e, rb, post, he, hadds, hpre, hpost⟩
      · left
        refine ⟨gn, ?_⟩
        intro c hc
        rcases List.mem_append.1 hc with hc | hc
        · exact hok c hc
        · exact gok c hc
      · right
        refine ⟨adds1 ++ pre, l, t, v, e, rb, post, he, by simp [hadds], ?_, hpost⟩
        intro c hc
        rcases List.mem_append.1 hc with hc | hc
        · exact hok c hc
        · exact hpre c hc
    · have hpair : addSamples w (FromLabelAdaptersToLabels ts.Labels) ts.Samples calls =
          (calls ++ adds1, some e) := Prod.ext h1 he
      have hrw : addSeries w (ts :: rest) calls = (calls ++ adds1, some e) := by
        simp [addSeries, hpair]
      rw [hrw]
      exact ⟨adds1, rfl, Or.inr ⟨pre, l, t, v, e, rb, post, rfl, hadds, hpre, hpost⟩⟩

/-- The three ways a call of v2Push can run: it stops before touching the write path;
an Add fails and the appender is rolled back; or every Add succeeds and Commit is called. -/
theorem v2Push_cases (w : World) (i : Ingester) (ctx : Option String) (req : WriteRequest) :
    ((∀ c ∈ (i.v2Push w ctx req).calls, c.isWritePath = false) ∧
      ∃ err, (i.v2Push w ctx req).result = .error err) ∨
    (i.stopped = false ∧
      ∃ setup db pre l t v e rb post,
        (i.v2Push w ctx req).calls = setup ++ [Call.inflightAdd, Call.appender db] ++
          (pre ++ [Call.add l t v (some e), Call.rollback rb] ++ post) ++ [Call.inflightDone] ∧
        (∀ c ∈ setup, c.isWritePath = false) ∧ (∀ c ∈ pre, c.isOkAdd = true) ∧
        (∀ c ∈ post, c = Call.logWarn) ∧ (i.v2Push w ctx req).result = .error e) ∨
    (i.stopped = false ∧
      ∃ setup db adds cerr rest,
        (i.v2Push w ctx req).calls = setup ++ [Call.inflightAdd, Call.appender db] ++ adds ++
          [Call.commit cerr] ++ rest ∧
        (∀ c ∈ setup, c.isWritePath = false) ∧ (∀ c ∈ adds, c.isOkAdd = true) ∧
        (rest = [Call.inflightDone] ∨ rest = [Call.reuseSlice, Call.inflightDone])) := by
  cases ctx with
  | none =>
    left
    exact ⟨by simp [Ingester.v2Push, ExtractOrgID], "no user id",
      by simp [Ingester.v2Push, ExtractOrgID]⟩
  | some userID =>
    have hsetup := getOrCreateTSDB_calls_setup w i userID
    have hstop := getOrCreateTSDB_stopped w i userID
    cases hres : (i.getOrCreateTSDB w userID).result with
    | error err =>
      left
      have hrun : i.v2Push w (some userID) req =
          { ingester := (i.getOrCreateTSDB w userID).ingester,
            calls := (i.getOrCreateTSDB w userID).calls, result := .error err } := by
        simp [Ingester.v2Push, ExtractOrgID, hres]
      rw [hrun]
      exact ⟨hsetup, err, rfl⟩
    | ok db =>
      cases hst : i.stopped with
      | true =>
        left
        have hrun : i.v2Push w (some userID) req =
            { ingester := (i.getOrCreateTSDB w userID).ingester,
              calls := (i.getOrCreateTSDB w userID).calls,
              result := .error "ingester stopping" } := by
          simp [Ingester.v2Push, ExtractOrgID, hres, hstop, hst]
        rw [hrun]
        exact ⟨hsetup, _, rfl⟩
      | false =>
        right
        obtain ⟨adds, h1, h2⟩ := addSeries_spec w req.Timeseries
          ((i.getOrCreateTSDB w userID).calls ++ [Call.inflightAdd, Call.appender db])
        rcases h2 with ⟨hn, hok⟩ | ⟨pre, l, t, v, e, rb, post, he, hadds, hpre, hpost⟩
        · right
          have hpair : addSeries w req.Timeseries
              ((i.getOrCreateTSDB w userID).calls ++ [Call.inflightAdd, Call.appender db]) =
              ((i.getOrCreateTSDB w userID).calls ++ [Call.inflightAdd, Call.appender db] ++ adds,
                none) := Prod.ext h1 hn
          refine ⟨rfl, (i.getOrCreateTSDB w userID).calls, db, adds, ?_⟩
          cases hcm : w.commitErr ((i.getOrCreateTSDB w userID).calls ++
              [Call.inflightAdd, Call.appender db] ++ adds) with
          | some cerr =>
            refine ⟨some cerr, [Call.inflightDone], ?_, hsetup, hok, Or.inl rfl⟩
            simp only [List.append_assoc, List.cons_append, List.nil_append] at hcm
            simp [Ingester.v2Push, ExtractOrgID, hres, hstop, hst, hpair, hcm]
          | none =>
            refine ⟨none, [Call.reuseSlice, Call.inflightDone], ?_, hsetup, hok, Or.inr rfl⟩
            simp only [List.append_assoc, List.cons_append, List.nil_append] at hcm
            simp [Ingester.v2Push, ExtractOrgID, hres, hstop, hst, hpair, hcm]
        · left
          have hpair : addSeries w req.Timeseries
              ((i.getOrCreateTSDB w userID).calls ++ [Call.inflightAdd, Call.appender db]) =
              ((i.getOrCreateTSDB w userID).calls ++ [Call.inflightAdd, Call.appender db] ++ adds,
                some e) := Prod.ext h1 he
          refine ⟨rfl, (i.getOrCreateTSDB w userID).calls, db, pre, l, t, v, e, rb, post, ?_,
            hsetup, hpre, hpost, ?_⟩
          · simp [Ingester.v2Push, ExtractOrgID, hres, hstop, hst, hpair, hadds]
          · simp [Ingester.v2Push, ExtractOrgID, hres, hstop, hst, hpair]

theorem Call.not_writePath {c : Call} (h : c.isWritePath = false) :
    c.isAdd = false ∧ c.isRollback = false ∧ c.isCommit = false ∧ c ≠ Call.inflightAdd ∧
      (∀ db, c ≠ Call.appender db) := by
  cases c <;> simp_all [Call.isWritePath, Call.isAdd, Call.isRollback, Call.isCommit]

theorem Call.okAdd {c : Call} (h : c.isOkAdd = true) :
    c.isAdd = true ∧ c.isRollback = false ∧ c.isCommit = false ∧
      ∀ l t v e, c ≠ Call.add l t v (some e) := by
  cases c with
  | add l t v err => cases err <;> simp_all [Call.isOkAdd, Call.isAdd, Call.isRollback, Call.isCommit]
  | _ => simp_all [Call.isOkAdd, Call.isAdd, Call.isRollback, Call.isCommit]

/-- Claim C7. Whenever some call of Add made by v2Push returns an error, v2Push returns
exactly that error, calls Rollback exactly once (right after the failed Add, whatever
Rollback returns), never calls Commit, and the failed Add is its last Add: every Add
before it succeeded and none follows it. -/
theorem v2Push_add_error_rolls_back (w : World) (i : Ingester) (ctx : Option String)
    (req : WriteRequest) (l : Labels) (t v : Int) (e : String)
    (h : Call.add l t v (some e) ∈ (i.v2Push w ctx req).calls) :
    (i.v2Push w ctx req).result = .error e ∧
    (i.v2Push w ctx req).calls.countP Call.isRollback = 1 ∧
    (∀ c ∈ (i.v2Push w ctx req).calls, c.isCommit = false) ∧
    ∃ before rb after,
      (i.v2Push w ctx req).calls =
        before ++ [Call.add l t v (some e), Call.rollback rb] ++ after ∧
      (∀ c ∈ before, c.isAdd = true → c.isOkAdd = true) ∧
      (∀ c ∈ after, c.isAdd = false) := by
  rcases v2Push_cases w i ctx req with ⟨hno, _⟩ |
    ⟨_, setup, db, pre, l1, t1, v1, e1, rb, post, hcalls, hsetup, hpre, hpost, hres⟩ |
    ⟨_, setup, db, adds, cerr, rest, hcalls, hsetup, hadds, hrest⟩
  · exact absurd (hno _ h) (by simp [Call.isWritePath])
  · have hmem := h
    rw [hcalls] at hmem
    simp only [List.mem_append, List.mem_cons, List.mem_singleton, List.not_mem_nil,
      or_false] at hmem
    have heq : Call.add l t v (some e) = Call.add l1 t1 v1 (some e1) := by
      rcases hmem with ((hm | hm | hm) | ((hm | hm | hm) | hm)) | hm
      · exact absurd (hsetup _ hm) (by simp [Call.isWritePath])
      · exact absurd hm (by simp)
      · exact absurd hm (by simp)
      · exact absurd (hpre _ hm) (by simp [Call.isOkAdd])
      · exact hm
      · exact absurd hm (by simp)
      · exact absurd (hpost _ hm) (by simp)
      · exact absurd hm (by simp)
    injection heq with h1 h2 h3 h4
    injection h4 with h4
    subst h1 h2 h3 h4
    have hs0 : setup.countP Call.isRollback = 0 :=
      List.countP_eq_zero.2 (fun c hc => by simp [(Call.not_writePath (hsetup c hc)).2.1])
    have hp0 : pre.countP Call.isRollback = 0 :=
      List.countP_eq_zero.2 (fun c hc => by simp [(Call.okAdd (hpre c hc)).2.1])
    have hq0 : post.countP Call.isRollback = 0 :=
      List.countP_eq_zero.2 (fun c hc => by rw [hpost c hc]; simp [Call.isRollback])
    refine ⟨hres, ?_, ?_, setup ++ [Call.inflightAdd, Call.appender db] ++ pre, rb,
      post ++ [Call.inflightDone], ?_, ?_, ?_⟩
    · rw [hcalls]
      simp only [List.countP_append, hs0, hp0, hq0]
      simp [List.countP_cons, Call.isRollback]
    · intro c hc
      rw [hcalls] at hc
      simp only [List.mem_append, List.mem_cons, List.mem_singleton, List.not_mem_nil,
        or_false] at hc
      rcases hc with ((hm | hm | hm) | ((hm | hm | hm) | hm)) | hm
      · exact (Call.not_writePath (hsetup _ hm)).2.2.1
      · subst hm; rfl
      · subst hm; rfl
      · exact (Call.okAdd (hpre _ hm)).2.2.1
      · subst hm; rfl
      · subst hm; rfl
      · rw [hpost _ hm]; rfl
      · subst hm; rfl
    · rw [hcalls]; simp
    · intro c hc _
      simp only [List.mem_append, List.mem_cons, List.mem_singleton, List.not_mem_nil,
        or_false] at hc
      rcases hc with (hm | hm | hm) | hm
      · exact absurd (Call.not_writePath (hsetup _ hm)).1 (by simp_all)
      · subst hm; simp_all [Call.isAdd]
      · subst hm; simp_all [Call.isAdd]
      · exact hpre _ hm
    · intro c hc
      simp only [List.mem_append, List.mem_singleton] at hc
      rcases hc with hm | hm
      · rw [hpost _ hm]; rfl
      · subst hm; rfl
  · have hmem := h
    rw [hcalls] at hmem
    simp only [List.mem_append, List.mem_cons, List.mem_singleton, List.not_mem_nil,
      or_false] at hmem
    rcases hmem with (((hm | hm | hm) | hm) | hm) | hm
    · exact absurd (hsetup _ hm) (by simp [Call.isWritePath])
    · exact absurd hm (by simp)
    · exact absurd hm (by simp)
    · exact absurd (hadds _ hm) (by simp [Call.isOkAdd])
    · exact absurd hm (by simp)
    · rcases hrest with hr | hr <;> subst hr <;> simp at hm

/-- Witness for C7: the push-with-rollback scenario, with a failing Rollback. -/
theorem v2Push_add_error_rolls_back_witness :
    (freshIngester.v2Push rejectingWorld (some "tenant") twoSeriesRequest).calls =
      [Call.openTSDB "/data/tenant" none, Call.startShipper "tenant", Call.inflightAdd,
       Call.appender 7, Call.add [("job", "a")] 1 10 none, Call.add [("job", "a")] 2 20 none,
       Call.add [("job", "b")] 1 10 none, Call.add [("job", "b")] 3 30 (some "out of order"),
       Call.rollback (some "rollback failed"), Call.logWarn, Call.inflightDone] ∧
    (freshIngester.v2Push rejectingWorld (some "tenant") twoSeriesRequest).result =
      .error "out of order" ∧
    (freshIngester.v2Push rejectingWorld (some "tenant") twoSeriesRequest).calls.countP
      Call.isRollback = 1 :=
  ⟨by decide,
   (v2Push_add_error_rolls_back rejectingWorld freshIngester (some "tenant") twoSeriesRequest
      [("job", "b")] 3 30 "out of order" (by decide)).1,
   (v2Push_add_error_rolls_back rejectingWorld freshIngester (some "tenant") twoSeriesRequest
      [("job", "b")] 3 30 "out of order" (by decide)).2.1⟩

/-- Claim C8. When the stopped flag is set, v2Push returns an error, does not increment
the in-flight write counter, obtains no appender, and calls neither Add nor Commit. -/
theorem v2Push_stopped (w : World) (i : Ingester) (ctx : Option String) (req : WriteRequest)
    (h : i.stopped = true) :
    (∃ err, (i.v2Push w ctx req).result = .error err) ∧
    (∀ c ∈ (i.v2Push w ctx req).calls,
      c ≠ Call.inflightAdd ∧ (∀ db, c ≠ Call.appender db) ∧ c.isAdd = false ∧
        c.isCommit = false) := by
  rcases v2Push_cases w i ctx req with ⟨hno, herr⟩ | ⟨hst, _⟩ | ⟨hst, _⟩
  · refine ⟨herr, fun c hc => ?_⟩
    have := Call.not_writePath (hno c hc)
    exact ⟨this.2.2.2.1, this.2.2.2.2, this.1, this.2.2.1⟩
  · rw [h] at hst; exact absurd hst (by simp)
  · rw [h] at hst; exact absurd hst (by simp)

/-- Witness for C8: a push to a stopped ingester makes no call and is refused. -/
theorem v2Push_stopped_witness :
    stoppedIngester.stopped = true ∧
    (stoppedIngester.v2Push rejectingWorld (some "tenant") twoSeriesRequest).calls = [] ∧
    (stoppedIngester.v2Push rejectingWorld (some "tenant") twoSeriesRequest).result =
      .error "ingester stopping" ∧
    (∃ err, (stoppedIngester.v2Push rejectingWorld (some "tenant") twoSeriesRequest).result =
      .error err) :=
  ⟨rfl, by decide, by decide,
   (v2Push_stopped rejectingWorld stoppedIngester (some "tenant") twoSeriesRequest rfl).1⟩

/-- Claim C9. For a tenant present in the map getOrCreateTSDB returns the stored handle,
makes no call (opens no database, starts no shipper) and leaves the ingester unchanged. For
an absent tenant, a successful open is the only open, is followed by one shipper start,
stores the new handle under that tenant and changes no other entry; a failed open returns
its error, stores nothing and starts no shipper. In every case at most one database is
opened. -/
theorem getOrCreateTSDB_one_per_tenant (w : World) (i : Ingester) (userID : String) :
    (∀ db, i.dbs userID = some db →
      (i.getOrCreateTSDB w userID).result = .ok db ∧
      (i.getOrCreateTSDB w userID).calls = [] ∧
      (i.getOrCreateTSDB w userID).ingester = i) ∧
    (i.dbs userID = none → ∀ db, w.openTSDB (i.userDir w userID) = .ok db →
      (i.getOrCreateTSDB w userID).result = .ok db ∧
      (i.getOrCreateTSDB w userID).calls =
        [Call.openTSDB (i.userDir w userID) none, Call.startShipper userID] ∧
      (i.getOrCreateTSDB w userID).ingester.dbs userID = some db ∧
      (∀ u, u ≠ userID → (i.getOrCreateTSDB w userID).ingester.dbs u = i.dbs u)) ∧
    (i.dbs userID = none → ∀ err, w.openTSDB (i.userDir w userID) = .error err →
      (i.getOrCreateTSDB w userID).result = .error err ∧
      (i.getOrCreateTSDB w userID).calls = [Call.openTSDB (i.userDir w userID) (some err)] ∧
      (i.getOrCreateTSDB w userID).ingester = i) ∧
    (i.getOrCreateTSDB w userID).calls.countP Call.isOpen ≤ 1 := by
  refine ⟨?_, ?_, ?_, ?_⟩
  · intro db h
    rw [getOrCreateTSDB_present w i userID db h]
    exact ⟨rfl, rfl, rfl⟩
  · intro h db ho
    rw [getOrCreateTSDB_open_ok w i userID db h ho]
    refine ⟨rfl, rfl, by simp, ?_⟩
    intro u hu
    simp [Function.update_noteq hu]
  · intro h err ho
    rw [getOrCreateTSDB_open_error w i userID err h ho]
    exact ⟨rfl, rfl, rfl⟩
  · cases h : i.dbs userID with
    | some db => rw [getOrCreateTSDB_present w i userID db h]; simp
    | none =>
      cases ho : w.openTSDB (i.userDir w userID) with
      | error err =>
        rw [getOrCreateTSDB_open_error w i userID err h ho]
        simp [Call.isOpen]
      | ok db =>
        rw [getOrCreateTSDB_open_ok w i userID db h ho]
        simp [List.countP_cons, Call.isOpen]

/-- Witness for C9: a present tenant, an absent tenant with a successful open, and an
absent tenant with a failing open. -/
theorem getOrCreateTSDB_one_per_tenant_witness :
    ((stoppedIngester.getOrCreateTSDB rejectingWorld "tenant").result = .ok 7 ∧
      (stoppedIngester.getOrCreateTSDB rejectingWorld "tenant").calls = [] ∧
      (stoppedIngester.getOrCreateTSDB rejectingWorld "tenant").ingester = stoppedIngester) ∧
    ((freshIngester.getOrCreateTSDB rejectingWorld "tenant").result = .ok 7 ∧
      (freshIngester.getOrCreateTSDB rejectingWorld "tenant").calls =
        [Call.openTSDB (freshIngester.userDir rejectingWorld "tenant") none,
         Call.startShipper "tenant"] ∧
      (freshIngester.getOrCreateTSDB rejectingWorld "tenant").ingester.dbs "tenant" = some 7 ∧
      (∀ u, u ≠ "tenant" →
        (freshIngester.getOrCreateTSDB rejectingWorld "tenant").ingester.dbs u =
          freshIngester.dbs u)) ∧
    ((freshIngester.getOrCreateTSDB brokenDiskWorld "tenant").result = .error "disk full" ∧
      (freshIngester.getOrCreateTSDB brokenDiskWorld "tenant").calls =
        [Call.openTSDB (freshIngester.userDir brokenDiskWorld "tenant") (some "disk full")] ∧
      (freshIngester.getOrCreateTSDB brokenDiskWorld "tenant").ingester = freshIngester) :=
  ⟨(getOrCreateTSDB_one_per_tenant rejectingWorld stoppedIngester "tenant").1 7 (by decide),
   (getOrCreateTSDB_one_per_tenant rejectingWorld freshIngester "tenant").2.1 rfl 7 rfl,
   (getOrCreateTSDB_one_per_tenant brokenDiskWorld freshIngester "tenant").2.2.1 rfl
     "disk full" rfl⟩

/-- The conversion loop on matchers whose patterns compile: it extends the slice built
so far by one translated matcher per input matcher, in order. -/
theorem convertMatchers_ok (lib : RegexpLib) : ∀ (ms : List Matcher)
    (acc : List (TSDBMatcher lib.Regexp)),
    (∀ m ∈ ms, ∀ n, m.Typ ≠ .other n) →
    (∀ m ∈ ms, m.isRegexp → ∃ re, lib.Compile ("^(?:" ++ m.Value ++ ")$") = .ok re) →
    ∃ out, convertMatchers lib ms acc = .ok (acc ++ out) ∧
      List.Forall₂ (Translates lib) ms out := by
  intro ms
  induction ms with
  | nil => intro acc _ _; exact ⟨[], by simp [convertMatchers], List.Forall₂.nil⟩
  | cons m rest ih =>
    intro acc hty hre
    have hty1 : ∀ x ∈ rest, ∀ n, x.Typ ≠ .other n := fun x hx => hty x (List.mem_cons_of_mem _ hx)
    have hre1 : ∀ x ∈ rest, x.isRegexp →
        ∃ re, lib.Compile ("^(?:" ++ x.Value ++ ")$") = .ok re :=
      fun x hx => hre x (List.mem_cons_of_mem _ hx)
    cases hm : m.Typ with
    | MatchEqual =>
      obtain ⟨out, ho, hf⟩ := ih (acc ++ [NewEqualMatcher lib.Regexp m.Name m.Value]) hty1 hre1
      refine ⟨NewEqualMatcher lib.Regexp m.Name m.Value :: out, ?_, List.Forall₂.cons ?_ hf⟩
      · simp only [convertMatchers, hm, ho]; simp
      · simp [Translates, hm, NewEqualMatcher]
    | MatchNotEqual =>
      obtain ⟨out, ho, hf⟩ :=
        ih (acc ++ [.not (NewEqualMatcher lib.Regexp m.Name m.Value)]) hty1 hre1
      refine ⟨.not (NewEqualMatcher lib.Regexp m.Name m.Value) :: out, ?_,
        List.Forall₂.cons ?_ hf⟩
      · simp only [convertMatchers, hm, ho]; simp
      · simp [Translates, hm, NewEqualMatcher]
    | MatchRegexp =>
      obtain ⟨re, hc⟩ := hre m (List.mem_cons_self _ _) (Or.inl hm)
      obtain ⟨out, ho, hf⟩ := ih (acc ++ [.regexp m.Name re]) hty1 hre1
      refine ⟨.regexp m.Name re :: out, ?_, List.Forall₂.cons ?_ hf⟩
      · simp only [convertMatchers, hm, NewRegexpMatcher, hc, ho]; simp
      · simp [Translates, hm, hc]
    | MatchNotRegexp =>
      obtain ⟨re, hc⟩ := hre m (List.mem_cons_self _ _) (Or.inr hm)
      obtain ⟨out, ho, hf⟩ := ih (acc ++ [.not (.regexp m.Name re)]) hty1 hre1
      refine ⟨.not (.regexp m.Name re) :: out, ?_, List.Forall₂.cons ?_ hf⟩
      · simp only [convertMatchers, hm, NewRegexpMatcher, hc, ho]; simp
      · simp [Translates, hm, hc]
    | other n => exact absurd hm (hty m (List.mem_cons_self _ _) n)

/-- The conversion loop stops with an error as soon as one pattern does not compile. -/
theorem convertMatchers_error (lib : RegexpLib) : ∀ (ms : List Matcher)
    (acc : List (TSDBMatcher lib.Regexp)),
    (∃ m ∈ ms, m.isRegexp ∧ ∃ err, lib.Compile ("^(?:" ++ m.Value ++ ")$") = .error err) →
    ∃ err, convertMatchers lib ms acc = .error err := by
  intro ms
  induction ms with
  | nil => intro acc ⟨m, hm, _⟩; exact absurd hm (List.not_mem_nil _)
  | cons m rest ih =>
    intro acc ⟨x, hx, hxr, err, hxe⟩
    have hrest : ∀ acc1, x ∈ rest → ∃ e, convertMatchers lib rest acc1 = .error e :=
      fun acc1 hxm => ih acc1 ⟨x, hxm, hxr, err, hxe⟩
    cases hm : m.Typ with
    | MatchEqual =>
      rcases List.mem_cons.1 hx with rfl | hxm
      · rcases hxr with h | h <;> rw [hm] at h <;> exact absurd h (by simp)
      · simp only [convertMatchers, hm]; exact hrest _ hxm
    | MatchNotEqual =>
      rcases List.mem_cons.1 hx with rfl | hxm
      · rcases hxr with h | h <;> rw [hm] at h <;> exact absurd h (by simp)
      · simp only [convertMatchers, hm]; exact hrest _ hxm
    | other n =>
      rcases List.mem_cons.1 hx with rfl | hxm
      · rcases hxr with h | h <;> rw [hm] at h <;> exact absurd h (by simp)
      · simp only [convertMatchers, hm]; exact hrest _ hxm
    | MatchRegexp =>
      cases hc : lib.Compile ("^(?:" ++ m.Value ++ ")$") with
      | error e => exact ⟨e, by simp only [convertMatchers, hm, NewRegexpMatcher, hc]⟩
      | ok re =>
        rcases List.mem_cons.1 hx with rfl | hxm
        · rw [hc] at hxe; exact absurd hxe (by simp)
        · simp only [convertMatchers, hm, NewRegexpMatcher, hc]; exact hrest _ hxm
    | MatchNotRegexp =>
      cases hc : lib.Compile ("^(?:" ++ m.Value ++ ")$") with
      | error e => exact ⟨e, by simp only [convertMatchers, hm, NewRegexpMatcher, hc]⟩
      | ok re =>
        rcases List.mem_cons.1 hx with rfl | hxm
        · rw [hc] at hxe; exact absurd hxe (by simp)
        · simp only [convertMatchers, hm, NewRegexpMatcher, hc]; exact hrest _ hxm

/-- The conversion loop stops with the compile error of the first pattern that does not
compile. -/
theorem convertMatchers_first_error (lib : RegexpLib) : ∀ (pre : List Matcher)
    (acc : List (TSDBMatcher lib.Regexp)) (m : Matcher) (post : List Matcher) (err : String),
    (∀ x ∈ pre, x.isRegexp → ∃ re, lib.Compile ("^(?:" ++ x.Value ++ ")$") = .ok re) →
    m.isRegexp → lib.Compile ("^(?:" ++ m.Value ++ ")$") = .error err →
    convertMatchers lib (pre ++ m :: post) acc = .error err := by
  intro pre
  induction pre with
  | nil =>
    intro acc m post err _ hm hc
    rcases hm with h | h <;> simp [convertMatchers, h, NewRegexpMatcher, hc]
  | cons x pre ih =>
    intro acc m post err hpre hm hc
    have hpre1 : ∀ y ∈ pre, y.isRegexp →
        ∃ re, lib.Compile ("^(?:" ++ y.Value ++ ")$") = .ok re :=
      fun y hy => hpre y (List.mem_cons_of_mem _ hy)
    cases hx : x.Typ with
    | MatchEqual => simp only [List.cons_append, convertMatchers, hx]; exact ih _ m post err hpre1 hm hc
    | MatchNotEqual =>
      simp only [List.cons_append, convertMatchers, hx]; exact ih _ m post err hpre1 hm hc
    | other n => simp only [List.cons_append, convertMatchers, hx]; exact ih _ m post err hpre1 hm hc
    | MatchRegexp =>
      obtain ⟨re, hre⟩ := hpre x (List.mem_cons_self _ _) (Or.inl hx)
      simp only [List.cons_append, convertMatchers, hx, NewRegexpMatcher, hre]
      exact ih _ m post err hpre1 hm hc
    | MatchNotRegexp =>
      obtain ⟨re, hre⟩ := hpre x (List.mem_cons_self _ _) (Or.inr hx)
      simp only [List.cons_append, convertMatchers, hx, NewRegexpMatcher, hre]
      exact ih _ m post err hpre1 hm hc

/-- When the conversion loop stops with an error, v2Query returns that error and no
response. -/
theorem v2Query_convert_error (w : World) (lib : RegexpLib) (qw : QueryWorld lib)
    (i : Ingester) (userID : String) (req : QueryRequest) (start through : Int)
    (ms : List Matcher) (db : Nat) (err : String)
    (hreq : qw.fromQueryRequest req = .ok (start, through, ms))
    (hdb : (i.getOrCreateTSDB w userID).result = .ok db)
    (hq : qw.querierErr db start through = none)
    (hconv : convertMatchers lib ms [] = .error err) :
    (i.v2Query w lib qw (some userID) req).response = none ∧
    (i.v2Query w lib qw (some userID) req).err = some err := by
  simp [Ingester.v2Query, ExtractOrgID, hreq, hdb, hq, hconv]

/-- When the conversion loop returns a list, v2Query hands that list to Select and builds
its response from the series of the cursor. -/
theorem v2Query_convert_ok (w : World) (lib : RegexpLib) (qw : QueryWorld lib)
    (i : Ingester) (userID : String) (req : QueryRequest) (start through : Int)
    (ms : List Matcher) (db : Nat) (out : List (TSDBMatcher lib.Regexp))
    (series : List StoredSeries) (cursorErr : Option String)
    (hreq : qw.fromQueryRequest req = .ok (start, through, ms))
    (hdb : (i.getOrCreateTSDB w userID).result = .ok db)
    (hq : qw.querierErr db start through = none)
    (hconv : convertMatchers lib ms [] = .ok out)
    (hsel : qw.select db start through out = .ok (series, cursorErr)) :
    (i.v2Query w lib qw (some userID) req).response =
      some { Timeseries := series.map seriesToTimeSeries } ∧
    (i.v2Query w lib qw (some userID) req).err = cursorErr := by
  simp [Ingester.v2Query, ExtractOrgID, hreq, hdb, hq, hconv, hsel]

/-- Counterexample to C10 as stated. For the regular-expression matcher on job with value
an opening parenthesis, the anchored pattern, which lies in the modelled fragment, does
not compile: the translation produces no matcher list, and v2Query returns the compile
error and no response. -/
theorem convertMatchers_unbalanced_pattern :
    Re.inFragment "^(?:()$" = true ∧
    convertMatchers goRegexp unbalancedQuery.Matchers [] =
      .error "error parsing regexp: missing closing ): `^(?:()$`" ∧
    (tenantIngester.v2Query quietWorld goRegexp (storeOf []) (some "tenant")
      unbalancedQuery).response = none ∧
    (tenantIngester.v2Query quietWorld goRegexp (storeOf []) (some "tenant")
      unbalancedQuery).err = some "error parsing regexp: missing closing ): `^(?:()$`" ∧
    ¬ ∃ out, convertMatchers goRegexp [{ Typ := .MatchRegexp, Name := "job", Value := "(" }] []
        = .ok out ∧
      List.Forall₂ (Translates goRegexp)
        [{ Typ := .MatchRegexp, Name := "job", Value := "(" }] out := by
  have h : convertMatchers goRegexp [{ Typ := .MatchRegexp, Name := "job", Value := "(" }] [] =
      .error "error parsing regexp: missing closing ): `^(?:()$`" := by decide
  refine ⟨by decide, h, by decide, by decide, ?_⟩
  rintro ⟨out, ho, _⟩
  rw [h] at ho
  exact absurd ho (by simp)

/-- Claim C10, amended. For every regular-expression library and every list of matchers
of the four types: when the anchored pattern of every regular-expression matcher
compiles, the translation returns a list of the same length and order holding, for Equal
an equality matcher on name and value, for NotEqual its negation, for Regexp the matcher
compiled from exactly the value wrapped as an anchored non-capturing group, for NotRegexp
its negation, and v2Query hands this list to Select; when some anchored pattern does not
compile, the translation returns no list but the compile error of the first such
pattern, and v2Query returns that error and no response. -/
theorem convertMatchers_translates (lib : RegexpLib) (ms : List Matcher)
    (hty : ∀ m ∈ ms, ∀ n, m.Typ ≠ .other n) :
    ((∀ m ∈ ms, m.isRegexp → ∃ re, lib.Compile ("^(?:" ++ m.Value ++ ")$") = .ok re) →
      ∃ out, convertMatchers lib ms [] = .ok out ∧ out.length = ms.length ∧
        List.Forall₂ (Translates lib) ms out ∧
        ∀ (w : World) (qw : QueryWorld lib) (i : Ingester) (userID : String)
          (req : QueryRequest) (start through : Int) (db : Nat)
          (series : List StoredSeries) (cursorErr : Option String),
          qw.fromQueryRequest req = .ok (start, through, ms) →
          (i.getOrCreateTSDB w userID).result = .ok db →
          qw.querierErr db start through = none →
          qw.select db start through out = .ok (series, cursorErr) →
          (i.v2Query w lib qw (some userID) req).response =
            some { Timeseries := series.map seriesToTimeSeries } ∧
          (i.v2Query w lib qw (some userID) req).err = cursorErr) ∧
    (∀ (pre : List Matcher) (m : Matcher) (post : List Matcher) (err : String),
      ms = pre ++ m :: post → m.isRegexp →
      (∀ x ∈ pre, x.isRegexp → ∃ re, lib.Compile ("^(?:" ++ x.Value ++ ")$") = .ok re) →
      lib.Compile ("^(?:" ++ m.Value ++ ")$") = .error err →
      convertMatchers lib ms [] = .error err ∧
      ∀ (w : World) (qw : QueryWorld lib) (i : Ingester) (userID : String)
        (req : QueryRequest) (start through : Int) (db : Nat),
        qw.fromQueryRequest req = .ok (start, through, ms) →
        (i.getOrCreateTSDB w userID).result = .ok db →
        qw.querierErr db start through = none →
        (i.v2Query w lib qw (some userID) req).response = none ∧
        (i.v2Query w lib qw (some userID) req).err = some err) ∧
    ((∃ m ∈ ms, m.isRegexp ∧ ∃ err, lib.Compile ("^(?:" ++ m.Value ++ ")$") = .error err) →
      ∃ err, convertMatchers lib ms [] = .error err) := by
  refine ⟨fun hre => ?_, ?_, convertMatchers_error lib ms []⟩
  · obtain ⟨out, ho, hf⟩ := convertMatchers_ok lib ms [] hty hre
    have ho1 : convertMatchers lib ms [] = .ok out := by simpa using ho
    refine ⟨out, ho1, hf.length_eq.symm, hf, ?_⟩
    intro w qw i userID req start through db series cursorErr hreq hdb hq hsel
    exact v2Query_convert_ok w lib qw i userID req start through ms db out series cursorErr
      hreq hdb hq ho1 hsel
  · intro pre m post err hms hm hpre hc
    have hconv : convertMatchers lib ms [] = .error err := by
      rw [hms]
      exact convertMatchers_first_error lib pre [] m post err hpre hm hc
    refine ⟨hconv, ?_⟩
    intro w qw i userID req start through db hreq hdb hq
    exact v2Query_convert_error w lib qw i userID req start through ms db err hreq hdb hq hconv

/-- Witness for the amended C10, with the matcher-translation scenario of the
specification: the Regexp matcher on job with value foo.* is compiled from the anchored
string, matches foobar and does not match xfoobar; and a list whose second matcher has a
pattern that does not compile is translated into the compile error of that pattern. -/
theorem convertMatchers_translates_witness :
    goRegexp.Compile "^(?:foo.*)$" = .ok fooAnchored ∧
    convertMatchers goRegexp fourMatchers [] =
      .ok [.equal "job" "api", .not (.equal "job" "api"), .regexp "job" fooAnchored,
        .not (.regexp "job" fooAnchored)] ∧
    TSDBMatcher.Matches goRegexp (.regexp "job" fooAnchored) "foobar" = true ∧
    TSDBMatcher.Matches goRegexp (.regexp "job" fooAnchored) "xfoobar" = false ∧
    TSDBMatcher.Matches goRegexp (.not (.regexp "job" fooAnchored)) "xfoobar" = true ∧
    (∃ out, convertMatchers goRegexp fourMatchers [] = .ok out ∧
      out.length = fourMatchers.length ∧
      List.Forall₂ (Translates goRegexp) fourMatchers out) ∧
    convertMatchers goRegexp
      [{ Typ := .MatchEqual, Name := "job", Value := "api" },
       { Typ := .MatchNotRegexp, Name := "job", Value := "a)" }] [] =
      .error "error parsing regexp: unexpected ): `^(?:a))$`" := by
  have hfour := (convertMatchers_translates goRegexp fourMatchers (by simp [fourMatchers])).1
     (fun m hm _ => by
        have hv : m.Value = "api" ∨ m.Value = "foo.*" := by
          simp only [fourMatchers, List.mem_cons, List.mem_singleton, List.not_mem_nil,
            or_false] at hm
          rcases hm with rfl | rfl | rfl | rfl <;> simp
        rcases hv with hv | hv <;> rw [hv]
        · exact ⟨_, (by decide : goRegexp.Compile "^(?:api)$" =
            .ok (.cat .beginText (.cat (.cat (.lit 'a') (.cat (.lit 'p') (.lit 'i')))
              .endText)))⟩
        · exact ⟨fooAnchored, by decide⟩)
  obtain ⟨out, ho, hlen, hf, _⟩ := hfour
  have herr := ((convertMatchers_translates goRegexp
      [{ Typ := .MatchEqual, Name := "job", Value := "api" },
       { Typ := .MatchNotRegexp, Name := "job", Value := "a)" }]
      (by simp)).2.1
      [{ Typ := .MatchEqual, Name := "job", Value := "api" }]
      { Typ := .MatchNotRegexp, Name := "job", Value := "a)" } []
      "error parsing regexp: unexpected ): `^(?:a))$`" rfl (Or.inr rfl)
      (by simp [Matcher.isRegexp]) (by decide)).1
  exact ⟨by decide, by decide, by decide, by decide, by decide, ⟨out, ho, hlen, hf⟩, herr⟩

theorem StrictTs.of_append_right {l₁ l₂ : List (Int × Int)} (h : StrictTs (l₁ ++ l₂)) :
    StrictTs l₂ := (List.pairwise_append.1 h).2.1

theorem StrictTs.of_append_left {l₁ l₂ : List (Int × Int)} (h : StrictTs (l₁ ++ l₂)) :
    StrictTs l₁ := (List.pairwise_append.1 h).1

theorem StrictTs.append_lt {l₁ l₂ : List (Int × Int)} (h : StrictTs (l₁ ++ l₂)) :
    ∀ a ∈ l₁, ∀ b ∈ l₂, a.1 < b.1 := (List.pairwise_append.1 h).2.2

theorem Batch.samples_rewound_head {b : Batch} (h : b.Rewound) :
    ∃ tl, b.samples = (b.Timestamps 0, b.Values 0) :: tl := by
  obtain ⟨n, hn⟩ : ∃ n, b.Length = n + 1 := ⟨b.Length - 1, by have := h.2.1; omega⟩
  refine ⟨(List.range n).map (fun i => (b.Timestamps (i + 1), b.Values (i + 1))), ?_⟩
  simp [Batch.samples, hn, List.range_succ_eq_map, Function.comp_def]

theorem Batch.le_endTime {b : Batch} (hs : StrictTs b.samples) :
    ∀ s ∈ b.samples, s.1 ≤ b.endTime := by
  intro s hsm
  unfold Batch.samples at hs hsm
  obtain ⟨k, hk, rfl⟩ := List.mem_map.1 hsm
  have hkL : k < b.Length := List.mem_range.1 hk
  obtain ⟨n, hn⟩ : ∃ n, b.Length = n + 1 := ⟨b.Length - 1, by omega⟩
  rw [hn, List.range_succ, List.map_append] at hs
  by_cases hkn : k = n
  · subst hkn; simp [Batch.endTime, hn]
  · have hk2 : k ∈ List.range n := List.mem_range.2 (by omega)
    have := hs.append_lt _ (List.mem_map_of_mem _ hk2) (b.Timestamps n, b.Values n) (by simp)
    simp only [Batch.endTime, hn, Nat.add_sub_cancel]
    exact le_of_lt this

/-- The first timestamp of the current batch is a lower bound of everything the iterator
has still to offer. -/
theorem iterWF_key_le {it : nonOverlappingIterator} (h : it.WF)
    {b : Batch} (hb : it.cur = some b) : ∀ s ∈ it.content, b.Timestamps 0 ≤ s.1 := by
  have hrw : b.Rewound := h.1 b (by simp [hb])
  obtain ⟨tl, htl⟩ := Batch.samples_rewound_head hrw
  have hc : it.content = (b.Timestamps 0, b.Values 0) :: (tl ++ batchStream.samples it.rest) := by
    simp [nonOverlappingIterator.content, hb, batchStream.samples, htl]
  intro s hs
  have hst := h.2
  rw [hc] at hs hst
  rcases List.mem_cons.1 hs with rfl | hs
  · exact le_refl _
  · exact le_of_lt (hst.head_lt s hs)

theorem iterContent_cur {it : nonOverlappingIterator} {b : Batch}
    (hb : it.cur = some b) :
    it.content = b.samples ++ batchStream.samples it.rest := by
  simp [nonOverlappingIterator.content, hb, batchStream.samples]

/-- Dropping leading batches keeps an iterator well formed and only removes content. -/
theorem iterWF_of_suffix {it : nonOverlappingIterator} (h : it.WF)
    (pre : List Batch) (b : Batch) (r : List Batch)
    (hsplit : it.cur.toList ++ it.rest = pre ++ b :: r) :
    nonOverlappingIterator.WF { cur := some b, rest := r } ∧
    ∀ s ∈ nonOverlappingIterator.content { cur := some b, rest := r }, s ∈ it.content := by
  have hc : it.content = batchStream.samples pre ++
      nonOverlappingIterator.content { cur := some b, rest := r } := by
    simp only [nonOverlappingIterator.content, hsplit, batchStream.samples_append]
    simp [batchStream.samples]
  refine ⟨⟨?_, ?_⟩, ?_⟩
  · intro x hx
    apply h.1 x
    rw [hsplit]
    exact List.mem_append_right _ (by simpa using hx)
  · have := h.2
    rw [hc] at this
    exact this.of_append_right
  · intro s hs
    rw [hc]
    exact List.mem_append_right _ hs

theorem iterContent_exhausted :
    nonOverlappingIterator.content { cur := none, rest := [] } = [] := rfl

theorem iterWF_exhausted :
    nonOverlappingIterator.WF { cur := none, rest := [] } :=
  ⟨fun b hb => absurd hb (by simp), List.Pairwise.nil⟩

theorem iterNext_advances (size : Nat) :
    Advances (fun it => it.Next size) := by
  intro it h
  cases hr : it.rest with
  | nil =>
    have : it.Next size = ({ cur := none, rest := [] }, false) := by
      simp [nonOverlappingIterator.Next, hr]
    simp only [this]
    exact ⟨iterWF_exhausted, fun s hs => absurd hs (by
      simp [iterContent_exhausted]), fun hf => absurd hf (by simp),
      fun _ => rfl⟩
  | cons b r =>
    have : it.Next size = ({ cur := some b, rest := r }, true) := by
      simp [nonOverlappingIterator.Next, hr]
    simp only [this]
    obtain ⟨h1, h2⟩ := iterWF_of_suffix h it.cur.toList b r (by rw [hr])
    exact ⟨h1, h2, fun _ => ⟨b, rfl⟩, fun hf => absurd hf (by simp)⟩

theorem iterSeek_advances (t : Int) (size : Nat) :
    Advances (fun it => it.Seek t size) := by
  intro it h
  cases hr : (it.cur.toList ++ it.rest).dropWhile (fun b => decide (b.endTime < t)) with
  | nil =>
    have : it.Seek t size = ({ cur := none, rest := [] }, false) := by
      simp [nonOverlappingIterator.Seek, hr]
    simp only [this]
    exact ⟨iterWF_exhausted, fun s hs => absurd hs (by
      simp [iterContent_exhausted]), fun hf => absurd hf (by simp),
      fun _ => rfl⟩
  | cons b r =>
    have : it.Seek t size = ({ cur := some b, rest := r }, true) := by
      simp [nonOverlappingIterator.Seek, hr]
    simp only [this]
    have hsplit : it.cur.toList ++ it.rest =
        (it.cur.toList ++ it.rest).takeWhile (fun b => decide (b.endTime < t)) ++ b :: r := by
      rw [← hr, List.takeWhile_append_dropWhile]
    obtain ⟨h1, h2⟩ := iterWF_of_suffix h _ b r hsplit
    exact ⟨h1, h2, fun _ => ⟨b, rfl⟩, fun hf => absurd hf (by simp)⟩

theorem heapInit_perm (its : List nonOverlappingIterator) (h : List Nat) :
    (heapInit its h).Perm h := List.perm_insertionSort _ h

theorem heapInit_sorted (its : List nonOverlappingIterator) (h : List Nat) :
    (heapInit its h).Pairwise (fun i j => heapKey its i ≤ heapKey its j) := by
  haveI : IsTotal Nat (fun i j => heapKey its i ≤ heapKey its j) :=
    ⟨fun a b => le_total (heapKey its a) (heapKey its b)⟩
  haveI : IsTrans Nat (fun i j => heapKey its i ≤ heapKey its j) :=
    ⟨fun _ _ _ h1 h2 => le_trans h1 h2⟩
  exact List.sorted_insertionSort (fun i j => heapKey its i ≤ heapKey its j) h

theorem heapFix0_perm (its : List nonOverlappingIterator) (i : Nat) (rest : List Nat) :
    (heapFix0 its (i :: rest)).Perm (i :: rest) :=
  List.perm_orderedInsert _ i rest

theorem heapFix0_sorted (its : List nonOverlappingIterator) (i : Nat) (rest : List Nat)
    (h : rest.Pairwise (fun i j => heapKey its i ≤ heapKey its j)) :
    (heapFix0 its (i :: rest)).Pairwise (fun i j => heapKey its i ≤ heapKey its j) := by
  haveI : IsTotal Nat (fun i j => heapKey its i ≤ heapKey its j) :=
    ⟨fun a b => le_total (heapKey its a) (heapKey its b)⟩
  haveI : IsTrans Nat (fun i j => heapKey its i ≤ heapKey its j) :=
    ⟨fun _ _ _ h1 h2 => le_trans h1 h2⟩
  exact List.Sorted.orderedInsert i rest h

theorem heapKey_set_ne (its : List nonOverlappingIterator) (i j : Nat)
    (x : nonOverlappingIterator) (h : i ≠ j) :
    heapKey (its.set i x) j = heapKey its j := by
  simp [heapKey, List.getElem?_set_ne h]

theorem advanceAll_fst (f : nonOverlappingIterator → nonOverlappingIterator × Bool) :
    ∀ (its : List nonOverlappingIterator) (i0 : Nat),
      (advanceAll f its i0).1 = its.map (fun it => (f it).1) := by
  intro its
  induction its with
  | nil => intro _; rfl
  | cons it rest ih => intro i0; simp [advanceAll, ih (i0 + 1)]

theorem advanceAll_mem (f : nonOverlappingIterator → nonOverlappingIterator × Bool) :
    ∀ (its : List nonOverlappingIterator) (i0 j : Nat),
      j ∈ (advanceAll f its i0).2 ↔
        ∃ k it, j = i0 + k ∧ its[k]? = some it ∧ (f it).2 = true := by
  intro its
  induction its with
  | nil => intro i0 j; simp [advanceAll]
  | cons it rest ih =>
    intro i0 j
    have key : j ∈ (advanceAll f (it :: rest) i0).2 ↔
        (j = i0 ∧ (f it).2 = true) ∨ j ∈ (advanceAll f rest (i0 + 1)).2 := by
      simp only [advanceAll]
      by_cases hf : (f it).2 = true
      · simp [hf]
      · simp [hf]
    rw [key, ih (i0 + 1) j]
    constructor
    · rintro (⟨rfl, hf⟩ | ⟨k, x, rfl, hk, hf⟩)
      · exact ⟨0, it, rfl, by simp, hf⟩
      · exact ⟨k + 1, x, by omega, by simpa using hk, hf⟩
    · rintro ⟨k, x, rfl, hk, hf⟩
      cases k with
      | zero =>
        left
        simp only [List.getElem?_cons_zero, Option.some.injEq] at hk
        subst hk
        exact ⟨rfl, hf⟩
      | succ k =>
        right
        exact ⟨k, x, by omega, by simpa using hk, hf⟩

theorem advanceAll_nodup (f : nonOverlappingIterator → nonOverlappingIterator × Bool) :
    ∀ (its : List nonOverlappingIterator) (i0 : Nat), (advanceAll f its i0).2.Nodup := by
  intro its
  induction its with
  | nil => intro _; simp [advanceAll]
  | cons it rest ih =>
    intro i0
    simp only [advanceAll]
    split
    · refine List.nodup_cons.2 ⟨?_, ih (i0 + 1)⟩
      intro hmem
      obtain ⟨k, _, hk, _⟩ := (advanceAll_mem f rest (i0 + 1) i0).1 hmem
      omega
    · exact ih (i0 + 1)

/-- Advancing every underlying iterator, emptying the buffered batches and rebuilding the
heap re-establishes the invariant (the common part of newMergeIterator and Seek). -/
theorem mergeInv_restart (c : mergeIterator) (em : List (Int × Int))
    (hwf : ∀ it ∈ c.its, it.WF) (hem : StrictTs em)
    (hemits : ∀ e ∈ em, ∀ it ∈ c.its, ∀ s ∈ it.content, e.1 < s.1)
    (f : nonOverlappingIterator → nonOverlappingIterator × Bool) (hf : Advances f) :
    MergeInv { c with its := (advanceAll f c.its 0).1
                      h := heapInit (advanceAll f c.its 0).1 (advanceAll f c.its 0).2
                      batches := [] } em 0 := by
  have hmap := advanceAll_fst f c.its 0
  have hget : ∀ (i : Nat) (it1 : nonOverlappingIterator),
      (advanceAll f c.its 0).1[i]? = some it1 →
      ∃ it, c.its[i]? = some it ∧ it1 = (f it).1 := by
    intro i it1 h
    rw [hmap, List.getElem?_map] at h
    cases hi : c.its[i]? with
    | none => rw [hi] at h; simp at h
    | some it => rw [hi] at h; simp at h; exact ⟨it, rfl, h.symm⟩
  have hmemh : ∀ i, i ∈ heapInit (advanceAll f c.its 0).1 (advanceAll f c.its 0).2 ↔
      i ∈ (advanceAll f c.its 0).2 := fun i => (heapInit_perm _ _).mem_iff
  refine
    { its_wf := ?_, batches_rewound := ?_, batches_strict := ?_, heap_cur := ?_,
      heap_sorted := heapInit_sorted _ _, heap_nodup := ?_, idle_empty := ?_,
      em_strict := hem, em_batches := ?_, em_its := ?_ }
  · intro it1 h1
    simp only [hmap, List.mem_map] at h1
    obtain ⟨it, hit, rfl⟩ := h1
    exact (hf it (hwf it hit)).1
  · intro b hb; simp at hb
  · exact List.Pairwise.nil
  · intro i hi
    obtain ⟨k, it, hk, hit, hok⟩ := (advanceAll_mem f c.its 0 i).1 ((hmemh i).1 hi)
    have hik : i = k := by omega
    subst hik
    obtain ⟨b, hb⟩ := (hf it (hwf it (List.getElem?_mem hit))).2.2.1 hok
    refine ⟨(f it).1, b, ?_, hb⟩
    show (advanceAll f c.its 0).1[i]? = some (f it).1
    rw [hmap, List.getElem?_map, hit]; rfl
  · exact (heapInit_perm _ _).nodup_iff.2 (advanceAll_nodup f c.its 0)
  · intro i it1 h1 hni
    obtain ⟨it, hit, rfl⟩ := hget i it1 h1
    have hwf := hwf it (List.getElem?_mem hit)
    cases hok : (f it).2 with
    | false => exact (hf it hwf).2.2.2 hok
    | true =>
      exact absurd ((hmemh i).2 ((advanceAll_mem f c.its 0 i).2 ⟨i, it, by omega, hit, hok⟩)) hni
  · intro e _ s hs; simp [batchStream.samples] at hs
  · intro e he it1 h1 s hs
    simp only [hmap, List.mem_map] at h1
    obtain ⟨it, hit, rfl⟩ := h1
    exact hemits e he it hit s ((hf it (hwf it hit)).2.1 s hs)

theorem heapKey_of_cur {its : List nonOverlappingIterator} {i : Nat}
    {it : nonOverlappingIterator} {b : Batch} (h1 : its[i]? = some it) (h2 : it.cur = some b) :
    heapKey its i = b.Timestamps 0 := by
  simp [heapKey, h1, h2]

theorem needsMore_eq {c : mergeIterator} {em : List (Int × Int)} (hc : MergeInv c em 0)
    {top : nonOverlappingIterator} {b : Batch} (hb : top.cur = some b) :
    (c.batches = [] ∧ c.needsMore top = .ok true) ∨
    (∃ E tl, c.batches = E :: tl ∧
      c.needsMore top = .ok (decide (E.endTime ≥ b.Timestamps 0))) := by
  cases hbs : c.batches with
  | nil => left; exact ⟨rfl, by simp [mergeIterator.needsMore, hbs]⟩
  | cons E tl =>
    right
    refine ⟨E, tl, rfl, ?_⟩
    have hE : E.Rewound := hc.batches_rewound E (by simp [hbs])
    have h1 : 1 ≤ E.Length := hE.2.1
    have h2 : E.Length - 1 < BatchSize := by have := hE.2.2; omega
    have h3 : (0 : Nat) < BatchSize := by simp [BatchSize]
    simp [mergeIterator.needsMore, mergeIterator.nextBatchEndTime, hbs, h1,
      Batch.timestampAt, h2, h3, nonOverlappingIterator.AtTime, hb, bind, Except.bind, pure,
      Except.pure, Batch.endTime]

theorem iterRemaining_next {top : nonOverlappingIterator} {b : Batch} (hb : top.cur = some b)
    (size : Nat) : (top.Next size).1.remaining + 1 = top.remaining := by
  cases hr : top.rest with
  | nil => simp [nonOverlappingIterator.Next, nonOverlappingIterator.remaining, hr, hb]
  | cons x r => simp [nonOverlappingIterator.Next, nonOverlappingIterator.remaining, hr, hb]

theorem sum_remaining_set : ∀ (its : List nonOverlappingIterator) (i : Nat)
    (top x : nonOverlappingIterator), its[i]? = some top →
    ((its.set i x).map nonOverlappingIterator.remaining).sum + top.remaining =
      (its.map nonOverlappingIterator.remaining).sum + x.remaining := by
  intro its
  induction its with
  | nil => intro i top x h; simp at h
  | cons a rest ih =>
    intro i top x h
    cases i with
    | zero =>
      simp only [List.getElem?_cons_zero, Option.some.injEq] at h
      subst h
      simp only [List.set_cons_zero, List.map_cons, List.sum_cons]
      omega
    | succ i =>
      have h1 : rest[i]? = some top := by simpa using h
      have := ih i top x h1
      simp only [List.set_cons_succ, List.map_cons, List.sum_cons]
      omega

/-- One round of the loop of buildNextBatch keeps the invariant. -/
theorem mergeInv_step {c : mergeIterator} {em : List (Int × Int)} (hc : MergeInv c em 0)
    {i : Nat} {hrest : List Nat} (hh : c.h = i :: hrest)
    {top : nonOverlappingIterator} (htop : c.its[i]? = some top)
    {b : Batch} (hb : top.cur = some b) (size : Nat) (nb nbuf : batchStream)
    {buf : batchStream}
    (hbr : ∀ x ∈ buf, x.Rewound)
    (hbs : batchStream.samples buf = mergeSamples (batchStream.samples c.batches) b.samples) :
    MergeInv { c with
      its := c.its.set i (top.Next size).1
      h := if (top.Next size).2 then heapFix0 (c.its.set i (top.Next size).1) (i :: hrest)
           else heapPop (i :: hrest)
      batches := buf
      nextBatches := nb
      nextBatchesBuf := nbuf } em 0 := by
  have hwf : top.WF := hc.its_wf top (List.getElem?_mem htop)
  obtain ⟨hnwf, hnsub, hnok, hnno⟩ := iterNext_advances size top hwf
  have hbstrict : StrictTs b.samples := by
    have := hwf.2
    rw [iterContent_cur hb] at this
    exact this.of_append_left
  have hbsub : ∀ s ∈ b.samples, s ∈ top.content := by
    intro s hs
    rw [iterContent_cur hb]
    exact List.mem_append_left _ hs
  have hilt : i < c.its.length := by
    obtain ⟨h, _⟩ := List.getElem?_eq_some.1 htop
    exact h
  have hnd := hc.heap_nodup
  rw [hh] at hnd
  have hni : i ∉ hrest := (List.nodup_cons.1 hnd).1
  have hsorted := hc.heap_sorted
  rw [hh] at hsorted
  have hsorted1 : hrest.Pairwise (fun j k =>
      heapKey (c.its.set i (top.Next size).1) j ≤ heapKey (c.its.set i (top.Next size).1) k) := by
    refine List.Pairwise.imp_of_mem ?_ (List.pairwise_cons.1 hsorted).2
    intro j k hj hk hjk
    rw [heapKey_set_ne _ _ _ _ (fun h : i = j => hni (by rw [h]; exact hj)),
      heapKey_set_ne _ _ _ _ (fun h : i = k => hni (by rw [h]; exact hk))]
    exact hjk
  have hcur_rest : ∀ j ∈ hrest, ∃ it bb,
      (c.its.set i (top.Next size).1)[j]? = some it ∧ it.cur = some bb := by
    intro j hj
    obtain ⟨it, bb, h1, h2⟩ := hc.heap_cur j (by rw [hh]; exact List.mem_cons_of_mem _ hj)
    exact ⟨it, bb, by rw [List.getElem?_set_ne (fun h : i = j => hni (by rw [h]; exact hj))]; exact h1, h2⟩
  refine
    { its_wf := ?_, batches_rewound := hbr, batches_strict := ?_, heap_cur := ?_,
      heap_sorted := ?_, heap_nodup := ?_, idle_empty := ?_,
      em_strict := hc.em_strict, em_batches := ?_, em_its := ?_ }
  · intro it hit
    rcases List.mem_or_eq_of_mem_set hit with h | h
    · exact hc.its_wf it h
    · rw [h]; exact hnwf
  · show StrictTs (batchStream.samples buf)
    rw [hbs]
    exact mergeSamples_strict _ _ hc.batches_strict hbstrict
  · intro j hj
    cases hok : (top.Next size).2 with
    | true =>
      simp only [hok, if_true] at hj
      have hj1 : j ∈ i :: hrest := (heapFix0_perm _ i hrest).mem_iff.1 hj
      rcases List.mem_cons.1 hj1 with rfl | hj2
      · obtain ⟨bb, hbb⟩ := hnok hok
        exact ⟨(top.Next size).1, bb, List.getElem?_set_self hilt, hbb⟩
      · exact hcur_rest j hj2
    | false =>
      simp only [hok, Bool.false_eq_true, if_false, heapPop, List.tail_cons] at hj
      exact hcur_rest j hj
  · cases hok : (top.Next size).2 with
    | true =>
      simp only [if_true]
      exact heapFix0_sorted _ i hrest hsorted1
    | false =>
      simp only [Bool.false_eq_true, if_false, heapPop, List.tail_cons]
      exact hsorted1
  · cases hok : (top.Next size).2 with
    | true =>
      simp only [if_true]
      exact (heapFix0_perm _ i hrest).nodup_iff.2 hnd
    | false =>
      simp only [Bool.false_eq_true, if_false, heapPop, List.tail_cons]
      exact (List.nodup_cons.1 hnd).2
  · intro j it hj hnj
    by_cases hji : j = i
    · subst hji
      have hit : it = (top.Next size).1 := by
        have := List.getElem?_set_self (a := (top.Next size).1) hilt
        simp only at hj
        rw [this] at hj
        exact (Option.some.inj hj).symm
      cases hok : (top.Next size).2 with
      | true =>
        simp only [hok, if_true] at hnj
        exact absurd ((heapFix0_perm _ j hrest).mem_iff.2 (List.mem_cons_self _ _)) hnj
      | false => rw [hit]; exact hnno hok
    · have hj0 : c.its[j]? = some it := by
        simp only at hj
        rw [List.getElem?_set_ne (fun h => hji h.symm)] at hj
        exact hj
      apply hc.idle_empty j it hj0
      rw [hh]
      intro hmem
      rcases List.mem_cons.1 hmem with h | h
      · exact hji h
      · apply hnj
        cases hok : (top.Next size).2 with
        | true =>
          simp only [if_true]
          exact (heapFix0_perm _ i hrest).mem_iff.2 (List.mem_cons_of_mem _ h)
        | false =>
          simp only [Bool.false_eq_true, if_false, heapPop, List.tail_cons]
          exact h
  · intro e he s hs
    simp only [List.drop_zero] at hs
    rw [hbs] at hs
    rcases mem_mergeSamples _ _ s hs with h | h
    · exact hc.em_batches e he s (by simpa using h)
    · exact hc.em_its e he top (List.getElem?_mem htop) s (hbsub s h)
  · intro e he it hit s hs
    rcases List.mem_or_eq_of_mem_set hit with h | h
    · exact hc.em_its e he it h s hs
    · rw [h] at hs
      exact hc.em_its e he top (List.getElem?_mem htop) s (hnsub s hs)

theorem batchStream.appendSized_batchSize (bs : batchStream) (t v : Int) :
    batchStream.appendSized bs t v BatchSize = batchStream.append bs t v := rfl

theorem drainStreamSized_batchSize : ∀ (fuel : Nat) (src result : batchStream),
    drainStreamSized BatchSize fuel src result = drainStream fuel src result := by
  intro fuel
  induction fuel with
  | zero => intro _ _; rfl
  | succ n ih =>
    intro src result
    simp only [drainStreamSized, drainStream, batchStream.appendSized_batchSize, ih]

theorem mergeLoopSized_batchSize : ∀ (fuel : Nat) (left right result : batchStream),
    mergeLoopSized BatchSize fuel left right result = mergeLoop fuel left right result := by
  intro fuel
  induction fuel with
  | zero => intro _ _ _; rfl
  | succ n ih =>
    intro left right result
    simp only [mergeLoopSized, mergeLoop, batchStream.appendSized_batchSize,
      drainStreamSized_batchSize, ih]

/-- With the fill level BatchSize the four-argument merge is the mergeStreams of
stream.go. -/
theorem mergeStreamsSized_batchSize (left right result : batchStream) :
    mergeStreamsSized left right result BatchSize = mergeStreams left right result := by
  simp only [mergeStreamsSized, mergeStreams, mergeLoopSized_batchSize]

/-- On a stream under construction the sized append either faults on the array bound or
keeps the stream under construction and adds exactly the new sample after the stored
ones. -/
theorem batchStream.appendSized_built {bs : batchStream} (h : batchStream.Built bs)
    (t v : Int) (size : Nat) :
    batchStream.appendSized bs t v size = .error .indexOutOfRange ∨
    ∃ out, batchStream.appendSized bs t v size = .ok out ∧ batchStream.Built out ∧
      batchStream.samples out = batchStream.samples bs ++ [(t, v)] := by
  have hz : (Batch.zero.put t v).Built :=
    Batch.put_built rfl (by simp [Batch.zero, BatchSize]) t v
  have hzs : (Batch.zero.put t v).samples = [(t, v)] := by
    rw [Batch.samples_put rfl]; rfl
  rcases List.eq_nil_or_concat bs with rfl | ⟨init, last, rfl⟩
  · right
    refine ⟨[Batch.zero.put t v], ?_, ?_, ?_⟩
    · simp [batchStream.appendSized, Batch.zero, BatchSize]
    · intro c hc
      rw [List.mem_singleton] at hc
      subst hc
      exact hz
    · rw [batchStream.samples_singleton, hzs]; rfl
  · rw [List.concat_eq_append] at h ⊢
    have hl : last.Built := h last (by simp)
    have hi : batchStream.Built init := fun c hc => h c (by simp [hc])
    by_cases hfull : last.Index = size
    · right
      refine ⟨(init ++ [last]) ++ [Batch.zero.put t v], ?_, ?_, ?_⟩
      · simp [batchStream.appendSized, hfull, Batch.zero, BatchSize]
      · intro c hc
        rcases List.mem_append.1 hc with hc | hc
        · exact h c hc
        · rw [List.mem_singleton] at hc
          subst hc
          exact hz
      · rw [batchStream.samples_append, batchStream.samples_singleton, hzs]
    · by_cases hlt : last.Index < BatchSize
      · right
        refine ⟨init ++ [last.put t v], ?_, ?_, ?_⟩
        · simp [batchStream.appendSized, hfull, hlt]
        · intro c hc
          rcases List.mem_append.1 hc with hc | hc
          · exact hi c hc
          · rw [List.mem_singleton] at hc
            subst hc
            exact Batch.put_built hl.1 hlt t v
        · rw [batchStream.samples_append, batchStream.samples_append,
            batchStream.samples_singleton, batchStream.samples_singleton,
            Batch.samples_put hl.1]
          simp
      · left
        simp [batchStream.appendSized, hfull, hlt]

theorem drainStreamSized_ready (size : Nat) (fuel : Nat) : ∀ (src result : batchStream),
    batchStream.Ready src → batchStream.Built result →
    (batchStream.pending src).length < fuel →
    drainStreamSized size fuel src result = .error .indexOutOfRange ∨
    ∃ out, drainStreamSized size fuel src result = .ok out ∧ batchStream.Built out ∧
      batchStream.samples out = batchStream.samples result ++ batchStream.pending src := by
  induction fuel with
  | zero => intro src result _ _ hf; omega
  | succ n ih =>
    intro src result hs hr hf
    cases src with
    | nil => exact Or.inr ⟨result, by simp [drainStreamSized, batchStream.hasNext], hr,
        by simp [batchStream.pending]⟩
    | cons b rest =>
      have hb : b.Ready := hs b (List.mem_cons_self _ _)
      have hrest : batchStream.Ready rest := fun c hc => hs c (List.mem_cons_of_mem _ hc)
      obtain ⟨s, hnext, hsr, hpend⟩ := batchStream.next_ready hb hrest
      rcases batchStream.appendSized_built hr (b.Timestamps b.Index) (b.Values b.Index) size
        with happ | ⟨r1, happ, hr1, hsam⟩
      · left
        simp [drainStreamSized, batchStream.hasNext, batchStream.atSample_ready hb, happ,
          bind, Except.bind]
      · have hlen : (batchStream.pending s).length < n := by
          rw [hpend] at hf; simp at hf; omega
        rcases ih s r1 hsr hr1 hlen with herr | ⟨out, ho, hob, hos⟩
        · left
          simp [drainStreamSized, batchStream.hasNext, batchStream.atSample_ready hb, happ,
            hnext, herr, bind, Except.bind]
        · right
          refine ⟨out, ?_, hob, ?_⟩
          · simp [drainStreamSized, batchStream.hasNext, batchStream.atSample_ready hb, happ,
              hnext, ho, bind, Except.bind]
          · rw [hos, hsam, hpend]; simp

theorem mergeLoopSized_ready (size : Nat) (fuel : Nat) :
    ∀ (left right result : batchStream),
    batchStream.Ready left → batchStream.Ready right → batchStream.Built result →
    (batchStream.pending left).length + (batchStream.pending right).length < fuel →
    mergeLoopSized size fuel left right result = .error .indexOutOfRange ∨
    ∃ out, mergeLoopSized size fuel left right result = .ok out ∧ batchStream.Built out ∧
      batchStream.samples out = batchStream.samples result ++
        mergeSamples (batchStream.pending left) (batchStream.pending right) := by
  induction fuel with
  | zero => intro _ _ _ _ _ _ hf; omega
  | succ n ih =>
    intro left right result hl hr hres hf
    cases left with
    | nil =>
      have h0 : drainStreamSized size (batchStream.weight [] + 1) [] result = .ok result := rfl
      have hc : (batchStream.hasNext [] && batchStream.hasNext right) = false := rfl
      rcases drainStreamSized_ready size (batchStream.weight right + 1) right result
        hr hres (Nat.lt_succ_of_le (batchStream.pending_length_le_weight right))
        with herr | ⟨out, ho, hob, hos⟩
      · left
        rw [mergeLoopSized, if_neg (by rw [hc]; exact Bool.false_ne_true)]
        simp only [bind, Except.bind, h0, herr]
      · right
        refine ⟨out, ?_, hob, ?_⟩
        · rw [mergeLoopSized, if_neg (by rw [hc]; exact Bool.false_ne_true)]
          simp only [bind, Except.bind, h0, ho, pure, Except.pure]
        · rw [hos]; simp [batchStream.pending, mergeSamples]
    | cons a ltl =>
      have ha : a.Ready := hl a (List.mem_cons_self _ _)
      have hltl : batchStream.Ready ltl := fun c hc => hl c (List.mem_cons_of_mem _ hc)
      obtain ⟨l1, hnl, hl1, hpl⟩ := batchStream.next_ready ha hltl
      cases right with
      | nil =>
        have h0 : ∀ r, drainStreamSized size (batchStream.weight [] + 1) [] r = .ok r :=
          fun _ => rfl
        have hc : (batchStream.hasNext (a :: ltl) && batchStream.hasNext []) = false := by
          simp [batchStream.hasNext]
        rcases drainStreamSized_ready size (batchStream.weight (a :: ltl) + 1)
          (a :: ltl) result hl hres
          (Nat.lt_succ_of_le (batchStream.pending_length_le_weight (a :: ltl)))
          with herr | ⟨out, ho, hob, hos⟩
        · left
          rw [mergeLoopSized, if_neg (by rw [hc]; exact Bool.false_ne_true)]
          simp only [bind, Except.bind, herr]
        · right
          refine ⟨out, ?_, hob, ?_⟩
          · rw [mergeLoopSized, if_neg (by rw [hc]; exact Bool.false_ne_true)]
            simp only [bind, Except.bind, h0, ho, pure, Except.pure]
          · rw [hos]
            have : batchStream.pending ([] : batchStream) = [] := rfl
            rw [this, mergeSamples_nil_right]
      | cons b rtl =>
        have hb : b.Ready := hr b (List.mem_cons_self _ _)
        have hrtl : batchStream.Ready rtl := fun c hc => hr c (List.mem_cons_of_mem _ hc)
        obtain ⟨r1, hnr, hr1, hpr⟩ := batchStream.next_ready hb hrtl
        have hfl : (batchStream.pending l1).length + 1 =
            (batchStream.pending (a :: ltl)).length := by rw [hpl]; simp
        have hfr : (batchStream.pending r1).length + 1 =
            (batchStream.pending (b :: rtl)).length := by rw [hpr]; simp
        by_cases h1 : a.Timestamps a.Index < b.Timestamps b.Index
        · rcases batchStream.appendSized_built hres (a.Timestamps a.Index)
            (a.Values a.Index) size with happA | ⟨resA, happA, hresA, hsamA⟩
          · left
            simp [mergeLoopSized, batchStream.hasNext, batchStream.atTime_ready ha,
              batchStream.atTime_ready hb, batchStream.atSample_ready ha, h1, happA,
              bind, Except.bind]
          · rcases ih l1 (b :: rtl) resA hl1 hr hresA (by omega) with
              herr | ⟨out, ho, hob, hos⟩
            · left
              simp [mergeLoopSized, batchStream.hasNext, batchStream.atTime_ready ha,
                batchStream.atTime_ready hb, batchStream.atSample_ready ha, h1, happA, hnl,
                herr, bind, Except.bind]
            · right
              refine ⟨out, ?_, hob, ?_⟩
              · simp [mergeLoopSized, batchStream.hasNext, batchStream.atTime_ready ha,
                  batchStream.atTime_ready hb, batchStream.atSample_ready ha, h1, happA, hnl,
                  ho, bind, Except.bind]
              · rw [hos, hsamA, hpl]
                conv_rhs => rw [hpr, mergeSamples]
                simp only [h1, ↓reduceIte]
                rw [← hpr]; simp
        · by_cases h2 : a.Timestamps a.Index > b.Timestamps b.Index
          · rcases batchStream.appendSized_built hres (b.Timestamps b.Index)
              (b.Values b.Index) size with happB | ⟨resB, happB, hresB, hsamB⟩
            · left
              simp [mergeLoopSized, batchStream.hasNext, batchStream.atTime_ready ha,
                batchStream.atTime_ready hb, batchStream.atSample_ready hb, h1, h2, happB,
                bind, Except.bind]
            · rcases ih (a :: ltl) r1 resB hl hr1 hresB (by omega) with
                herr | ⟨out, ho, hob, hos⟩
              · left
                simp [mergeLoopSized, batchStream.hasNext, batchStream.atTime_ready ha,
                  batchStream.atTime_ready hb, batchStream.atSample_ready hb, h1, h2, happB,
                  hnr, herr, bind, Except.bind]
              · right
                refine ⟨out, ?_, hob, ?_⟩
                · simp [mergeLoopSized, batchStream.hasNext, batchStream.atTime_ready ha,
                    batchStream.atTime_ready hb, batchStream.atSample_ready hb, h1, h2,
                    happB, hnr, ho, bind, Except.bind]
                · rw [hos, hsamB, hpr]
                  conv_rhs => rw [hpl, mergeSamples]
                  simp only [h1, h2, ↓reduceIte]
                  rw [← hpl]; simp
          · rcases batchStream.appendSized_built hres (a.Timestamps a.Index)
              (a.Values a.Index) size with happA | ⟨resA, happA, hresA, hsamA⟩
            · left
              simp [mergeLoopSized, batchStream.hasNext, batchStream.atTime_ready ha,
                batchStream.atTime_ready hb, batchStream.atSample_ready ha, h1, h2, happA,
                bind, Except.bind]
            · rcases ih l1 r1 resA hl1 hr1 hresA (by omega) with herr | ⟨out, ho, hob, hos⟩
              · left
                simp [mergeLoopSized, batchStream.hasNext, batchStream.atTime_ready ha,
                  batchStream.atTime_ready hb, batchStream.atSample_ready ha, h1, h2, happA,
                  hnl, hnr, herr, bind, Except.bind]
              · right
                refine ⟨out, ?_, hob, ?_⟩
                · simp [mergeLoopSized, batchStream.hasNext, batchStream.atTime_ready ha,
                    batchStream.atTime_ready hb, batchStream.atSample_ready ha, h1, h2,
                    happA, hnl, hnr, ho, bind, Except.bind]
                · rw [hos, hsamA, hpl, hpr, mergeSamples]
                  simp only [h1, h2, ↓reduceIte]
                  simp

/-- Functional summary of the four-argument merge on rewound inputs, for every fill
level: it faults on an array bound or returns; when it returns, every batch of the result
is rewound and non-empty, and the result holds the reference merge of the inputs. It
never runs out of fuel. -/
theorem mergeStreamsSized_spec (left right result : batchStream) (size : Nat)
    (hl : ∀ b ∈ left, b.Rewound) (hr : ∀ b ∈ right, b.Rewound) :
    mergeStreamsSized left right result size = .error .indexOutOfRange ∨
    ∃ out, mergeStreamsSized left right result size = .ok out ∧ (∀ b ∈ out, b.Rewound) ∧
      batchStream.samples out =
        mergeSamples (batchStream.samples left) (batchStream.samples right) := by
  have hlr : batchStream.Ready left := fun b hb => (hl b hb).ready
  have hrr : batchStream.Ready right := fun b hb => (hr b hb).ready
  rcases mergeLoopSized_ready size
    (batchStream.weight left + batchStream.weight right + 1) left right []
    hlr hrr (fun _ h => absurd h (List.not_mem_nil _))
    (by
      have := batchStream.pending_length_le_weight left
      have := batchStream.pending_length_le_weight right
      omega) with herr | ⟨out, ho, hob, hos⟩
  · left
    simp [mergeStreamsSized, herr, bind, Except.bind]
  · right
    refine ⟨batchStream.reset out, ?_, batchStream.reset_built hob, ?_⟩
    · simp [mergeStreamsSized, ho, bind, Except.bind, pure, Except.pure]
    · rw [batchStream.samples_reset, hos,
        batchStream.pending_eq_samples (fun b hb => (hl b hb).1),
        batchStream.pending_eq_samples (fun b hb => (hr b hb).1)]
      rfl

theorem iterBatch_of_cur {top : nonOverlappingIterator} {b : Batch} (hb : top.cur = some b) :
    top.Batch = .ok b := by
  simp [nonOverlappingIterator.Batch, hb]

/-- Under the invariant and with the fuel that buildNextBatch supplies, the loop either
stops on an array bound of the merge or on the slice expression that exceeds the capacity
of the batches array, or returns
with the invariant and the exit condition established; it never runs out of fuel. -/
theorem buildLoop_spec (size : Nat) (em : List (Int × Int)) :
    ∀ (fuel : Nat) (c : mergeIterator), MergeInv c em 0 → c.remaining < fuel →
      mergeIterator.buildLoop size fuel c = .error .indexOutOfRange ∨
      ∃ c1, mergeIterator.buildLoop size fuel c = .ok c1 ∧ MergeInv c1 em 0 ∧ BuildDone c1 := by
  intro fuel
  induction fuel with
  | zero => intro c _ hf; omega
  | succ n ih =>
    intro c hc hf
    cases hh : c.h with
    | nil =>
      right
      exact ⟨c, by simp only [mergeIterator.buildLoop, hh], hc, Or.inl hh⟩
    | cons i hrest =>
      obtain ⟨top, b, htop, hb⟩ := hc.heap_cur i (by rw [hh]; exact List.mem_cons_self _ _)
      have hkey : heapKey c.its i = b.Timestamps 0 := heapKey_of_cur htop hb
      have hcont : c.needsMore top = .ok true →
          mergeIterator.buildLoop size (n + 1) c = .error .indexOutOfRange ∨
          ∃ c1, mergeIterator.buildLoop size (n + 1) c = .ok c1 ∧ MergeInv c1 em 0 ∧
            BuildDone c1 := by
        intro hneeds
        have hbrw : ∀ x ∈ [b], x.Rewound := by
          intro x hx
          rw [List.mem_singleton] at hx
          subst hx
          exact (hc.its_wf top (List.getElem?_mem htop)).1 x (by simp [hb])
        rcases mergeStreamsSized_spec c.batches [b] c.nextBatchesBuf size
          hc.batches_rewound hbrw with hmerr | ⟨buf, hm, hbufr, hbufs⟩
        · left
          simp only [mergeIterator.buildLoop, hh, htop, hneeds, iterBatch_of_cur hb, hmerr]
        rw [batchStream.samples_singleton] at hbufs
        by_cases hcap : buf.length > c.capacity
        · left
          simp only [mergeIterator.buildLoop, hh, htop, hneeds, iterBatch_of_cur hb,
            hm, if_pos hcap]
        · have hinv := mergeInv_step hc hh htop hb size [b] buf hbufr hbufs
          have hrem : mergeIterator.remaining
              { c with
                its := c.its.set i (top.Next size).1
                h := if (top.Next size).2 then
                       heapFix0 (c.its.set i (top.Next size).1) (i :: hrest)
                     else heapPop (i :: hrest)
                batches := buf
                nextBatches := [b]
                nextBatchesBuf := buf } < n := by
            have h1 := sum_remaining_set c.its i top (top.Next size).1 htop
            have h2 := iterRemaining_next hb size
            simp only [mergeIterator.remaining] at hf ⊢
            omega
          rcases ih _ hinv hrem with herr | ⟨c1, hok, hinv1, hdone⟩
          · left
            simp only [mergeIterator.buildLoop, hh, htop, hneeds, iterBatch_of_cur hb,
              hm, if_neg hcap]
            exact herr
          · right
            refine ⟨c1, ?_, hinv1, hdone⟩
            simp only [mergeIterator.buildLoop, hh, htop, hneeds, iterBatch_of_cur hb,
              hm, if_neg hcap]
            exact hok
      rcases needsMore_eq hc hb with ⟨_, hneeds⟩ | ⟨E, tl, hbs, hneeds⟩
      · exact hcont hneeds
      · by_cases hge : E.endTime ≥ b.Timestamps 0
        · rw [decide_eq_true hge] at hneeds
          exact hcont hneeds
        · rw [decide_eq_false hge] at hneeds
          right
          refine ⟨c, by simp only [mergeIterator.buildLoop, hh, htop, hneeds], hc,
            Or.inr ⟨i, hrest, E, tl, hh, hbs, ?_⟩⟩
          rw [hkey]
          exact not_le.1 hge

/-- After the loop has stopped with a first batch in the buffer, the samples of that batch
extend the emitted samples, and everything else still lies ahead of them. -/
theorem mergeInv_emit {c : mergeIterator} {em : List (Int × Int)} (hc : MergeInv c em 0)
    (hd : BuildDone c) {E : Batch} {tl : batchStream} (hbs : c.batches = E :: tl) :
    MergeInv c (em ++ E.samples) 1 := by
  have hsplit : batchStream.samples c.batches = E.samples ++ batchStream.samples tl := by
    rw [hbs]; simp [batchStream.samples]
  have hstrict := hc.batches_strict
  rw [hsplit] at hstrict
  have hEle := Batch.le_endTime hstrict.of_append_left
  refine
    { its_wf := hc.its_wf, batches_rewound := hc.batches_rewound,
      batches_strict := hc.batches_strict, heap_cur := hc.heap_cur,
      heap_sorted := hc.heap_sorted, heap_nodup := hc.heap_nodup,
      idle_empty := hc.idle_empty, em_strict := ?_, em_batches := ?_, em_its := ?_ }
  · refine List.pairwise_append.2 ⟨hc.em_strict, hstrict.of_append_left, ?_⟩
    intro e he s hs
    apply hc.em_batches e he s
    rw [List.drop_zero, hsplit]
    exact List.mem_append_left _ hs
  · intro e he s hs
    rw [hbs] at hs
    simp only [List.drop_succ_cons, List.drop_zero] at hs
    rcases List.mem_append.1 he with he | he
    · apply hc.em_batches e he s
      rw [List.drop_zero, hsplit]
      exact List.mem_append_right _ hs
    · exact hstrict.append_lt e he s hs
  · intro e he it hit s hs
    rcases List.mem_append.1 he with he | he
    · exact hc.em_its e he it hit s hs
    · obtain ⟨j, hj⟩ := List.mem_iff_getElem?.1 hit
      have hjh : j ∈ c.h := by
        by_contra hnj
        rw [hc.idle_empty j it hj hnj] at hs
        exact absurd hs (List.not_mem_nil _)
      rcases hd with hnil | ⟨i, hrest, E1, tl1, hh, hbs1, hlt⟩
      · rw [hnil] at hjh; exact absurd hjh (List.not_mem_nil _)
      · rw [hbs] at hbs1
        injection hbs1 with hE _
        subst hE
        obtain ⟨it1, bj, hj1, hbj⟩ := hc.heap_cur j hjh
        rw [hj] at hj1
        injection hj1 with hj1
        subst hj1
        have hkj : heapKey c.its j = bj.Timestamps 0 := heapKey_of_cur hj hbj
        have hij : heapKey c.its i ≤ heapKey c.its j := by
          have hs0 := hc.heap_sorted
          rw [hh] at hs0 hjh
          rcases List.mem_cons.1 hjh with h | h
          · rw [h]
          · exact (List.pairwise_cons.1 hs0).1 j h
        have h1 := hEle e he
        have h2 := iterWF_key_le (hc.its_wf it hit) hbj s hs
        omega

theorem mergeInv_no_batches {c : mergeIterator} {em : List (Int × Int)} {skip : Nat}
    (hc : MergeInv c em 0) (hbs : c.batches = []) : MergeInv c em skip :=
  { hc with em_batches := by intro e _ s hs; rw [hbs] at hs; simp [batchStream.samples] at hs }

/-- The first statements of Next, which drop the batch already handed out. -/
theorem mergeInv_pop {c : mergeIterator} {em : List (Int × Int)} (hc : MergeInv c em 1) :
    MergeInv (if c.batches.length > 0 then { c with batches := c.batches.tail } else c)
      em 0 := by
  cases hbs : c.batches with
  | nil =>
    simp only [List.length_nil, gt_iff_lt, lt_self_iff_false, if_false]
    exact { hc with
      em_batches := by intro e _ s hs; rw [hbs] at hs; simp [batchStream.samples] at hs }
  | cons E tl =>
    simp only [List.length_cons, gt_iff_lt, Nat.zero_lt_succ, if_true, List.tail_cons]
    have hsplit : batchStream.samples c.batches = E.samples ++ batchStream.samples tl := by
      rw [hbs]; simp [batchStream.samples]
    refine
      { its_wf := hc.its_wf, batches_rewound := ?_, batches_strict := ?_,
        heap_cur := hc.heap_cur, heap_sorted := hc.heap_sorted, heap_nodup := hc.heap_nodup,
        idle_empty := hc.idle_empty, em_strict := hc.em_strict, em_batches := ?_,
        em_its := hc.em_its }
    · intro b hb
      exact hc.batches_rewound b (by rw [hbs]; exact List.mem_cons_of_mem _ hb)
    · have := hc.batches_strict
      rw [hsplit] at this
      exact this.of_append_right
    · intro e he s hs
      apply hc.em_batches e he s
      rw [hbs]
      simpa using hs

/-- What buildNextBatch leaves behind when it is entered with the invariant: a fault on
an array bound or on the slice expression, or no batch (result false), or a first batch
that extends the emitted samples (result true). -/
theorem buildNextBatch_spec {c : mergeIterator} {em : List (Int × Int)}
    (hc : MergeInv c em 0) (size : Nat) :
    c.buildNextBatch size = .error .indexOutOfRange ∨
    (∃ c1, c.buildNextBatch size = .ok (c1, false) ∧ MergeInv c1 em 1) ∨
    (∃ c1 E tl, c.buildNextBatch size = .ok (c1, true) ∧ c1.batches = E :: tl ∧
      MergeInv c1 (em ++ E.samples) 1) := by
  rcases buildLoop_spec size em (c.remaining + 1) c hc (Nat.lt_succ_self _) with
    herr | ⟨c1, hok, hinv, hdone⟩
  · left
    simp only [mergeIterator.buildNextBatch, herr]
  · right
    cases hbs : c1.batches with
    | nil =>
      left
      refine ⟨c1, ?_, mergeInv_no_batches hinv hbs⟩
      simp [mergeIterator.buildNextBatch, hok, hbs]
    | cons E tl =>
      right
      refine ⟨c1, E, tl, ?_, hbs, mergeInv_emit hinv hdone hbs⟩
      simp [mergeIterator.buildNextBatch, hok, hbs]

/-- Every sequence of Seek and Next calls on a merge iterator satisfying the invariant
either faults on an array bound or on the slice expression, or emits batches whose
samples continue the emitted samples in strictly increasing timestamp order. -/
theorem emit_spec : ∀ (ops : List IterOp) (c : mergeIterator) (em : List (Int × Int)),
    MergeInv c em 1 →
    c.emit ops = .error .indexOutOfRange ∨
    ∃ out, c.emit ops = .ok out ∧ StrictTs (em ++ batchStream.samples out) := by
  intro ops
  induction ops with
  | nil =>
    intro c em hc
    right
    exact ⟨[], rfl, by simpa [batchStream.samples] using hc.em_strict⟩
  | cons op ops ih =>
    intro c em hc
    have key : ∀ (c0 : mergeIterator) (size : Nat), MergeInv c0 em 0 →
        (match c0.buildNextBatch size with
          | .error e => (.error e : Except Fault (List Batch))
          | .ok (c1, false) => mergeIterator.emit ops c1
          | .ok (c1, true) =>
            match c1.Batch with
            | .error e => .error e
            | .ok b =>
              match mergeIterator.emit ops c1 with
              | .error e => .error e
              | .ok bs => .ok (b :: bs)) = .error .indexOutOfRange ∨
        ∃ out, (match c0.buildNextBatch size with
          | .error e => (.error e : Except Fault (List Batch))
          | .ok (c1, false) => mergeIterator.emit ops c1
          | .ok (c1, true) =>
            match c1.Batch with
            | .error e => .error e
            | .ok b =>
              match mergeIterator.emit ops c1 with
              | .error e => .error e
              | .ok bs => .ok (b :: bs)) = .ok out ∧
          StrictTs (em ++ batchStream.samples out) := by
      intro c0 size h0
      rcases buildNextBatch_spec h0 size with herr | ⟨c1, hok, hinv⟩ | ⟨c1, E, tl, hok, hbs, hinv⟩
      · left; simp only [herr]
      · simp only [hok]
        exact ih c1 em hinv
      · have hB : c1.Batch = .ok E := by simp [mergeIterator.Batch, hbs]
        simp only [hok, hB]
        rcases ih c1 (em ++ E.samples) hinv with herr | ⟨out, ho, hs⟩
        · left; simp only [herr]
        · right
          refine ⟨E :: out, by simp only [ho], ?_⟩
          have : batchStream.samples (E :: out) = E.samples ++ batchStream.samples out := by
            simp [batchStream.samples]
          rw [this, ← List.append_assoc]
          exact hs
    cases op with
    | seek t size =>
      have h0 := mergeInv_restart c em hc.its_wf hc.em_strict hc.em_its
        (fun it => it.Seek t size) (iterSeek_advances t size)
      have := key _ size h0
      simpa only [mergeIterator.emit, mergeIterator.Seek] using this
    | next size =>
      have := key _ size (mergeInv_pop hc)
      simpa only [mergeIterator.emit, mergeIterator.Next] using this

/-- A new merge iterator over well-formed underlying iterators satisfies the invariant. -/
theorem newMergeIterator_inv (its : List nonOverlappingIterator) (hwf : ∀ it ∈ its, it.WF) :
    MergeInv (newMergeIterator its) [] 1 := by
  have h0 := mergeInv_restart
    { its := its, h := [], batches := [], nextBatches := [], nextBatchesBuf := [],
      batchesBuf := [], capacity := its.length * 2 } [] hwf List.Pairwise.nil
    (fun e he => absurd he (List.not_mem_nil _))
    (fun it => it.Next 1) (iterNext_advances 1)
  exact mergeInv_no_batches h0 rfl

/-- Claim C2. For a merge iterator built over underlying iterators whose batches are
non-empty (rewound, at most BatchSize samples) and whose timestamps are strictly increasing
within and across batches, and for every sequence of Seek and Next calls: the run never
exhausts the fuel of the loop, and when it completes without a fault, the samples of the
batches exposed by Batch() after the successful calls, in emission order, have strictly
increasing timestamps, that is, timestamps that never decrease and never repeat. -/
theorem mergeIterator_emits_increasing (its : List nonOverlappingIterator)
    (hb : ∀ it ∈ its, ∀ b ∈ it.cur.toList ++ it.rest,
      b.Index = 0 ∧ 1 ≤ b.Length ∧ b.Length ≤ BatchSize)
    (hs : ∀ it ∈ its, (it.content.map Prod.fst).Sorted (· < ·))
    (ops : List IterOp) :
    (newMergeIterator its).emit ops ≠ .error .outOfFuel ∧
    ∀ out, (newMergeIterator its).emit ops = .ok out →
      (batchStream.timestamps out).Sorted (· < ·) ∧
      (batchStream.timestamps out).Sorted (· ≤ ·) ∧
      (batchStream.timestamps out).Nodup := by
  have hinv := newMergeIterator_inv its (fun it hit => ⟨hb it hit, strictTs_of_sorted (hs it hit)⟩)
  rcases emit_spec ops _ [] hinv with herr | ⟨out, ho, hst⟩
  · refine ⟨by rw [herr]; simp, fun out ho => ?_⟩
    rw [herr] at ho
    exact absurd ho (by simp)
  · refine ⟨by rw [ho]; simp, fun out1 ho1 => ?_⟩
    rw [ho] at ho1
    injection ho1 with ho1
    subst ho1
    have hlt : (batchStream.timestamps out).Sorted (· < ·) := by
      unfold batchStream.timestamps
      exact sorted_of_strictTs (by simpa using hst)
    exact ⟨hlt, hlt.imp (fun h => le_of_lt h), hlt.nodup⟩

/-- Witness for C2: two overlapping underlying iterators, read by a Seek and by Next
calls until exhaustion; the shared timestamps 3 and 9 are emitted once. -/
theorem mergeIterator_emits_increasing_witness :
    ((newMergeIterator [iterOdd, iterMixed]).emit
        [.seek 4 12, .next 12, .next 12]).map (List.map Batch.samples) =
      .ok [[(1, 10), (2, 20), (3, 30), (4, 40), (5, 50)],
           [(6, 60), (7, 70), (9, 99), (11, 110)]] ∧
    (newMergeIterator [iterOdd, iterMixed]).emit [.seek 4 12, .next 12, .next 12] ≠
      .error .outOfFuel ∧
    ∀ out, (newMergeIterator [iterOdd, iterMixed]).emit [.seek 4 12, .next 12, .next 12] =
        .ok out →
      (batchStream.timestamps out).Sorted (· < ·) ∧
      (batchStream.timestamps out).Sorted (· ≤ ·) ∧
      (batchStream.timestamps out).Nodup :=
  ⟨by decide,
   mergeIterator_emits_increasing [iterOdd, iterMixed]
    (by simp [iterOdd, iterMixed, Batch.ofSamples, BatchSize])
    (by
      intro it hit
      simp only [List.mem_cons, List.mem_singleton, List.not_mem_nil, or_false] at hit
      rcases hit with rfl | rfl <;> decide)
    [.seek 4 12, .next 12, .next 12]⟩

theorem batchStream.append_packed {bs : batchStream} (h : batchStream.Built bs)
    (hp : batchStream.Packed bs) (t v : Int) :
    ∀ out, batchStream.append bs t v = .ok out → batchStream.Packed out := by
  intro out ho
  rcases List.eq_nil_or_concat bs with rfl | ⟨init, last, rfl⟩
  · have : batchStream.append [] t v = .ok [Batch.zero.put t v] := by
      simp [batchStream.append, Batch.zero, BatchSize]
    rw [this] at ho
    injection ho with ho
    subst ho
    intro b hb
    simp at hb
  · rw [List.concat_eq_append] at h hp ho
    have hl : last.Built := h last (by simp)
    have hinit : ∀ b ∈ init, b.Length = BatchSize := by
      intro b hb
      apply hp b
      simpa [List.dropLast_concat] using hb
    by_cases hfull : last.Index = BatchSize
    · have : batchStream.append (init ++ [last]) t v =
          .ok ((init ++ [last]) ++ [Batch.zero.put t v]) := by
        simp [batchStream.append, hfull, Batch.zero, BatchSize]
      rw [this] at ho
      injection ho with ho
      subst ho
      intro b hb
      rw [List.dropLast_concat] at hb
      rcases List.mem_append.1 hb with hb | hb
      · exact hinit b hb
      · rw [List.mem_singleton] at hb
        subst hb
        rw [← hl.1]; exact hfull
    · have hlt : last.Index < BatchSize := by
        have := hl.1; have := hl.2.2; omega
      have : batchStream.append (init ++ [last]) t v = .ok (init ++ [last.put t v]) := by
        simp [batchStream.append, hfull, hlt]
      rw [this] at ho
      injection ho with ho
      subst ho
      intro b hb
      rw [List.dropLast_concat] at hb
      exact hinit b hb

/-- A property of streams under construction that append keeps is kept by the draining
loop of mergeStreams. -/
theorem drainStream_preserves (P : batchStream → Prop)
    (hP : ∀ bs : batchStream, batchStream.Built bs → P bs → ∀ t v out,
      batchStream.append bs t v = .ok out → P out) (fuel : Nat) :
    ∀ (src result out : batchStream), batchStream.Ready src → batchStream.Built result →
      P result → drainStream fuel src result = .ok out → P out := by
  induction fuel with
  | zero => intro src result out _ _ _ h; simp [drainStream] at h
  | succ n ih =>
    intro src result out hs hr hpr h
    cases src with
    | nil =>
      have : drainStream (n + 1) [] result = .ok result := by
        simp [drainStream, batchStream.hasNext]
      rw [this] at h
      injection h with h
      subst h
      exact hpr
    | cons b rest =>
      have hb : b.Ready := hs b (List.mem_cons_self _ _)
      have hrest : batchStream.Ready rest := fun c hc => hs c (List.mem_cons_of_mem _ hc)
      obtain ⟨s, hnext, hsr, _⟩ := batchStream.next_ready hb hrest
      obtain ⟨r1, happ, hr1, _⟩ :=
        batchStream.append_built hr (b.Timestamps b.Index) (b.Values b.Index)
      have hstep : drainStream (n + 1) (b :: rest) result = drainStream n s r1 := by
        simp [drainStream, batchStream.hasNext, batchStream.atSample_ready hb, happ, hnext,
          bind, Except.bind]
      rw [hstep] at h
      exact ih s r1 out hsr hr1 (hP result hr hpr _ _ r1 happ) h

/-- A property of streams under construction that append keeps is kept by the comparison
loop of mergeStreams. -/
theorem mergeLoop_preserves (P : batchStream → Prop)
    (hP : ∀ bs : batchStream, batchStream.Built bs → P bs → ∀ t v out,
      batchStream.append bs t v = .ok out → P out) (fuel : Nat) :
    ∀ (left right result out : batchStream), batchStream.Ready left →
      batchStream.Ready right → batchStream.Built result → P result →
      mergeLoop fuel left right result = .ok out → P out := by
  induction fuel with
  | zero => intro _ _ _ _ _ _ _ _ h; simp [mergeLoop] at h
  | succ n ih =>
    intro left right result out hl hr hres hpr h
    have hdrain : ∀ (src : batchStream), batchStream.Ready src →
        (do
          let r ← drainStream (batchStream.weight ([] : batchStream) + 1) [] result
          let r ← drainStream (batchStream.weight src + 1) src r
          pure r) = .ok out ∨
        (do
          let r ← drainStream (batchStream.weight src + 1) src result
          let r ← drainStream (batchStream.weight ([] : batchStream) + 1) [] r
          pure r) = .ok out → P out := by
      intro src hsrc hcase
      have h0 : ∀ r, drainStream (batchStream.weight [] + 1) [] r = .ok r := fun _ => rfl
      rcases hcase with hcase | hcase
      · simp only [h0, bind, Except.bind, pure, Except.pure] at hcase
        cases hd : drainStream (batchStream.weight src + 1) src result with
        | error e => rw [hd] at hcase; simp at hcase
        | ok r =>
          rw [hd] at hcase
          simp only at hcase
          injection hcase with hcase
          subst hcase
          exact drainStream_preserves P hP _ src result r hsrc hres hpr hd
      · simp only [bind, Except.bind, pure, Except.pure] at hcase
        cases hd : drainStream (batchStream.weight src + 1) src result with
        | error e => rw [hd] at hcase; simp at hcase
        | ok r =>
          rw [hd] at hcase
          simp only [h0] at hcase
          injection hcase with hcase
          subst hcase
          exact drainStream_preserves P hP _ src result r hsrc hres hpr hd
    cases left with
    | nil =>
      have hc : (batchStream.hasNext [] && batchStream.hasNext right) = false := rfl
      rw [mergeLoop, if_neg (by rw [hc]; exact Bool.false_ne_true)] at h
      exact hdrain right hr (Or.inl h)
    | cons a ltl =>
      have ha : a.Ready := hl a (List.mem_cons_self _ _)
      have hltl : batchStream.Ready ltl := fun c hc => hl c (List.mem_cons_of_mem _ hc)
      obtain ⟨l1, hnl, hl1, _⟩ := batchStream.next_ready ha hltl
      cases right with
      | nil =>
        have hc : (batchStream.hasNext (a :: ltl) && batchStream.hasNext []) = false := by
          simp [batchStream.hasNext]
        rw [mergeLoop, if_neg (by rw [hc]; exact Bool.false_ne_true)] at h
        exact hdrain (a :: ltl) hl (Or.inr h)
      | cons b rtl =>
        have hb : b.Ready := hr b (List.mem_cons_self _ _)
        have hrtl : batchStream.Ready rtl := fun c hc => hr c (List.mem_cons_of_mem _ hc)
        obtain ⟨r1, hnr, hr1, _⟩ := batchStream.next_ready hb hrtl
        obtain ⟨resA, happA, hresA, _⟩ :=
          batchStream.append_built hres (a.Timestamps a.Index) (a.Values a.Index)
        obtain ⟨resB, happB, hresB, _⟩ :=
          batchStream.append_built hres (b.Timestamps b.Index) (b.Values b.Index)
        have hPA := hP result hres hpr _ _ resA happA
        have hPB := hP result hres hpr _ _ resB happB
        by_cases h1 : a.Timestamps a.Index < b.Timestamps b.Index
        · have hstep : mergeLoop (n + 1) (a :: ltl) (b :: rtl) result =
              mergeLoop n l1 (b :: rtl) resA := by
            simp [mergeLoop, batchStream.hasNext, batchStream.atTime_ready ha,
              batchStream.atTime_ready hb, batchStream.atSample_ready ha, h1, happA, hnl,
              bind, Except.bind]
          rw [hstep] at h
          exact ih l1 (b :: rtl) resA out hl1 hr hresA hPA h
        · by_cases h2 : a.Timestamps a.Index > b.Timestamps b.Index
          · have hstep : mergeLoop (n + 1) (a :: ltl) (b :: rtl) result =
                mergeLoop n (a :: ltl) r1 resB := by
              simp [mergeLoop, batchStream.hasNext, batchStream.atTime_ready ha,
                batchStream.atTime_ready hb, batchStream.atSample_ready hb, h1, h2, happB, hnr,
                bind, Except.bind]
            rw [hstep] at h
            exact ih (a :: ltl) r1 resB out hl hr1 hresB hPB h
          · have hstep : mergeLoop (n + 1) (a :: ltl) (b :: rtl) result =
                mergeLoop n l1 r1 resA := by
              simp [mergeLoop, batchStream.hasNext, batchStream.atTime_ready ha,
                batchStream.atTime_ready hb, batchStream.atSample_ready ha, h1, h2, happA, hnl,
                hnr, bind, Except.bind]
            rw [hstep] at h
            exact ih l1 r1 resA out hl1 hr1 hresA hPA h

theorem batchStream.reset_packed {bs : batchStream} (h : batchStream.Packed bs) :
    batchStream.Packed (batchStream.reset bs) := by
  intro b hb
  unfold batchStream.reset at hb
  rw [← List.map_dropLast] at hb
  obtain ⟨c, hc, rfl⟩ := List.mem_map.1 hb
  exact h c hc

/-- On rewound inputs the stream returned by mergeStreams is packed: all its batches but
the last hold BatchSize samples. -/
theorem mergeStreams_packed (left right result : batchStream)
    (hl : ∀ b ∈ left, b.Rewound) (hr : ∀ b ∈ right, b.Rewound) :
    ∀ out, mergeStreams left right result = .ok out → batchStream.Packed out := by
  intro out ho
  have hlr : batchStream.Ready left := fun b hb => (hl b hb).ready
  have hrr : batchStream.Ready right := fun b hb => (hr b hb).ready
  cases hm : mergeLoop (batchStream.weight left + batchStream.weight right + 1) left right []
    with
  | error e =>
    simp [mergeStreams, hm, bind, Except.bind] at ho
  | ok r =>
    have hpk : batchStream.Packed r :=
      mergeLoop_preserves batchStream.Packed
        (fun bs hb hp t v out1 h1 => batchStream.append_packed hb hp t v out1 h1) _
        left right [] r hlr hrr (fun _ h => absurd h (List.not_mem_nil _))
        (fun _ h => absurd h (by simp)) hm
    simp [mergeStreams, hm, bind, Except.bind, pure, Except.pure] at ho
    subst ho
    exact batchStream.reset_packed hpk

theorem batchStream.samples_length (bs : batchStream) :
    (batchStream.samples bs).length = (bs.map Batch.Length).sum := by
  induction bs with
  | nil => rfl
  | cons b rest ih =>
    simp only [batchStream.samples, List.flatMap_cons, List.length_append, List.map_cons,
      List.sum_cons] at *
    rw [ih]
    simp [Batch.samples]

theorem batchStream.samples_length_le {bs : batchStream}
    (h : ∀ b ∈ bs, b.Length ≤ BatchSize) :
    (batchStream.samples bs).length ≤ BatchSize * bs.length := by
  rw [batchStream.samples_length]
  induction bs with
  | nil => simp
  | cons b rest ih =>
    have h1 := h b (List.mem_cons_self _ _)
    have h2 := ih (fun c hc => h c (List.mem_cons_of_mem _ hc))
    simp only [List.map_cons, List.sum_cons, List.length_cons]
    rw [Nat.mul_succ]
    omega

/-- A packed stream of non-empty batches that holds at most m full batches worth of
samples has at most m batches. -/
theorem batchStream.length_le_of_packed {bs : batchStream} (hp : batchStream.Packed bs)
    (hne : ∀ b ∈ bs, 1 ≤ b.Length) {m : Nat}
    (hs : (batchStream.samples bs).length ≤ BatchSize * m) : bs.length ≤ m := by
  rcases List.eq_nil_or_concat bs with rfl | ⟨init, last, rfl⟩
  · simp
  · rw [List.concat_eq_append] at hp hne hs ⊢
    have hinit : ∀ b ∈ init, b.Length = BatchSize := by
      intro b hb
      apply hp b
      simpa [List.dropLast_concat] using hb
    have hsum : (init.map Batch.Length).sum = BatchSize * init.length := by
      clear hp hne hs
      induction init with
      | nil => simp
      | cons b rest ih =>
        simp only [List.map_cons, List.sum_cons, List.length_cons]
        rw [ih (fun c hc => hinit c (List.mem_cons_of_mem _ hc)),
          hinit b (List.mem_cons_self _ _), Nat.mul_succ]
        omega
    have hlast : 1 ≤ last.Length := hne last (by simp)
    rw [batchStream.samples_length] at hs
    simp only [List.map_append, List.sum_append, List.map_cons, List.map_nil, List.sum_cons,
      List.sum_nil, hsum, List.length_append, List.length_singleton] at hs ⊢
    have hB : 0 < BatchSize := by simp [BatchSize]
    by_contra hcon
    have hm : m ≤ init.length := by omega
    have := Nat.mul_le_mul_left BatchSize hm
    omega

theorem mergeSamples_length_le (l r : List (Int × Int)) :
    (mergeSamples l r).length ≤ l.length + r.length := by
  induction l, r using mergeSamples.induct with
  | case1 r => simp [mergeSamples]
  | case2 a l => simp [mergeSamples]
  | case3 a l b r h ih =>
    rw [mergeSamples, if_pos h]
    simp only [List.length_cons] at ih ⊢
    omega
  | case4 a l b r h h2 ih =>
    rw [mergeSamples, if_neg h, if_pos h2]
    simp only [List.length_cons] at ih ⊢
    omega
  | case5 a l b r h h2 ih =>
    rw [mergeSamples, if_neg h, if_neg h2]
    simp only [List.length_cons] at ih ⊢
    omega

theorem valueAt_isSome (l : List (Int × Int)) (t : Int) :
    (valueAt l t).isSome = true ↔ t ∈ l.map Prod.fst := by
  induction l with
  | nil => simp [valueAt]
  | cons s rest ih =>
    by_cases h : s.1 = t
    · simp [valueAt, h]
    · simp only [valueAt, if_neg h, ih, List.map_cons, List.mem_cons]
      constructor
      · intro hm; exact Or.inr hm
      · rintro (hm | hm)
        · exact absurd hm.symm h
        · exact hm

theorem valueAt_eq_none (l : List (Int × Int)) (t : Int) (h : t ∉ l.map Prod.fst) :
    valueAt l t = none := by
  cases hv : valueAt l t with
  | none => rfl
  | some v =>
    have := (valueAt_isSome l t).1 (by rw [hv]; rfl)
    exact absurd this h

/-- In the reference merge of two sample lists, the left one strictly increasing, a
timestamp carries its left value when the left list has it, and its right value otherwise. -/
theorem valueAt_mergeSamples (l r : List (Int × Int)) :
    StrictTs l → ∀ t, valueAt (mergeSamples l r) t = (valueAt l t).or (valueAt r t) := by
  induction l, r using mergeSamples.induct with
  | case1 r => intro _ t; simp [mergeSamples, valueAt]
  | case2 a l =>
    intro _ t
    simp only [mergeSamples]
    cases valueAt (a :: l) t <;> simp [valueAt]
  | case3 a l b r h ih =>
    intro hl t
    rw [mergeSamples, if_pos h]
    by_cases hat : a.1 = t
    · simp [valueAt, hat]
    · simp only [valueAt, if_neg hat]
      rw [ih hl.tail t]
      simp [valueAt]
  | case4 a l b r h h2 ih =>
    intro hl t
    rw [mergeSamples, if_neg h, if_pos h2]
    by_cases hbt : b.1 = t
    · have hnone : valueAt (a :: l) t = none := by
        apply valueAt_eq_none
        rw [List.map_cons, List.mem_cons]
        rintro (hm | hm)
        · omega
        · exact absurd hm (hl.not_mem_of_le (by omega))
      rw [hnone]
      simp [valueAt, hbt]
    · simp only [valueAt, if_neg hbt]
      rw [ih hl t]
      simp [valueAt]
  | case5 a l b r h h2 ih =>
    intro hl t
    have hab : a.1 = b.1 := le_antisymm (not_lt.1 h2) (not_lt.1 h)
    rw [mergeSamples, if_neg h, if_neg h2]
    by_cases hat : a.1 = t
    · simp [valueAt, hat]
    · have hbt : ¬ b.1 = t := by rw [← hab]; exact hat
      simp only [valueAt, if_neg hat, if_neg hbt]
      exact ih hl.tail t

theorem Batch.samples_length_le_batchSize {b : Batch} (h : b.Rewound) : b.samples.length ≤ BatchSize := by
  simp [Batch.samples, h.2.2]

/-- Functional summary of the multi-way merge on rewound batches that are strictly
increasing inside, with a result buffer of at least as many slots as batches. -/
theorem mergeBatchesRec_spec : ∀ (fuel : Nat) (batches result : batchStream),
    batches.length < fuel → batches.length ≤ result.length →
    (∀ b ∈ batches, b.Rewound) → (∀ b ∈ batches, StrictTs b.samples) →
    ∃ out, mergeBatchesRec fuel batches result = .ok out ∧ (∀ b ∈ out, b.Rewound) ∧
      batchStream.Packed out ∧ out.length ≤ batches.length ∧
      StrictTs (batchStream.samples out) ∧
      (∀ t, t ∈ batchStream.timestamps out ↔ ∃ b ∈ batches, t ∈ b.samples.map Prod.fst) ∧
      (∀ t, valueAt (batchStream.samples out) t = keptValue batches t) := by
  intro fuel
  induction fuel with
  | zero => intro _ _ hf; omega
  | succ f ih =>
    intro batches result hf hres hrw hst
    by_cases h0 : batches.length = 0
    · have hnil : batches = [] := List.length_eq_zero.1 h0
      subst hnil
      refine ⟨[], by simp [mergeBatchesRec], by simp, by simp [batchStream.Packed], by simp,
        List.Pairwise.nil, by simp [batchStream.timestamps, batchStream.samples], ?_⟩
      intro t
      rw [keptValue]
      simp [batchStream.samples, valueAt]
    · by_cases h1 : batches.length = 1
      · obtain ⟨b, hb⟩ := List.length_eq_one.1 h1
        subst hb
        have hr1 : 1 ≤ result.length := by simpa using hres
        refine ⟨[b], by simp [mergeBatchesRec, hr1], hrw, by simp [batchStream.Packed],
          by simp, ?_, ?_, ?_⟩
        · rw [batchStream.samples_singleton]; exact hst b (by simp)
        · intro t; simp [batchStream.timestamps, batchStream.samples_singleton]
        · intro t
          rw [keptValue]
          simp only [List.length_singleton, Nat.one_le_ofNat, dite_true,
            batchStream.samples_singleton, List.findSome?_cons, List.findSome?_nil]
          cases valueAt b.samples t <;> rfl
      · by_cases h2 : batches.length = 2
        · obtain ⟨b0, b1, hb⟩ := List.length_eq_two.1 h2
          subst hb
          have hl0 : ∀ b ∈ [b0], b.Rewound := fun b hb => hrw b (by simp at hb; simp [hb])
          have hl1 : ∀ b ∈ [b1], b.Rewound := fun b hb => hrw b (by simp at hb; simp [hb])
          obtain ⟨out, ho, hor, hos⟩ := mergeStreams_spec [b0] [b1] result hl0 hl1
          have hpk := mergeStreams_packed [b0] [b1] result hl0 hl1 out ho
          rw [batchStream.samples_singleton, batchStream.samples_singleton] at hos
          have hs0 : StrictTs b0.samples := hst b0 (by simp)
          have hs1 : StrictTs b1.samples := hst b1 (by simp)
          refine ⟨out, by simp [mergeBatchesRec, ho], hor, hpk, ?_, ?_, ?_, ?_⟩
          · apply batchStream.length_le_of_packed hpk (fun b hb => (hor b hb).2.1)
            rw [hos]
            have := mergeSamples_length_le b0.samples b1.samples
            have := Batch.samples_length_le_batchSize (hrw b0 (by simp))
            have := Batch.samples_length_le_batchSize (hrw b1 (by simp))
            simp only [List.length_cons, List.length_nil]
            omega
          · rw [hos]; exact mergeSamples_strict _ _ hs0 hs1
          · intro t
            unfold batchStream.timestamps
            rw [hos, mergeSamples_timestamps]
            simp
          · intro t
            rw [hos, valueAt_mergeSamples _ _ hs0, keptValue]
            simp only [List.length_cons, List.length_nil, Nat.reduceAdd, le_refl, dite_true,
              List.findSome?_cons, List.findSome?_nil]
            cases valueAt b0.samples t <;> cases valueAt b1.samples t <;> rfl
        · have h3 : 3 ≤ batches.length := by omega
          have hn1 : 1 ≤ batches.length / 2 := by omega
          have hn2 : batches.length / 2 < batches.length := by omega
          have hnr : ¬ result.length < batches.length / 2 := by omega
          have hsplit : batches.take (batches.length / 2) ++ batches.drop (batches.length / 2)
              = batches := List.take_append_drop _ _
          have hmemU : ∀ b ∈ batches.drop (batches.length / 2), b ∈ batches :=
            fun b hb => List.mem_of_mem_drop hb
          have hmemL : ∀ b ∈ batches.take (batches.length / 2), b ∈ batches :=
            fun b hb => List.mem_of_mem_take hb
          obtain ⟨left, hlo, hlr, _, hll, hls, hlt, hlv⟩ :=
            ih (batches.drop (batches.length / 2)) (result.drop (batches.length / 2))
              (by simp only [List.length_drop]; omega)
              (by simp only [List.length_drop]; omega)
              (fun b hb => hrw b (hmemU b hb)) (fun b hb => hst b (hmemU b hb))
          obtain ⟨right, hro, hrr, _, hrl, hrs, hrt, hrv⟩ :=
            ih (batches.take (batches.length / 2)) (result.take (batches.length / 2))
              (by simp only [List.length_take]; omega)
              (by simp only [List.length_take]; omega)
              (fun b hb => hrw b (hmemL b hb)) (fun b hb => hst b (hmemL b hb))
          obtain ⟨out, ho, hor, hos⟩ := mergeStreams_spec left right batches hlr hrr
          have hpk := mergeStreams_packed left right batches hlr hrr out ho
          have hlen : out.length ≤ batches.length := by
            apply batchStream.length_le_of_packed hpk (fun b hb => (hor b hb).2.1)
            rw [hos]
            have h1 := mergeSamples_length_le (batchStream.samples left)
              (batchStream.samples right)
            have h2 := batchStream.samples_length_le (fun b hb => (hlr b hb).2.2)
            have h3 := batchStream.samples_length_le (fun b hb => (hrr b hb).2.2)
            simp only [List.length_drop] at hll
            simp only [List.length_take] at hrl
            have h4 : BatchSize * left.length ≤
                BatchSize * (batches.length - batches.length / 2) :=
              Nat.mul_le_mul_left _ hll
            have h5 : BatchSize * right.length ≤ BatchSize * (batches.length / 2) :=
              Nat.mul_le_mul_left _ (le_trans hrl (Nat.min_le_left _ _))
            have h6 : BatchSize * (batches.length - batches.length / 2) +
                BatchSize * (batches.length / 2) = BatchSize * batches.length := by
              rw [← Nat.mul_add]; congr 1; omega
            omega
          have hnf : ¬ out.length > result.length := by omega
          refine ⟨out, ?_, hor, hpk, hlen, ?_, ?_, ?_⟩
          · simp only [mergeBatchesRec, h0, h1, h2, if_false, hnr, hlo, hro, ho, hnf]
          · rw [hos]; exact mergeSamples_strict _ _ hls hrs
          · intro t
            have hmt := mergeSamples_timestamps (batchStream.samples left)
              (batchStream.samples right) t
            unfold batchStream.timestamps at hlt hrt ⊢
            rw [hos, hmt, hlt t, hrt t]
            constructor
            · rintro (⟨b, hb, hbt⟩ | ⟨b, hb, hbt⟩)
              · exact ⟨b, hmemU b hb, hbt⟩
              · exact ⟨b, hmemL b hb, hbt⟩
            · rintro ⟨b, hb, hbt⟩
              rw [← hsplit] at hb
              rcases List.mem_append.1 hb with hb | hb
              · exact Or.inr ⟨b, hb, hbt⟩
              · exact Or.inl ⟨b, hb, hbt⟩
          · intro t
            rw [hos, valueAt_mergeSamples _ _ hls, hlv t, hrv t]
            have hle : ¬ batches.length ≤ 2 := by omega
            conv_rhs => rw [keptValue, dif_neg hle]
            by_cases hany : (batches.drop (batches.length / 2)).any
                (fun b => (valueAt b.samples t).isSome) = true
            · rw [if_pos hany]
              obtain ⟨b, hb, hbs⟩ := List.any_eq_true.1 hany
              have hin : t ∈ batchStream.timestamps left :=
                (hlt t).2 ⟨b, hb, (valueAt_isSome _ _).1 hbs⟩
              have hsome := (valueAt_isSome (batchStream.samples left) t).2 hin
              rw [hlv t] at hsome
              cases hk : keptValue (batches.drop (batches.length / 2)) t with
              | none => rw [hk] at hsome; simp at hsome
              | some v => simp
            · rw [if_neg hany]
              have hnin : t ∉ batchStream.timestamps left := by
                intro hin
                obtain ⟨b, hb, hbt⟩ := (hlt t).1 hin
                exact hany (List.any_eq_true.2 ⟨b, hb, (valueAt_isSome _ _).2 hbt⟩)
              have hnone := valueAt_eq_none (batchStream.samples left) t hnin
              rw [hlv t] at hnone
              rw [hnone]
              simp

theorem valueAt_eq_some_iff {l : List (Int × Int)} (hl : StrictTs l) (t v : Int) :
    valueAt l t = some v ↔ (t, v) ∈ l := by
  induction l with
  | nil => simp [valueAt]
  | cons s rest ih =>
    by_cases h : s.1 = t
    · simp only [valueAt, if_pos h, Option.some.injEq, List.mem_cons]
      constructor
      · intro hv; left; rw [← h, ← hv]
      · rintro (hm | hm)
        · rw [← hm]
        · have := hl.head_lt (t, v) hm
          simp only at this
          omega
    · simp only [valueAt, if_neg h, ih hl.tail, List.mem_cons]
      constructor
      · intro hm; exact Or.inr hm
      · rintro (hm | hm)
        · exact absurd (by rw [← hm]) h
        · exact hm

theorem mergeBatches_spec (batches result : batchStream)
    (hb : ∀ b ∈ batches, b.Rewound) (hs : ∀ b ∈ batches, StrictTs b.samples)
    (hr : batches.length ≤ result.length) :
    ∃ out, mergeBatches batches result = .ok out ∧ (∀ b ∈ out, b.Rewound) ∧
      batchStream.Packed out ∧ out.length ≤ batches.length ∧
      StrictTs (batchStream.samples out) ∧
      (∀ t, t ∈ batchStream.timestamps out ↔ ∃ b ∈ batches, t ∈ b.samples.map Prod.fst) ∧
      (∀ t, valueAt (batchStream.samples out) t = keptValue batches t) :=
  mergeBatchesRec_spec (batches.length + 1) batches result (Nat.lt_succ_self _) hr hb hs

/-- Claim C12. For every list of N batches, each with Index 0, between 1 and BatchSize
samples and strictly increasing timestamps inside the batch, in any order and possibly
overlapping, and every result buffer with at least N slots, mergeBatches returns a stream
whose timestamps are strictly increasing and are exactly the timestamps of the input
batches; the stream has at most N batches, so it fits the buffer; for no batch the result
is empty and for one batch it is that batch. -/
theorem mergeBatches_sorted_union (batches result : batchStream)
    (hb : ∀ b ∈ batches, b.Index = 0 ∧ 1 ≤ b.Length ∧ b.Length ≤ BatchSize)
    (hs : ∀ b ∈ batches, (b.samples.map Prod.fst).Sorted (· < ·))
    (hr : batches.length ≤ result.length) :
    ∃ out, mergeBatches batches result = .ok out ∧
      (batchStream.timestamps out).Sorted (· < ·) ∧
      (∀ t, t ∈ batchStream.timestamps out ↔ ∃ b ∈ batches, t ∈ b.samples.map Prod.fst) ∧
      out.length ≤ batches.length ∧
      (batches = [] → out = []) ∧
      (∀ b, batches = [b] → out = [b]) := by
  obtain ⟨out, ho, _, _, hlen, hst, hts, _⟩ :=
    mergeBatches_spec batches result hb (fun b hbm => strictTs_of_sorted (hs b hbm)) hr
  refine ⟨out, ho, sorted_of_strictTs hst, hts, hlen, ?_, ?_⟩
  · intro hnil
    subst hnil
    simpa using hlen
  · intro b hbb
    subst hbb
    have h1 : 1 ≤ result.length := by simpa using hr
    have : mergeBatches [b] result = .ok [b] := by
      simp [mergeBatches, mergeBatchesRec, h1]
    rw [this] at ho
    injection ho with ho
    exact ho.symm

/-- Witness for C12: three overlapping, unordered batches merged into a buffer of three
slots. -/
theorem mergeBatches_sorted_union_witness :
    (mergeBatches threeBatches [Batch.zero, Batch.zero, Batch.zero]).map batchStream.samples =
      .ok [(1, 10), (2, 20), (3, 33), (4, 40), (5, 50), (6, 60)] ∧
    ∃ out, mergeBatches threeBatches [Batch.zero, Batch.zero, Batch.zero] = .ok out ∧
      (batchStream.timestamps out).Sorted (· < ·) ∧
      (∀ t, t ∈ batchStream.timestamps out ↔
        ∃ b ∈ threeBatches, t ∈ b.samples.map Prod.fst) ∧
      out.length ≤ threeBatches.length ∧
      (threeBatches = [] → out = []) ∧
      (∀ b, threeBatches = [b] → out = [b]) :=
  ⟨by decide,
   mergeBatches_sorted_union threeBatches [Batch.zero, Batch.zero, Batch.zero]
    (by simp [threeBatches, Batch.ofSamples, BatchSize])
    (by
      intro b hbm
      simp only [threeBatches, List.mem_cons, List.mem_singleton, List.not_mem_nil,
        or_false] at hbm
      rcases hbm with rfl | rfl | rfl <;> decide)
    (by decide)⟩

/-- Claim C15. When a timestamp occurs in several input batches of mergeBatches, the value
kept for it is the one named by keptValue: for two batches the value of batches[0]; for
three or more batches, with n = N/2, the value kept among the upper half batches[n:] when
a batch of the upper half contains the timestamp, and a value of the lower half
batches[:n] only otherwise. In particular, for three batches a timestamp shared by
batches[0] and batches[1] keeps the value of batches[1]. -/
theorem mergeBatches_kept_value (batches result : batchStream)
    (hb : ∀ b ∈ batches, b.Index = 0 ∧ 1 ≤ b.Length ∧ b.Length ≤ BatchSize)
    (hs : ∀ b ∈ batches, (b.samples.map Prod.fst).Sorted (· < ·))
    (hr : batches.length ≤ result.length) :
    ∃ out, mergeBatches batches result = .ok out ∧
      (∀ t v, (t, v) ∈ batchStream.samples out ↔ keptValue batches t = some v) ∧
      (∀ b0 b1, batches = [b0, b1] → ∀ t, t ∈ b0.samples.map Prod.fst →
        valueAt (batchStream.samples out) t = valueAt b0.samples t) ∧
      (∀ b0 b1 b2, batches = [b0, b1, b2] → ∀ t, t ∈ b1.samples.map Prod.fst →
        valueAt (batchStream.samples out) t = valueAt b1.samples t) := by
  obtain ⟨out, ho, _, _, _, hst, _, hv⟩ :=
    mergeBatches_spec batches result hb (fun b hbm => strictTs_of_sorted (hs b hbm)) hr
  refine ⟨out, ho, ?_, ?_, ?_⟩
  · intro t v
    rw [← hv t, valueAt_eq_some_iff hst]
  · intro b0 b1 hbb t ht
    subst hbb
    rw [hv t, keptValue]
    have hsome := (valueAt_isSome b0.samples t).2 ht
    cases h0 : valueAt b0.samples t with
    | none => rw [h0] at hsome; simp at hsome
    | some v => simp [h0]
  · intro b0 b1 b2 hbb t ht
    subst hbb
    have hsome := (valueAt_isSome b1.samples t).2 ht
    rw [hv t, keptValue]
    simp only [List.length_cons, List.length_nil, Nat.reduceAdd, Nat.reduceLeDiff,
      dite_false, Nat.reduceDiv, List.drop_succ_cons, List.drop_zero, List.any_cons, hsome,
      Bool.true_or, if_true]
    rw [keptValue]
    cases h1 : valueAt b1.samples t with
    | none => rw [h1] at hsome; simp at hsome
    | some v => simp [h1]

/-- Witness for C15: in the merge of three batches that all hold the timestamp 3, the
value kept is that of batches[1]. -/
theorem mergeBatches_kept_value_witness :
    valueAt (batchStream.samples [Batch.ofSamples [(1, 10), (3, 30), (5, 50)]]) 3 = some 30 ∧
    (mergeBatches threeBatches [Batch.zero, Batch.zero, Batch.zero]).map
      (fun out => valueAt (batchStream.samples out) 3) = .ok (some 33) ∧
    ∃ out, mergeBatches threeBatches [Batch.zero, Batch.zero, Batch.zero] = .ok out ∧
      (∀ t v, (t, v) ∈ batchStream.samples out ↔ keptValue threeBatches t = some v) ∧
      (∀ b0 b1, threeBatches = [b0, b1] → ∀ t, t ∈ b0.samples.map Prod.fst →
        valueAt (batchStream.samples out) t = valueAt b0.samples t) ∧
      (∀ b0 b1 b2, threeBatches = [b0, b1, b2] → ∀ t, t ∈ b1.samples.map Prod.fst →
        valueAt (batchStream.samples out) t = valueAt b1.samples t) :=
  ⟨by decide, by decide,
   mergeBatches_kept_value threeBatches [Batch.zero, Batch.zero, Batch.zero]
    (by simp [threeBatches, Batch.ofSamples, BatchSize])
    (by
      intro b hbm
      simp only [threeBatches, List.mem_cons, List.mem_singleton, List.not_mem_nil,
        or_false] at hbm
      rcases hbm with rfl | rfl | rfl <;> decide)
    (by decide)⟩

theorem CanParallelAll_true : ∀ (es : List Node), CanParallelAll es = .ok true →
    ∀ e ∈ es, CanParallel e = .ok true := by
  intro es
  induction es with
  | nil => intro _ e he; exact absurd he (List.not_mem_nil _)
  | cons x rest ih =>
    intro h e he
    rw [CanParallelAll] at h
    cases hx : CanParallel x with
    | error err => rw [hx] at h; simp at h
    | ok b =>
      cases b with
      | false => rw [hx] at h; simp at h
      | true =>
        rw [hx] at h
        rcases List.mem_cons.1 he with rfl | he
        · exact hx
        · exact ih h e he

/-- An accepted node makes CanParallel accept every child expression it examines. -/
theorem CanParallel_examined (node : Node) (h : CanParallel node = .ok true) :
    ∀ c ∈ node.examined, CanParallel c = .ok true := by
  intro c hc
  cases node with
  | Expressions es =>
    rw [CanParallel] at h
    exact CanParallelAll_true es h c hc
  | AggregateExpr op expr param =>
    rw [CanParallel] at h
    simp only [Node.examined, List.mem_singleton] at hc
    subst hc
    by_cases hop : summableAggregates op = true
    · rw [if_pos hop] at h; exact h
    · rw [if_neg hop] at h; simp at h
  | Call func args =>
    cases func with
    | none => simp [CanParallel] at h
    | some name =>
      simp only [CanParallel] at h
      by_cases hp : (!ParallelFunc name) = true
      · rw [if_pos hp] at h; simp at h
      · rw [if_neg hp] at h
        exact CanParallelAll_true args h c hc
  | SubqueryExpr expr =>
    rw [CanParallel] at h
    simp only [Node.examined, List.mem_singleton] at hc
    subst hc; exact h
  | ParenExpr expr =>
    rw [CanParallel] at h
    simp only [Node.examined, List.mem_singleton] at hc
    subst hc; exact h
  | EvalStmt expr =>
    rw [CanParallel] at h
    simp only [Node.examined, List.mem_singleton] at hc
    subst hc; exact h
  | _ => simp [Node.examined] at hc

/-- An accepted node is itself of an allowed kind. -/
theorem CanParallel_allowed (node : Node) (h : CanParallel node = .ok true) :
    node.Allowed := by
  cases node with
  | BinaryExpr lhs rhs => rw [CanParallel] at h; simp at h
  | AggregateExpr op expr param =>
    rw [CanParallel] at h
    by_cases hop : summableAggregates op = true
    · exact hop
    · rw [if_neg hop] at h; simp at h
  | Call func args =>
    cases func with
    | none => simp [CanParallel] at h
    | some name =>
      simp only [CanParallel] at h
      by_cases hp : (!ParallelFunc name) = true
      · rw [if_pos hp] at h; simp at h
      · show name ∉ nonParallelFuncs
        intro hmem
        apply hp
        simp only [ParallelFunc, Bool.not_not, List.any_eq_true, beq_iff_eq]
        exact ⟨name, hmem, rfl⟩
  | _ => trivial

/-- Counterexample to C13 as stated. A unary expression over a parenthesised binary
expression is accepted, although its operand is rejected and the tree contains a binary
expression; indeed a unary expression is accepted whatever its operand is. -/
theorem CanParallel_unary_over_binary :
    CanParallel (.UnaryExpr (.ParenExpr (.BinaryExpr .NumberLiteral .NumberLiteral))) =
      .ok true ∧
    CanParallel (.ParenExpr (.BinaryExpr .NumberLiteral .NumberLiteral)) = .ok false ∧
    Node.Inside (.BinaryExpr .NumberLiteral .NumberLiteral)
      (.UnaryExpr (.ParenExpr (.BinaryExpr .NumberLiteral .NumberLiteral))) ∧
    (∀ e : Node, CanParallel (.UnaryExpr e) = .ok true) ∧
    ¬ (∀ node : Node, CanParallel node = .ok true →
        ∀ sub, Node.Inside sub node → CanParallel sub = .ok true ∧ sub.Allowed) := by
  have hin : Node.Inside (.BinaryExpr .NumberLiteral .NumberLiteral)
      (.UnaryExpr (.ParenExpr (.BinaryExpr .NumberLiteral .NumberLiteral))) :=
    .child (c := .ParenExpr (.BinaryExpr .NumberLiteral .NumberLiteral))
      (by simp [Node.children])
      (.child (c := .BinaryExpr .NumberLiteral .NumberLiteral) (by simp [Node.children])
        (.self _))
  refine ⟨by decide, by decide, hin, fun e => by simp [CanParallel], ?_⟩
  intro hall
  exact (hall _ (by decide) _ hin).2

/-- Claim C13, amended. CanParallel accepts a node only if it accepts every expression it
examines inside the node, recursively: the elements of an expression list, the Expr of an
aggregation, subquery, parenthesis or statement, and the arguments of a call. So no
accepted tree has, along examined expressions, a binary expression, an aggregation whose
operator is outside SUM, MIN, MAX, TOPK, BOTTOMK, COUNT, or a call of histogram_quantile,
quantile_over_time or absent. The operand of a unary expression is not examined. -/
theorem CanParallel_examined_all (node : Node) (h : CanParallel node = .ok true) :
    ∀ sub, Node.Examined sub node → CanParallel sub = .ok true ∧ sub.Allowed := by
  intro sub hsub
  revert h
  induction hsub with
  | self => intro h; exact ⟨h, CanParallel_allowed _ h⟩
  | child hc _ ih => intro h; exact ih (CanParallel_examined _ h _ hc)

/-- Witness for the amended C13: the query sum(rate(m[5m])) is accepted, and so is the
matrix selector inside it; the same query over histogram_quantile is rejected. -/
theorem CanParallel_examined_all_witness :
    CanParallel sumOfRate = .ok true ∧
    CanParallel (.AggregateExpr .SUM (.Call (some "histogram_quantile") [.MatrixSelector])
      .nil) = .ok false ∧
    CanParallel (.AggregateExpr .AVG (.Call (some "rate") [.MatrixSelector]) .nil) =
      .ok false ∧
    (CanParallel Node.MatrixSelector = .ok true ∧ Node.MatrixSelector.Allowed) :=
  ⟨by decide, by decide, by decide,
   CanParallel_examined_all sumOfRate (by decide) Node.MatrixSelector
    (.child (c := .Call (some "rate") [.MatrixSelector]) (by simp [sumOfRate, Node.examined])
      (.child (c := .MatrixSelector) (by simp [Node.examined]) (.self _)))⟩

/-- Every response of v2Query carries, series by series, exactly the labels that the series
cursor returned: no label is dropped. -/
theorem v2Query_labels_verbatim (w : World) (lib : RegexpLib) (qw : QueryWorld lib)
    (i : Ingester) (ctx : Option String) (req : QueryRequest) (resp : QueryResponse)
    (h : (i.v2Query w lib qw ctx req).response = some resp) :
    ∃ db start through converted series cursorErr,
      qw.select db start through converted = .ok (series, cursorErr) ∧
      resp.Timeseries.map TimeSeries.Labels = series.map StoredSeries.Labels := by
  cases ctx with
  | none => simp [Ingester.v2Query, ExtractOrgID] at h
  | some userID =>
    cases hreq : qw.fromQueryRequest req with
    | error e => simp [Ingester.v2Query, ExtractOrgID, hreq] at h
    | ok decoded =>
      obtain ⟨start, through, matchers⟩ := decoded
      cases hres : (i.getOrCreateTSDB w userID).result with
      | error e => simp [Ingester.v2Query, ExtractOrgID, hreq, hres] at h
      | ok db =>
        cases hq : qw.querierErr db start through with
        | some e => simp [Ingester.v2Query, ExtractOrgID, hreq, hres, hq] at h
        | none =>
          cases hconv : convertMatchers lib matchers [] with
          | error e => simp [Ingester.v2Query, ExtractOrgID, hreq, hres, hq, hconv] at h
          | ok converted =>
            cases hsel : qw.select db start through converted with
            | error e =>
              simp [Ingester.v2Query, ExtractOrgID, hreq, hres, hq, hconv, hsel] at h
            | ok found =>
              obtain ⟨series, cursorErr⟩ := found
              simp only [Ingester.v2Query, ExtractOrgID, hreq, hres, hq, hconv, hsel,
                Option.some.injEq] at h
              subst h
              refine ⟨db, start, through, converted, series, cursorErr, hsel, ?_⟩
              simp only [List.map_map]
              apply List.map_congr_left
              intro a _
              have hid : (LabelAdapter : String × String → String × String) = id := rfl
              simp [seriesToTimeSeries, hid]

/-- Claim C11, evaluated at the failing input. A client of the tenant writes a series
that carries a label with the name of the tenant external label next to the label job;
v2Push stores the label set as sent. The query for job = api then succeeds and returns
the series with both labels: the tenant external label is not dropped. The same store
answers no series to a query without matchers, to a matcher that does not match and to a
range that holds no sample. -/
theorem v2Query_keeps_tenant_label :
    (tenantIngester.v2Push quietWorld (some "tenant") labelledWrite).result = .ok () ∧
    committedSeries (tenantIngester.v2Push quietWorld (some "tenant") labelledWrite).calls =
      [{ Labels := [(TenantIDExternalLabel, "tenant"), ("job", "api")], Samples := [(1, 10)] }] ∧
    (tenantIngester.v2Query quietWorld goRegexp
        (storeOf (committedSeries
          (tenantIngester.v2Push quietWorld (some "tenant") labelledWrite).calls))
        (some "tenant") jobQuery).err = none ∧
    (tenantIngester.v2Query quietWorld goRegexp
        (storeOf (committedSeries
          (tenantIngester.v2Push quietWorld (some "tenant") labelledWrite).calls))
        (some "tenant") jobQuery).response =
      some { Timeseries :=
        [{ Labels := [(TenantIDExternalLabel, "tenant"), ("job", "api")]
           Samples := [{ Value := 10, TimestampMs := 1 }] }] } ∧
    (tenantIngester.v2Query quietWorld goRegexp
        (storeOf (committedSeries
          (tenantIngester.v2Push quietWorld (some "tenant") labelledWrite).calls))
        (some "tenant") { jobQuery with Matchers := [] }).response =
      some { Timeseries := [] } ∧
    (tenantIngester.v2Query quietWorld goRegexp
        (storeOf (committedSeries
          (tenantIngester.v2Push quietWorld (some "tenant") labelledWrite).calls))
        (some "tenant")
        { jobQuery with
          Matchers := [{ Typ := .MatchEqual, Name := "job", Value := "web" }] }).response =
      some { Timeseries := [] } ∧
    (tenantIngester.v2Query quietWorld goRegexp
        (storeOf (committedSeries
          (tenantIngester.v2Push quietWorld (some "tenant") labelledWrite).calls))
        (some "tenant")
        { jobQuery with StartTimestampMs := 500, EndTimestampMs := 600 }).response =
      some { Timeseries := [] } := by
  refine ⟨?_, ?_, ?_, ?_, ?_, ?_, ?_⟩ <;> decide

theorem length_flatMap_range_le (rc : Nat → List Int) (B : Nat)
    (h : ∀ i, (rc i).length ≤ B) : ∀ K, ((List.range K).flatMap rc).length ≤ B * K := by
  intro K
  induction K with
  | zero => simp
  | succ K ih =>
    rw [List.range_succ, List.flatMap_append, List.length_append, Nat.mul_succ]
    have := h K
    simp only [List.flatMap_cons, List.flatMap_nil, List.append_nil]
    omega

/-- The buffered stream holds fewer than one batch more than one batch per iterator. -/
theorem Recent.length_le {its : List nonOverlappingIterator} {S : List (Int × Int)} {m : Int}
    {rc : Nat → List Int} (h : Recent its S m rc) (hs : StrictTs S) :
    S.length ≤ (BatchSize - 1) + BatchSize * its.length := by
  rw [List.length_eq_countP_add_countP (fun s => decide (s.1 < m)) S]
  have h2 : S.countP (fun a => decide ¬(decide (a.1 < m)) = true) ≤ BatchSize * its.length := by
    rw [List.countP_eq_length_filter]
    have hnd : ((S.filter (fun a => decide ¬(decide (a.1 < m)) = true)).map Prod.fst).Nodup := by
      have hp : StrictTs (S.filter (fun a => decide ¬(decide (a.1 < m)) = true)) :=
        List.Pairwise.filter _ hs
      have := sorted_of_strictTs hp
      exact this.nodup
    have hsub : (S.filter (fun a => decide ¬(decide (a.1 < m)) = true)).map Prod.fst ⊆
        (List.range its.length).flatMap rc := by
      intro t ht
      obtain ⟨s, hsm, rfl⟩ := List.mem_map.1 ht
      have hs1 := List.mem_filter.1 hsm
      have hge : m ≤ s.1 := by
        have := hs1.2
        simp only [decide_eq_true_eq, not_lt] at this
        exact this
      obtain ⟨i, hi, hin⟩ := h.covered s hs1.1 hge
      exact List.mem_flatMap.2 ⟨i, List.mem_range.2 hi, hin⟩
    have h3 := (List.subperm_of_subset hnd hsub).length_le
    rw [List.length_map] at h3
    exact le_trans h3 (length_flatMap_range_le rc BatchSize h.short _)
  have := h.early
  omega

theorem countP_mergeSamples_le (p : Int × Int → Bool) (l r : List (Int × Int)) :
    (mergeSamples l r).countP p ≤ l.countP p + r.countP p := by
  induction l, r using mergeSamples.induct with
  | case1 r => simp [mergeSamples]
  | case2 a l => simp [mergeSamples]
  | case3 a l b r h ih =>
    rw [mergeSamples, if_pos h]
    simp only [List.countP_cons] at ih ⊢
    omega
  | case4 a l b r h h2 ih =>
    rw [mergeSamples, if_neg h, if_pos h2]
    simp only [List.countP_cons] at ih ⊢
    omega
  | case5 a l b r h h2 ih =>
    rw [mergeSamples, if_neg h, if_neg h2]
    simp only [List.countP_cons] at ih ⊢
    omega

theorem Batch.endTime_mem {b : Batch} (h : b.Rewound) :
    (b.endTime, b.Values (b.Length - 1)) ∈ b.samples := by
  unfold Batch.samples Batch.endTime
  exact List.mem_map.2 ⟨b.Length - 1, List.mem_range.2 (by have := h.2.1; omega), rfl⟩

/-- When the first buffered batch ends at or after `m`, fewer than BatchSize buffered
samples lie before `m`. -/
theorem countP_early {E : Batch} {tl : batchStream} (hE : E.Rewound)
    (hs : StrictTs (batchStream.samples (E :: tl))) {m : Int} (hm : E.endTime ≥ m) :
    (batchStream.samples (E :: tl)).countP (fun s => decide (s.1 < m)) ≤ BatchSize - 1 := by
  have hsplit : batchStream.samples (E :: tl) = E.samples ++ batchStream.samples tl := by
    simp [batchStream.samples]
  rw [hsplit] at hs ⊢
  rw [List.countP_append]
  have htl : (batchStream.samples tl).countP (fun s => decide (s.1 < m)) = 0 := by
    rw [List.countP_eq_zero]
    intro s hsm
    have := hs.append_lt _ (Batch.endTime_mem hE) s hsm
    simp only [decide_eq_true_eq, not_lt]
    simp only at this
    omega
  obtain ⟨n, hn⟩ : ∃ n, E.Length = n + 1 := ⟨E.Length - 1, by have := hE.2.1; omega⟩
  have hE1 : E.samples.countP (fun s => decide (s.1 < m)) ≤ n := by
    unfold Batch.samples
    rw [hn, List.range_succ, List.map_append, List.countP_append]
    have hlast : ([n].map (fun i => (E.Timestamps i, E.Values i))).countP
        (fun s => decide (s.1 < m)) = 0 := by
      rw [List.countP_eq_zero]
      intro s hsm
      simp only [List.map_cons, List.map_nil, List.mem_singleton] at hsm
      subst hsm
      have : E.endTime = E.Timestamps n := by simp [Batch.endTime, hn]
      simp only [decide_eq_true_eq, not_lt]
      omega
    have hinit := List.countP_le_length (fun s => decide (s.1 < m))
      (l := (List.range n).map (fun i => (E.Timestamps i, E.Values i)))
    simp only [List.length_map, List.length_range] at hinit
    omega
  have := hE.2.2
  omega

theorem iterNext_content (top : nonOverlappingIterator) (size : Nat) :
    (top.Next size).1.content = batchStream.samples top.rest := by
  cases hr : top.rest with
  | nil => simp [nonOverlappingIterator.Next, hr, nonOverlappingIterator.content]
  | cons x r => simp [nonOverlappingIterator.Next, hr, nonOverlappingIterator.content]

/-- Under the invariant, the first timestamp of the batch on top of the heap is a lower
bound of everything that any underlying iterator still offers. -/
theorem heap_min_le_content {c : mergeIterator} {em : List (Int × Int)} (hc : MergeInv c em 0)
    {i : Nat} {hrest : List Nat} (hh : c.h = i :: hrest)
    {top : nonOverlappingIterator} (htop : c.its[i]? = some top)
    {b : Batch} (hb : top.cur = some b) :
    ∀ it ∈ c.its, ∀ s ∈ it.content, b.Timestamps 0 ≤ s.1 := by
  intro it hit s hs
  obtain ⟨j, hj⟩ := List.mem_iff_getElem?.1 hit
  have hjh : j ∈ c.h := by
    by_contra hnj
    rw [hc.idle_empty j it hj hnj] at hs
    exact absurd hs (List.not_mem_nil _)
  obtain ⟨it1, bj, hj1, hbj⟩ := hc.heap_cur j hjh
  rw [hj] at hj1
  injection hj1 with hj1
  subst hj1
  have hki : heapKey c.its i = b.Timestamps 0 := heapKey_of_cur htop hb
  have hkj : heapKey c.its j = bj.Timestamps 0 := heapKey_of_cur hj hbj
  have hij : heapKey c.its i ≤ heapKey c.its j := by
    have hs0 := hc.heap_sorted
    rw [hh] at hs0 hjh
    rcases List.mem_cons.1 hjh with h | h
    · rw [h]
    · exact (List.pairwise_cons.1 hs0).1 j h
  have h2 := iterWF_key_le (hc.its_wf it hit) hbj s hs
  omega

/-- Merging the batch on top of the heap into the buffered stream keeps the bookkeeping,
with the first timestamp of that batch as the new floor. -/
theorem recent_step {c : mergeIterator} {em : List (Int × Int)} (hc : MergeInv c em 0)
    {i : Nat} {hrest : List Nat} (hh : c.h = i :: hrest)
    {top : nonOverlappingIterator} (htop : c.its[i]? = some top)
    {b : Batch} (hb : top.cur = some b) (size : Nat)
    {S : List (Int × Int)} {m : Int} {rc : Nat → List Int}
    (hrec : Recent c.its S m rc)
    (hearly : S.countP (fun s => decide (s.1 < b.Timestamps 0)) ≤ BatchSize - 1) :
    Recent (c.its.set i (top.Next size).1) (mergeSamples S b.samples) (b.Timestamps 0)
      (Function.update rc i (b.samples.map Prod.fst)) := by
  have hwf : top.WF := hc.its_wf top (List.getElem?_mem htop)
  have htopmem : top ∈ c.its := List.getElem?_mem htop
  obtain ⟨_, hnsub, _, _⟩ := iterNext_advances size top hwf
  have hbrw : b.Rewound := hwf.1 b (by simp [hb])
  have hmin := heap_min_le_content hc hh htop hb
  have hcontent := iterContent_cur hb
  have hbsub : ∀ s ∈ b.samples, s ∈ top.content := by
    intro s hs
    rw [hcontent]
    exact List.mem_append_left _ hs
  obtain ⟨tl, htl⟩ := Batch.samples_rewound_head hbrw
  have hfirst : (b.Timestamps 0, b.Values 0) ∈ top.content :=
    hbsub _ (by rw [htl]; exact List.mem_cons_self _ _)
  have hilt : i < c.its.length := (List.getElem?_eq_some.1 htop).1
  refine { floor_le := ?_, covered := ?_, early := ?_, before := ?_, short := ?_ }
  · intro it hit s hs
    rcases List.mem_or_eq_of_mem_set hit with h | h
    · exact hmin it h s hs
    · rw [h] at hs
      exact hmin top htopmem s (hnsub s hs)
  · intro s hs hge
    rw [List.length_set]
    rcases mem_mergeSamples _ _ s hs with h | h
    · have hmle : m ≤ b.Timestamps 0 := hrec.floor_le top htopmem _ hfirst
      obtain ⟨j, hj, hin⟩ := hrec.covered s h (le_trans hmle hge)
      by_cases hji : j = i
      · subst hji
        have := hrec.before j top htop s.1 hin _ hfirst
        simp only at this
        omega
      · exact ⟨j, hj, by rw [Function.update_noteq hji]; exact hin⟩
    · exact ⟨i, hilt, by rw [Function.update_same]; exact List.mem_map_of_mem _ h⟩
  · have h1 := countP_mergeSamples_le (fun s => decide (s.1 < b.Timestamps 0)) S b.samples
    have h2 : b.samples.countP (fun s => decide (s.1 < b.Timestamps 0)) = 0 := by
      rw [List.countP_eq_zero]
      intro s hs
      have := iterWF_key_le hwf hb s (hbsub s hs)
      simp only [decide_eq_true_eq, not_lt]
      exact this
    omega
  · intro j it hj t ht s hs
    by_cases hji : j = i
    · subst hji
      rw [List.getElem?_set_self hilt] at hj
      injection hj with hj
      subst hj
      rw [Function.update_same] at ht
      obtain ⟨x, hx, rfl⟩ := List.mem_map.1 ht
      rw [iterNext_content] at hs
      have hst := hwf.2
      rw [hcontent] at hst
      exact hst.append_lt x hx s hs
    · rw [List.getElem?_set_ne (fun h : i = j => hji h.symm)] at hj
      rw [Function.update_noteq hji] at ht
      exact hrec.before j it hj t ht s hs
  · intro j
    by_cases hji : j = i
    · subst hji
      rw [Function.update_same, List.length_map]
      simp [Batch.samples, hbrw.2.2]
    · rw [Function.update_noteq hji]
      exact hrec.short j

/-- The loop of buildNextBatch with the fill level BatchSize, entered with both
invariants, returns without a fault and keeps the capacity invariant: the slice
expression stays within the capacity. -/
theorem buildLoop_cap (em : List (Int × Int)) :
    ∀ (fuel : Nat) (c : mergeIterator), MergeInv c em 0 → CapInv c → c.remaining < fuel →
      ∃ c1, mergeIterator.buildLoop BatchSize fuel c = .ok c1 ∧ CapInv c1 := by
  intro fuel
  induction fuel with
  | zero => intro c _ _ hf; omega
  | succ n ih =>
    intro c hc hcap hf
    cases hh : c.h with
    | nil => exact ⟨c, by simp only [mergeIterator.buildLoop, hh], hcap⟩
    | cons i hrest =>
      obtain ⟨top, b, htop, hb⟩ := hc.heap_cur i (by rw [hh]; exact List.mem_cons_self _ _)
      have hwf : top.WF := hc.its_wf top (List.getElem?_mem htop)
      have hilt : i < c.its.length := (List.getElem?_eq_some.1 htop).1
      have hcont : c.needsMore top = .ok true →
          (c.batches = [] ∨ ∃ E tl, c.batches = E :: tl ∧ E.endTime ≥ b.Timestamps 0) →
          ∃ c1, mergeIterator.buildLoop BatchSize (n + 1) c = .ok c1 ∧ CapInv c1 := by
        intro hneeds hwhy
        have hbrw : ∀ x ∈ [b], x.Rewound := by
          intro x hx
          rw [List.mem_singleton] at hx
          subst hx
          exact hwf.1 x (by simp [hb])
        obtain ⟨buf, hm, hbufr, hbufs⟩ :=
          mergeStreams_spec c.batches [b] c.nextBatchesBuf hc.batches_rewound hbrw
        rw [batchStream.samples_singleton] at hbufs
        have hms : mergeStreamsSized c.batches [b] c.nextBatchesBuf BatchSize = .ok buf := by
          rw [mergeStreamsSized_batchSize]; exact hm
        have hpacked := mergeStreams_packed c.batches [b] c.nextBatchesBuf
          hc.batches_rewound hbrw buf hm
        have hbstrict : StrictTs b.samples := by
          have := hwf.2
          rw [iterContent_cur hb] at this
          exact this.of_append_left
        have hstrict : StrictTs (batchStream.samples buf) := by
          rw [hbufs]
          exact mergeSamples_strict _ _ hc.batches_strict hbstrict
        obtain ⟨m, rc, hrec, hearly⟩ : ∃ m rc, Recent c.its (batchStream.samples c.batches) m rc ∧
            (batchStream.samples c.batches).countP
              (fun s => decide (s.1 < b.Timestamps 0)) ≤ BatchSize - 1 := by
          rcases hwhy with hnil | ⟨E, tl, hbs, hge⟩
          · refine ⟨b.Timestamps 0, fun _ => [], ?_, by simp [hnil, batchStream.samples]⟩
            rw [hnil]
            exact
              { floor_le := heap_min_le_content hc hh htop hb
                covered := by intro s hs; simp [batchStream.samples] at hs
                early := by simp [batchStream.samples]
                before := by intro j it _ t ht; simp at ht
                short := by intro j; simp }
          · rcases hcap.recent with hnil | ⟨m, rc, hrec⟩
            · rw [hnil] at hbs; exact absurd hbs (by simp)
            · refine ⟨m, rc, hrec, ?_⟩
              have hst := hc.batches_strict
              rw [hbs] at hst ⊢
              exact countP_early (hc.batches_rewound E (by simp [hbs])) hst hge
        have hrec1 := recent_step hc hh htop hb BatchSize hrec hearly
        rw [← hbufs] at hrec1
        have hlen := hrec1.length_le hstrict
        rw [List.length_set] at hlen
        have hbuflen : buf.length ≤ c.its.length + 1 := by
          apply batchStream.length_le_of_packed hpacked (fun x hx => (hbufr x hx).2.1)
          rw [Nat.mul_succ]
          have : 1 ≤ BatchSize := by simp [BatchSize]
          omega
        have hcapeq := hcap.capacity_eq
        have hfit : ¬ buf.length > c.capacity := by omega
        have hinv := mergeInv_step hc hh htop hb BatchSize [b] buf hbufr hbufs
        have hcap1 : CapInv
            { c with
              its := c.its.set i (top.Next BatchSize).1
              h := if (top.Next BatchSize).2 then
                     heapFix0 (c.its.set i (top.Next BatchSize).1) (i :: hrest)
                   else heapPop (i :: hrest)
              batches := buf
              nextBatches := [b]
              nextBatchesBuf := buf } :=
          { capacity_eq := by simp only [List.length_set]; exact hcapeq
            packed := hpacked
            batches_fit := by show buf.length ≤ c.capacity; omega
            buf_fit := by show buf.length ≤ c.capacity; omega
            recent := Or.inr ⟨_, _, hrec1⟩ }
        have hrem : mergeIterator.remaining
            { c with
              its := c.its.set i (top.Next BatchSize).1
              h := if (top.Next BatchSize).2 then
                     heapFix0 (c.its.set i (top.Next BatchSize).1) (i :: hrest)
                   else heapPop (i :: hrest)
              batches := buf
              nextBatches := [b]
              nextBatchesBuf := buf } < n := by
          have h1 := sum_remaining_set c.its i top (top.Next BatchSize).1 htop
          have h2 := iterRemaining_next hb BatchSize
          simp only [mergeIterator.remaining] at hf ⊢
          omega
        obtain ⟨c1, hok, hc1⟩ := ih _ hinv hcap1 hrem
        refine ⟨c1, ?_, hc1⟩
        simp only [mergeIterator.buildLoop, hh, htop, hneeds, iterBatch_of_cur hb,
          hms, if_neg hfit]
        exact hok
      rcases needsMore_eq hc hb with ⟨hnil, hneeds⟩ | ⟨E, tl, hbs, hneeds⟩
      · exact hcont hneeds (Or.inl hnil)
      · by_cases hge : E.endTime ≥ b.Timestamps 0
        · rw [decide_eq_true hge] at hneeds
          exact hcont hneeds (Or.inr ⟨E, tl, hbs, hge⟩)
        · rw [decide_eq_false hge] at hneeds
          exact ⟨c, by simp only [mergeIterator.buildLoop, hh, htop, hneeds], hcap⟩

/-- The loop of buildNextBatch never changes the capacity of the batches array. -/
theorem buildLoop_capacity (size : Nat) :
    ∀ (fuel : Nat) (c c1 : mergeIterator), mergeIterator.buildLoop size fuel c = .ok c1 →
      c1.capacity = c.capacity := by
  intro fuel
  induction fuel with
  | zero => intro c c1 h; simp [mergeIterator.buildLoop] at h
  | succ n ih =>
    intro c c1 h
    rw [mergeIterator.buildLoop] at h
    split at h
    · injection h with h; rw [← h]
    · split at h
      · exact absurd h (by simp)
      · split at h
        · exact absurd h (by simp)
        · injection h with h; rw [← h]
        · split at h
          · exact absurd h (by simp)
          · split at h
            · exact absurd h (by simp)
            · split at h
              · exact absurd h (by simp)
              · have h2 := ih _ c1 h
                exact h2

theorem batchStream.packed_tail {bs : batchStream} (h : batchStream.Packed bs) :
    batchStream.Packed bs.tail := by
  intro b hb
  apply h b
  rw [← List.tail_dropLast] at hb
  exact List.mem_of_mem_tail hb

/-- The first statements of Next keep the capacity invariant. -/
theorem capInv_pop {c : mergeIterator} (hc : CapInv c) :
    CapInv (if c.batches.length > 0 then { c with batches := c.batches.tail } else c) := by
  cases hbs : c.batches with
  | nil =>
    simp only [List.length_nil, gt_iff_lt, lt_self_iff_false, if_false]
    exact hc
  | cons E tl =>
    simp only [List.length_cons, gt_iff_lt, Nat.zero_lt_succ, if_true, List.tail_cons]
    have hfit := hc.batches_fit
    rw [hbs] at hfit
    simp only [List.length_cons] at hfit
    refine
      { capacity_eq := hc.capacity_eq, packed := ?_, batches_fit := ?_, buf_fit := hc.buf_fit,
        recent := ?_ }
    · have := batchStream.packed_tail hc.packed
      rw [hbs] at this
      exact this
    · show tl.length ≤ c.capacity
      omega
    · rcases hc.recent with hnil | ⟨m, rc, hrec⟩
      · rw [hnil] at hbs; exact absurd hbs (by simp)
      · right
        have hsplit : batchStream.samples c.batches = E.samples ++ batchStream.samples tl := by
          rw [hbs]; simp [batchStream.samples]
        rw [hsplit] at hrec
        refine ⟨m, rc,
          { floor_le := hrec.floor_le
            covered := fun s hs => hrec.covered s (List.mem_append_right _ hs)
            early := ?_
            before := hrec.before
            short := hrec.short }⟩
        have := hrec.early
        rw [List.countP_append] at this
        show (batchStream.samples tl).countP _ ≤ _
        omega

/-- Restarting the heap with an empty buffered stream keeps the capacity invariant. -/
theorem capInv_restart {c : mergeIterator} (hc : CapInv c)
    (f : nonOverlappingIterator → nonOverlappingIterator × Bool) :
    CapInv { c with its := (advanceAll f c.its 0).1
                    h := heapInit (advanceAll f c.its 0).1 (advanceAll f c.its 0).2
                    batches := [] } :=
  { capacity_eq := by
      show c.capacity = (advanceAll f c.its 0).1.length * 2
      rw [advanceAll_fst, List.length_map]
      exact hc.capacity_eq
    packed := by intro b hb; simp at hb
    batches_fit := Nat.zero_le _
    buf_fit := hc.buf_fit
    recent := Or.inl rfl }

theorem newMergeIterator_cap (its : List nonOverlappingIterator) :
    CapInv (newMergeIterator its) :=
  { capacity_eq := by
      show its.length * 2 = (advanceAll (fun it => it.Next 1) its 0).1.length * 2
      rw [advanceAll_fst, List.length_map]
    packed := by intro b hb; simp [newMergeIterator] at hb
    batches_fit := Nat.zero_le _
    buf_fit := Nat.zero_le _
    recent := Or.inl rfl }

/-- Entered with both invariants, buildNextBatch with the fill level BatchSize returns
without a fault and keeps them. -/
theorem buildNextBatch_cap {c : mergeIterator} {em : List (Int × Int)}
    (hc : MergeInv c em 0) (hcap : CapInv c) :
    ∃ c1 ok em1, c.buildNextBatch BatchSize = .ok (c1, ok) ∧ MergeInv c1 em1 1 ∧ CapInv c1 ∧
      c1.its.length = c.its.length ∧ c1.capacity = c.capacity := by
  obtain ⟨c1, hok, hc1⟩ := buildLoop_cap em (c.remaining + 1) c hc hcap (Nat.lt_succ_self _)
  have hrun : c.buildNextBatch BatchSize = .ok (c1, decide (c1.batches.length > 0)) := by
    simp only [mergeIterator.buildNextBatch, hok]
  have hlen : c1.capacity = c.capacity → c1.its.length = c.its.length := by
    intro h
    have h1 := hc1.capacity_eq
    have h2 := hcap.capacity_eq
    omega
  have hcapacity : c1.capacity = c.capacity :=
    buildLoop_capacity BatchSize (c.remaining + 1) c c1 hok
  rcases buildNextBatch_spec hc BatchSize with herr | ⟨c2, hok2, hinv⟩ | ⟨c2, E, tl, hok2, _, hinv⟩
  · rw [hrun] at herr
    exact absurd herr (by simp)
  · rw [hrun] at hok2
    injection hok2 with hok2
    injection hok2 with h1 _
    subst h1
    exact ⟨c1, _, em, hrun, hinv, hc1, hlen hcapacity, hcapacity⟩
  · rw [hrun] at hok2
    injection hok2 with hok2
    injection hok2 with h1 _
    subst h1
    exact ⟨c1, _, _, hrun, hinv, hc1, hlen hcapacity, hcapacity⟩

/-- Every sequence of Seek and Next calls with the fill level BatchSize, on a merge
iterator satisfying both invariants, completes and leaves a merge iterator satisfying the
capacity invariant. -/
theorem run_cap : ∀ (ops : List IterOp) (c : mergeIterator) (em : List (Int × Int)),
    (∀ op ∈ ops, op.size = BatchSize) → MergeInv c em 1 → CapInv c →
    ∃ c1, c.run ops = .ok c1 ∧ CapInv c1 ∧ c1.its.length = c.its.length ∧
      c1.capacity = c.capacity := by
  intro ops
  induction ops with
  | nil => intro c em _ _ hcap; exact ⟨c, rfl, hcap, rfl, rfl⟩
  | cons op ops ih =>
    intro c em hsz hc hcap
    have hsz1 : ∀ x ∈ ops, x.size = BatchSize := fun x hx => hsz x (List.mem_cons_of_mem _ hx)
    have hop := hsz op (List.mem_cons_self _ _)
    cases op with
    | seek t size =>
      simp only [IterOp.size] at hop
      subst hop
      have h0 := mergeInv_restart c em hc.its_wf hc.em_strict hc.em_its
        (fun it => it.Seek t BatchSize) (iterSeek_advances t BatchSize)
      have hcap0 := capInv_restart hcap (fun it => it.Seek t BatchSize)
      obtain ⟨c1, ok, em1, hrun, hinv1, hcap1, hl1, hk1⟩ := buildNextBatch_cap h0 hcap0
      obtain ⟨c2, hrun2, hcap2, hl2, hk2⟩ := ih c1 em1 hsz1 hinv1 hcap1
      refine ⟨c2, ?_, hcap2, ?_, ?_⟩
      · simp only [mergeIterator.run, mergeIterator.Seek, hrun]
        exact hrun2
      · rw [hl2, hl1]
        show (advanceAll (fun it => it.Seek t BatchSize) c.its 0).1.length = c.its.length
        rw [advanceAll_fst, List.length_map]
      · rw [hk2, hk1]
    | next size =>
      simp only [IterOp.size] at hop
      subst hop
      have h0 := mergeInv_pop hc
      have hcap0 := capInv_pop hcap
      obtain ⟨c1, ok, em1, hrun, hinv1, hcap1, hl1, hk1⟩ := buildNextBatch_cap h0 hcap0
      obtain ⟨c2, hrun2, hcap2, hl2, hk2⟩ := ih c1 em1 hsz1 hinv1 hcap1
      refine ⟨c2, ?_, hcap2, ?_, ?_⟩
      · simp only [mergeIterator.run, mergeIterator.Next, hrun]
        exact hrun2
      · rw [hl2, hl1]
        split <;> rfl
      · rw [hk2, hk1]
        split <;> rfl

/-- Counterexample to C14 as stated. With one underlying iterator (K = 1, capacity 2)
over one batch of twelve samples, Seek with size 5 merges that batch into three batches
of 5, 5 and 2 samples, and the slice expression c.batches[:3] exceeds the capacity 2: the
run faults. The same happens when every batch was emitted under a size at least its
length: after Seek and Next with size 12, a Next with size 5 re-packs a batch of twelve
samples. So it is not the case that every run stays within 2*K batches. -/
theorem mergeIterator_exceeds_capacity :
    (∀ it ∈ [iterTwelve, iterGrowing], ∀ b ∈ it.cur.toList ++ it.rest,
      b.Index = 0 ∧ 1 ≤ b.Length ∧ b.Length ≤ BatchSize) ∧
    (∀ it ∈ [iterTwelve, iterGrowing], (it.content.map Prod.fst).Sorted (· < ·)) ∧
    (newMergeIterator [iterTwelve]).capacity = 2 ∧
    (mergeStreamsSized [] [twelveFrom 1] [] 5).map (List.map Batch.Length) = .ok [5, 5, 2] ∧
    ((newMergeIterator [iterTwelve]).run [.seek 0 5]).map (fun _ => ()) =
      .error .indexOutOfRange ∧
    ((newMergeIterator [iterGrowing]).run [.seek 0 12, .next 12]).map
      (fun c => c.batches.map Batch.samples) = .ok [(twelveFrom 2).samples] ∧
    ((newMergeIterator [iterGrowing]).run [.seek 0 12, .next 12, .next 5]).map (fun _ => ()) =
      .error .indexOutOfRange ∧
    ¬ (∀ (its : List nonOverlappingIterator), 1 ≤ its.length →
        (∀ it ∈ its, ∀ b ∈ it.cur.toList ++ it.rest,
          b.Index = 0 ∧ 1 ≤ b.Length ∧ b.Length ≤ BatchSize) →
        (∀ it ∈ its, (it.content.map Prod.fst).Sorted (· < ·)) →
        ∀ ops, ∃ c1, (newMergeIterator its).run ops = .ok c1 ∧
          c1.batches.length ≤ 2 * its.length ∧
          c1.nextBatchesBuf.length ≤ 2 * its.length) := by
  have hb : ∀ it ∈ [iterTwelve, iterGrowing], ∀ b ∈ it.cur.toList ++ it.rest,
      b.Index = 0 ∧ 1 ≤ b.Length ∧ b.Length ≤ BatchSize := by
    decide
  have hs : ∀ it ∈ [iterTwelve, iterGrowing], (it.content.map Prod.fst).Sorted (· < ·) := by
    intro it hit
    simp only [List.mem_cons, List.mem_singleton, List.not_mem_nil, or_false] at hit
    rcases hit with rfl | rfl <;> decide
  have hrun : ((newMergeIterator [iterTwelve]).run [.seek 0 5]).map (fun _ => ()) =
      .error .indexOutOfRange := by decide
  refine ⟨hb, hs, by decide, by decide, hrun, by decide, by decide, ?_⟩
  intro hall
  obtain ⟨c1, hc1, _⟩ := hall [iterTwelve] (by simp)
    (fun it hit => hb it (by simp only [List.mem_singleton] at hit; simp [hit]))
    (fun it hit => hs it (by simp only [List.mem_singleton] at hit; simp [hit]))
    [.seek 0 5]
  rw [hc1] at hrun
  exact absurd hrun (by simp [Except.map])

/-- Claim C14, amended. For a merge iterator built by newMergeIterator over K underlying
iterators (in particular K >= 1) whose batches are non-empty (rewound, at most BatchSize
samples) and whose timestamps are strictly increasing along each iterator, every sequence
of Seek and Next calls that all pass size = BatchSize completes without a fault, so every
evaluation of the slice expression c.batches[:len(c.nextBatchesBuf)] in buildNextBatch
stays within the capacity, and the merge iterator it leaves has capacity 2*K and holds at
most 2*K batches both in c.batches and in c.nextBatchesBuf. -/
theorem mergeIterator_within_capacity (its : List nonOverlappingIterator)
    (hb : ∀ it ∈ its, ∀ b ∈ it.cur.toList ++ it.rest,
      b.Index = 0 ∧ 1 ≤ b.Length ∧ b.Length ≤ BatchSize)
    (hs : ∀ it ∈ its, (it.content.map Prod.fst).Sorted (· < ·))
    (ops : List IterOp) (hsize : ∀ op ∈ ops, op.size = BatchSize) :
    ∃ c1, (newMergeIterator its).run ops = .ok c1 ∧
      c1.capacity = 2 * its.length ∧
      c1.batches.length ≤ 2 * its.length ∧
      c1.nextBatchesBuf.length ≤ 2 * its.length := by
  have hinv := newMergeIterator_inv its (fun it hit => ⟨hb it hit, strictTs_of_sorted (hs it hit)⟩)
  obtain ⟨c1, hrun, hcap, _, hk⟩ := run_cap ops _ [] hsize hinv (newMergeIterator_cap its)
  have hk0 : (newMergeIterator its).capacity = its.length * 2 := rfl
  have h1 := hcap.batches_fit
  have h2 := hcap.buf_fit
  exact ⟨c1, hrun, by omega, by omega, by omega⟩

/-- Witness for the amended C14: two overlapping underlying iterators, read by a Seek and
by Next calls with size 12 until exhaustion; the capacity is 4. -/
theorem mergeIterator_within_capacity_witness :
    ((newMergeIterator [iterOdd, iterMixed]).run [.seek 4 12, .next 12, .next 12]).map
        (fun c => (c.batches.length, c.nextBatchesBuf.length, c.capacity)) = .ok (0, 1, 4) ∧
    ∃ c1, (newMergeIterator [iterOdd, iterMixed]).run [.seek 4 12, .next 12, .next 12] =
        .ok c1 ∧
      c1.capacity = 2 * [iterOdd, iterMixed].length ∧
      c1.batches.length ≤ 2 * [iterOdd, iterMixed].length ∧
      c1.nextBatchesBuf.length ≤ 2 * [iterOdd, iterMixed].length :=
  ⟨by decide,
   mergeIterator_within_capacity [iterOdd, iterMixed]
    (by simp [iterOdd, iterMixed, Batch.ofSamples, BatchSize])
    (by
      intro it hit
      simp only [List.mem_cons, List.mem_singleton, List.not_mem_nil, or_false] at hit
      rcases hit with rfl | rfl <;> decide)
    [.seek 4 12, .next 12, .next 12]
    (by decide)⟩

end Cortex
